import Mathlib

/-!
# Sparse feature transformer kernels (`util.cpp`)

A shallow embedding of `feature_transformer_slice_forward` and
`feature_transformer_slice_backward`.

* Buffers reached through a pointer (`feature_indices`, `feature_values`, `weight`,
  `bias`, `output`, `weight_grad`, `bias_grad`, `output_grad`) are lists; distinct
  parameters are distinct, non-overlapping buffers.  Every access is bounds checked:
  an access outside the buffer is undefined behaviour in the source and makes the
  embedded kernel return `none`.
* The local arrays `shared_output[520]` and `shared_output_grad[520]` start
  uninitialised: their cells are `Option`s that start as `none`, and reading a cell
  that still holds `none` makes the kernel return `none`.
* `int32_t` feature indices are integers; the product `feature_index * output_size`
  is a 32-bit signed product, whose overflow is undefined behaviour (`none`).
* `float` scalars are the elements of a type `α` with `+`, `*`, `0` and decidable
  equality, so that the kernels run in every arithmetic.  The theorems say which laws
  of `α` they use: none (they then hold of binary32 as well), or those of a commutative
  (semi)ring (exact arithmetic).  `Binary32` is the arithmetic of the finite values of
  IEEE 754 binary32, with rounding to nearest, ties to even; it shows where a statement
  of exact arithmetic fails on `float`.  Overflow, infinities and NaN are not modelled.
-/

namespace FeatureTransformer

/-! ## The kernels -/

/-- Source: `int output_size = 520;`. -/
def output_size : Int := 520

/-- Source: `int output_thread_slice_size = 520;` (the bound of every `s` loop). -/
def output_thread_slice_size : Nat := 520

/-- Source: `int max_active_features = 64;` (the bound of the `k` loops). -/
def max_active_features : Nat := 64

/-- Source: `const uint32_t slice_offset = 0;`. -/
def slice_offset : Nat := 0

/-- The value of an integer after reduction to the 32-bit two's complement range. -/
def wrap_int32 (x : Int) : Int := (x + 2 ^ 31) % 2 ^ 32 - 2 ^ 31

/-- The `int` product `a * b`: defined when the mathematical product is representable
in 32 bits (signed overflow is undefined behaviour). -/
def mul_int32 (a b : Int) : Option Int :=
  if wrap_int32 (a * b) = a * b then some (a * b) else none

/-- The buffer position addressed by `ptr[s]` when `ptr` is `base` elements past the
start of its buffer; a position before the start of the buffer is an error. -/
def element_at (base : Int) (s : Nat) : Option Nat :=
  if 0 ≤ base + s then some (base + s).toNat else none

/-- The write `buf[i] = v`, an error outside the buffer. -/
def store {β : Type} (buf : List β) (i : Nat) (v : β) : Option (List β) :=
  if i < buf.length then some (buf.set i v) else none

/-- The read `local[i]` of a local array cell, an error outside the array or when the
cell has not been written yet. -/
def load_local {β : Type} (buf : List (Option β)) (i : Nat) : Option β :=
  (buf[i]?).join

/-- A local array `float name[n];`: `n` cells, none of them initialised. -/
def local_array (β : Type) (n : Nat) : List (Option β) := List.replicate n none

variable {α : Type}

/-- The loop `for (s = 0; s < output_thread_slice_size; ++s) shared[s] = src[s];`,
lines 91-95 (`src = bias_slice`) and 185-189 (`src = output_grad_slice`). -/
def copy_to_shared (src : List α) (shared : List (Option α)) : Option (List (Option α)) :=
  (List.range output_thread_slice_size).foldlM
    (fun sh s => do
      let x ← src[slice_offset + s]?
      store sh (slice_offset + s) (some x))
    shared

/-- The loop of lines 106-110:
`for (s ...) shared_output_slice[s] += weight_slice[s] * feature_value;`
where `weight_slice` points `weight_slice` elements into `weight`. -/
def forward_accumulate [Add α] [Mul α] (weight : List α) (weight_slice : Int)
    (feature_value : α) (shared : List (Option α)) : Option (List (Option α)) :=
  (List.range output_thread_slice_size).foldlM
    (fun sh s => do
      let p ← element_at weight_slice s
      let w ← weight[p]?
      let x ← load_local sh (slice_offset + s)
      store sh (slice_offset + s) (some (x + w * feature_value)))
    shared

/-- The loop of lines 97-114 over the feature slots, started at slot `k` with
`fuel = max_active_features - k` iterations left.  A slot holding `-1` ends the scan
(`break`). -/
def forward_scan [Add α] [Mul α] (feature_indices : List Int) (feature_values : List α)
    (weight : List α) : Nat → Nat → List (Option α) → Option (List (Option α))
  | 0, _, shared => some shared
  | fuel + 1, k, shared => do
    let feature_index ← feature_indices[k]?
    let feature_value ← feature_values[k]?
    if feature_index ≠ -1 then
      let row ← mul_int32 feature_index output_size
      let weight_slice := row + slice_offset
      let shared1 ← forward_accumulate weight weight_slice feature_value shared
      forward_scan feature_indices feature_values weight fuel (k + 1) shared1
    else
      some shared

/-- The loop of lines 116-120:
`for (s ...) output_slice[s] = shared_output_slice[s];`. -/
def copy_from_shared (shared : List (Option α)) (output : List α) : Option (List α) :=
  (List.range output_thread_slice_size).foldlM
    (fun out s => do
      let x ← load_local shared (slice_offset + s)
      store out (slice_offset + s) x)
    output

/-- Source: `feature_transformer_slice_forward` (lines 69-121).  The result is the
content of `output` after the call; `feature_indices`, `feature_values`, `weight` and
`bias` are `const` and are not written. -/
def feature_transformer_slice_forward [Add α] [Mul α] (feature_indices : List Int)
    (feature_values weight bias output : List α) : Option (List α) := do
  let shared_output := local_array α 520
  let shared1 ← copy_to_shared bias shared_output
  let shared2 ← forward_scan feature_indices feature_values weight max_active_features 0 shared1
  copy_from_shared shared2 output

/-- The loop of lines 191-199:
`for (s ...) { sog = shared[s]; if (sog != 0.0f) bias_grad_slice[s] = bias_grad_slice[s] + sog; }`. -/
def backward_bias [Add α] [Zero α] [DecidableEq α] (shared : List (Option α))
    (bias_grad : List α) : Option (List α) :=
  (List.range output_thread_slice_size).foldlM
    (fun bg s => do
      let sog ← load_local shared (slice_offset + s)
      if sog ≠ 0 then
        let b ← bg[slice_offset + s]?
        store bg (slice_offset + s) (b + sog)
      else
        some bg)
    bias_grad

/-- The loop of lines 210-218:
`for (s ...) { sog = shared[s]; if (sog != 0.0f) weight_grad_slice[s] = weight_grad_slice[s] + sog * feature_value; }`
where `weight_grad_slice` points `weight_grad_slice` elements into `weight_grad`. -/
def backward_accumulate [Add α] [Mul α] [Zero α] [DecidableEq α] (shared : List (Option α))
    (weight_grad_slice : Int) (feature_value : α) (weight_grad : List α) : Option (List α) :=
  (List.range output_thread_slice_size).foldlM
    (fun wg s => do
      let sog ← load_local shared (slice_offset + s)
      if sog ≠ 0 then
        let p ← element_at weight_grad_slice s
        let x ← wg[p]?
        store wg p (x + sog * feature_value)
      else
        some wg)
    weight_grad

/-- The loop of lines 201-222 over the feature slots, started at slot `k` with
`fuel = max_active_features - k` iterations left.  A slot holding `-1` ends the scan
(`break`). -/
def backward_scan [Add α] [Mul α] [Zero α] [DecidableEq α] (feature_indices : List Int)
    (feature_values : List α) (shared : List (Option α)) :
    Nat → Nat → List α → Option (List α)
  | 0, _, weight_grad => some weight_grad
  | fuel + 1, k, weight_grad => do
    let feature_index ← feature_indices[k]?
    let feature_value ← feature_values[k]?
    if feature_index ≠ -1 then
      let row ← mul_int32 feature_index output_size
      let weight_grad_slice := row + slice_offset
      let weight_grad1 ← backward_accumulate shared weight_grad_slice feature_value weight_grad
      backward_scan feature_indices feature_values shared fuel (k + 1) weight_grad1
    else
      some weight_grad

/-- Source: `feature_transformer_slice_backward` (lines 163-223).  The result is the
pair of the contents of `weight_grad` and `bias_grad` after the call;
`feature_indices`, `feature_values` and `output_grad` are `const` and are not written. -/
def feature_transformer_slice_backward [Add α] [Mul α] [Zero α] [DecidableEq α]
    (feature_indices : List Int) (feature_values : List α)
    (weight_grad bias_grad output_grad : List α) : Option (List α × List α) := do
  let shared_output_grad := local_array α 520
  let shared1 ← copy_to_shared output_grad shared_output_grad
  let bias_grad1 ← backward_bias shared1 bias_grad
  let weight_grad1 ←
    backward_scan feature_indices feature_values shared1 max_active_features 0 weight_grad
  some (weight_grad1, bias_grad1)


/-! ## The unguarded variant of Backward (comparison point of C7) -/

/-- The bias loop of the unguarded variant of Backward, following the spec's words
("adding zero is a no-op"): `output_grad[j]` is added into `bias_grad[j]` for every
column `j`, without the test `sog != 0`. -/
def backward_bias_unguarded [Add α] (shared : List (Option α)) (bias_grad : List α) :
    Option (List α) :=
  (List.range output_thread_slice_size).foldlM
    (fun bg s => do
      let sog ← load_local shared (slice_offset + s)
      let b ← bg[slice_offset + s]?
      store bg (slice_offset + s) (b + sog))
    bias_grad

/-- The weight loop of the unguarded variant of Backward: `value * output_grad[j]` is
added into `weight_grad[index][j]` for every column `j`, without the test `sog != 0`. -/
def backward_accumulate_unguarded [Add α] [Mul α] (shared : List (Option α))
    (weight_grad_slice : Int) (feature_value : α) (weight_grad : List α) : Option (List α) :=
  (List.range output_thread_slice_size).foldlM
    (fun wg s => do
      let sog ← load_local shared (slice_offset + s)
      let p ← element_at weight_grad_slice s
      let x ← wg[p]?
      store wg p (x + feature_value * sog))
    weight_grad

/-- The scan of the unguarded variant of Backward: the scan of `backward_scan` with the
unguarded weight loop. -/
def backward_scan_unguarded [Add α] [Mul α] (feature_indices : List Int)
    (feature_values : List α) (shared : List (Option α)) :
    Nat → Nat → List α → Option (List α)
  | 0, _, weight_grad => some weight_grad
  | fuel + 1, k, weight_grad => do
    let feature_index ← feature_indices[k]?
    let feature_value ← feature_values[k]?
    if feature_index ≠ -1 then
      let row ← mul_int32 feature_index output_size
      let weight_grad_slice := row + slice_offset
      let weight_grad1 ←
        backward_accumulate_unguarded shared weight_grad_slice feature_value weight_grad
      backward_scan_unguarded feature_indices feature_values shared fuel (k + 1) weight_grad1
    else
      some weight_grad

/-- The unguarded variant of Backward the spec compares the kernel with: every addition
of `feature_transformer_slice_backward` is made unconditionally. -/
def backward_unguarded [Add α] [Mul α] (feature_indices : List Int)
    (feature_values : List α) (weight_grad bias_grad output_grad : List α) :
    Option (List α × List α) := do
  let shared_output_grad := local_array α 520
  let shared1 ← copy_to_shared output_grad shared_output_grad
  let bias_grad1 ← backward_bias_unguarded shared1 bias_grad
  let weight_grad1 ←
    backward_scan_unguarded feature_indices feature_values shared1 max_active_features 0
      weight_grad
  some (weight_grad1, bias_grad1)

/-! ## Forward as a transformation of the caller's buffers (C11) -/

/-- The five buffers a call of `feature_transformer_slice_forward` receives. -/
structure ForwardBuffers (α : Type) where
  feature_indices : List Int
  feature_values : List α
  weight : List α
  bias : List α
  output : List α

/-- The buffers after a call of `feature_transformer_slice_forward`: `output` holds the
row the kernel writes (lines 116-120); `feature_indices`, `feature_values`, `weight` and
`bias` are reached through pointers to `const` and the kernel has no store into them. -/
def forward_call [Add α] [Mul α] (m : ForwardBuffers α) : Option (ForwardBuffers α) := do
  let out ← feature_transformer_slice_forward m.feature_indices m.feature_values m.weight
    m.bias m.output
  some ⟨m.feature_indices, m.feature_values, m.weight, m.bias, out⟩

/-! ## IEEE 754 binary32 scalars

The finite values of `float`: a value is an integer number of `units` of `2^-149`, the
spacing of the subnormal numbers.  The result of `+`, `-` and `*` is the exact result
rounded once to nearest, ties to even, to a significand of 24 bits (`round_binary32`):
the arithmetic of the kernels when `a + b * c` is not contracted into a fused
multiply-add.  Both zeros are the one value `0`, which is how `sog != 0.0f` treats them.
Overflow to an infinity, infinities and NaN are left out: magnitudes are unbounded, so
this is the arithmetic of the kernels on runs that stay finite. -/

/-- The number of low bits the rounding drops: the least `drop ≥ d` with
`a / 2^drop < 2^24`, searched upwards from `d` in at most `fuel` steps (`a` steps are
enough, since `a / 2^a = 0`). -/
def drop_bits (a : Nat) : Nat → Nat → Nat
  | 0, d => d
  | fuel + 1, d => if a / 2 ^ d < 2 ^ 24 then d else drop_bits a fuel (d + 1)

/-- Rounding of the magnitude `a * 2^-d` units to a significand of 24 bits, to nearest,
ties to even; the result is in units.  With `d = 0` the argument is a number of units
(sums and differences), with `d = 149` it is a product of two numbers of units. -/
def round_magnitude (a d : Nat) : Nat :=
  let drop := drop_bits a a d
  let q := a / 2 ^ drop
  let r := a % 2 ^ drop
  let q1 := if 2 ^ drop < 2 * r ∨ (2 * r = 2 ^ drop ∧ q % 2 = 1) then q + 1 else q
  q1 * 2 ^ (drop - d)

/-- A finite binary32 value, as a number of units of `2^-149`.  The values of binary32
are the numbers of units `m * 2^k` with `|m| < 2^24`; `binary32 m e` and every result of
`+`, `-` and `*` are of this form. -/
structure Binary32 where
  units : Int
deriving DecidableEq

/-- The binary32 value nearest to `p * 2^-d` units. -/
def round_binary32 (p : Int) (d : Nat) : Binary32 :=
  ⟨if p < 0 then -(round_magnitude p.natAbs d : Int) else (round_magnitude p.natAbs d : Int)⟩

instance : Add Binary32 := ⟨fun a b => round_binary32 (a.units + b.units) 0⟩

instance : Sub Binary32 := ⟨fun a b => round_binary32 (a.units - b.units) 0⟩

instance : Mul Binary32 := ⟨fun a b => round_binary32 (a.units * b.units) 149⟩

instance : Zero Binary32 := ⟨⟨0⟩⟩

/-- The binary32 value `m * 2^e`, for `-149 ≤ e` and a significand `|m| < 2^24`. -/
def binary32 (m : Int) (e : Int) : Binary32 := ⟨m * ((2 ^ (e + 149).toNat : Nat) : Int)⟩

/-! ## Loops that rewrite one position per iteration -/

theorem foldlM_range_set {β : Type} (body : List β → Nat → Option (List β)) (buf : List β)
    (base : Nat) (F : Nat → β) (n : Nat) (hlen : base + n ≤ buf.length)
    (hbody : ∀ (b : List β) (s : Nat), s < n → b.length = buf.length →
      b[base + s]? = buf[base + s]? → body b s = some (b.set (base + s) (F s))) :
    ∃ buf', (List.range n).foldlM body buf = some buf' ∧ buf'.length = buf.length ∧
      ∀ i, buf'[i]? = if base ≤ i ∧ i < base + n then some (F (i - base)) else buf[i]? := by
  induction n with
  | zero =>
    refine ⟨buf, by simp, rfl, ?_⟩
    intro i
    have h0 : ¬ (base ≤ i ∧ i < base + 0) := by omega
    rw [if_neg h0]
  | succ n ih =>
    obtain ⟨b, hb, hbl, hbi⟩ := ih (by omega) (fun b s hs => hbody b s (by omega))
    have h0 : ¬ (base ≤ base + n ∧ base + n < base + n) := by omega
    have h1 := hbody b n (by omega) hbl (by rw [hbi, if_neg h0])
    refine ⟨b.set (base + n) (F n), ?_, by simp [hbl], ?_⟩
    · rw [List.range_succ, List.foldlM_append, hb]
      simp [h1]
    · intro i
      rw [List.getElem?_set, hbi, hbl]
      by_cases hi : base + n = i
      · subst hi
        have h2 : base + n < buf.length := by omega
        have h3 : base ≤ base + n ∧ base + n < base + (n + 1) := by omega
        simp [h2, h3]
      · rw [if_neg hi]
        by_cases h4 : base ≤ i ∧ i < base + n
        · have h5 : base ≤ i ∧ i < base + (n + 1) := by omega
          rw [if_pos h4, if_pos h5]
        · have h5 : ¬ (base ≤ i ∧ i < base + (n + 1)) := by omega
          rw [if_neg h4, if_neg h5]

theorem store_eq_some {β : Type} (buf : List β) (i : Nat) (v : β) (h : i < buf.length) :
    store buf i v = some (buf.set i v) := by
  simp [store, h]

theorem load_local_eq_some {β : Type} (buf : List (Option β)) (i : Nat) (x : β)
    (h : buf[i]? = some (some x)) : load_local buf i = some x := by
  simp [load_local, h]

theorem set_same {β : Type} (b : List β) (p : Nat) (x : β) (h : b[p]? = some x) :
    b.set p x = b := by
  apply List.ext_getElem?
  intro i
  rw [List.getElem?_set]
  by_cases hp : p = i
  · subst hp
    obtain ⟨hl, _⟩ := List.getElem?_eq_some.mp h
    simp [hl, h]
  · simp [hp]

/-! ## Forward: the loops, the scan and the whole kernel

The lemmas describe each buffer by a function: `buf[j]? = some (v j)` for every position
`j` of the buffer. -/

theorem copy_to_shared_spec (src : List α) (shared : List (Option α)) (v : Nat → α)
    (hsrc : ∀ j, j < 520 → src[j]? = some (v j)) (hsh : shared.length = 520) :
    ∃ sh, copy_to_shared src shared = some sh ∧ sh.length = 520 ∧
      ∀ j, j < 520 → sh[j]? = some (some (v j)) := by
  obtain ⟨sh, h1, h2, h3⟩ := foldlM_range_set
    (fun sh s => do
      let x ← src[slice_offset + s]?
      store sh (slice_offset + s) (some x))
    shared 0 (fun s => some (v s)) 520 (by omega)
    (by
      intro b s hs hbl _
      simp only [slice_offset, Nat.zero_add, hsrc s hs, Option.bind_eq_bind, Option.some_bind]
      exact store_eq_some b s _ (by omega))
  refine ⟨sh, h1, by omega, ?_⟩
  intro j hj
  rw [h3 j, if_pos (by omega)]
  simp

theorem forward_accumulate_spec [Add α] [Mul α] (weight : List α) (base : Int) (fv : α)
    (shared : List (Option α)) (v w : Nat → α) (hbase : 0 ≤ base)
    (hw : ∀ j, j < 520 → weight[base.toNat + j]? = some (w j))
    (hsh : shared.length = 520) (hv : ∀ j, j < 520 → shared[j]? = some (some (v j))) :
    ∃ sh, forward_accumulate weight base fv shared = some sh ∧ sh.length = 520 ∧
      ∀ j, j < 520 → sh[j]? = some (some (v j + w j * fv)) := by
  obtain ⟨sh, h1, h2, h3⟩ := foldlM_range_set
    (fun sh s => do
      let p ← element_at base s
      let w ← weight[p]?
      let x ← load_local sh (slice_offset + s)
      store sh (slice_offset + s) (some (x + w * fv)))
    shared 0 (fun s => some (v s + w s * fv)) 520 (by omega)
    (by
      intro b s hs hbl hbs
      have hp : element_at base s = some (base.toNat + s) := by
        have h0 : 0 ≤ base + (s : Int) := by omega
        have h1 : (base + (s : Int)).toNat = base.toNat + s := by omega
        simp [element_at, h0, h1]
      have hx : load_local b s = some (v s) := by
        apply load_local_eq_some
        rw [Nat.zero_add] at hbs
        rw [hbs]
        exact hv s hs
      simp only [slice_offset, Nat.zero_add, hp, hw s hs, hx, Option.bind_eq_bind,
        Option.some_bind]
      exact store_eq_some b s _ (by omega))
  refine ⟨sh, h1, by omega, ?_⟩
  intro j hj
  rw [h3 j, if_pos (by omega)]
  simp

theorem copy_from_shared_spec (shared : List (Option α)) (output : List α) (v : Nat → α)
    (hv : ∀ j, j < 520 → shared[j]? = some (some (v j))) (hout : output.length = 520) :
    copy_from_shared shared output = some ((List.range 520).map v) := by
  obtain ⟨out, h1, h2, h3⟩ := foldlM_range_set
    (fun out s => do
      let x ← load_local shared (slice_offset + s)
      store out (slice_offset + s) x)
    output 0 v 520 (by omega)
    (by
      intro b s hs hbl _
      have hx : load_local shared s = some (v s) := load_local_eq_some _ _ _ (hv s hs)
      simp only [slice_offset, Nat.zero_add, hx, Option.bind_eq_bind, Option.some_bind]
      exact store_eq_some b s _ (by omega))
  have : out = (List.range 520).map v := by
    apply List.ext_getElem?
    intro i
    rw [h3 i]
    by_cases hi : i < 520
    · rw [if_pos (by omega)]
      simp [List.getElem?_range hi]
    · rw [if_neg (by omega)]
      rw [List.getElem?_eq_none (by omega), List.getElem?_eq_none (by simp; omega)]
  rw [← this]
  exact h1


theorem mul_int32_eq_some (r : Nat) (h : r * 520 < 2 ^ 31) :
    mul_int32 (r : Int) output_size = some ((r * 520 : Nat) : Int) := by
  have h1 : wrap_int32 ((r : Int) * 520) = (r : Int) * 520 := by
    unfold wrap_int32
    norm_num at h ⊢
    omega
  simp only [mul_int32, output_size, h1, if_true]
  simp

theorem forward_scan_stop [Add α] [Mul α] (idx : List Int) (val weight : List α)
    (fuel k : Nat) (shared : List (Option α)) (x : α)
    (h1 : idx[k]? = some (-1)) (h2 : val[k]? = some x) :
    forward_scan idx val weight (fuel + 1) k shared = some shared := by
  rw [forward_scan, h1, h2, Option.bind_eq_bind, Option.some_bind, Option.bind_eq_bind,
    Option.some_bind, if_neg (by simp)]

theorem forward_scan_active [Add α] [Mul α] (idx : List Int) (val weight : List α)
    (fuel k : Nat) (shared : List (Option α)) (r : Nat) (x : α)
    (h1 : idx[k]? = some (r : Int)) (h2 : val[k]? = some x) (h4 : r * 520 < 2 ^ 31) :
    forward_scan idx val weight (fuel + 1) k shared =
      (forward_accumulate weight (((r * 520 : Nat) : Int) + (slice_offset : Nat)) x shared).bind
        (fun sh1 => forward_scan idx val weight fuel (k + 1) sh1) := by
  have hne : (r : Int) ≠ -1 := by omega
  rw [forward_scan, h1, h2, Option.bind_eq_bind, Option.some_bind, Option.bind_eq_bind,
    Option.some_bind, if_pos hne, mul_int32_eq_some r h4, Option.some_bind]
  rfl

theorem forward_scan_spec [Add α] [Mul α] (idx : List Int) (val weight : List α)
    (row : Nat → Nat) (fv : Nat → α) (W : Nat → α)
    (hW : ∀ i, i < weight.length → weight[i]? = some (W i)) :
    ∀ (m fuel k : Nat) (shared : List (Option α)) (v : Nat → α),
      m ≤ fuel →
      (∀ i, i < m → idx[k + i]? = some (row (k + i) : Int) ∧ val[k + i]? = some (fv (k + i)) ∧
        row (k + i) * 520 + 520 ≤ weight.length ∧ row (k + i) * 520 < 2 ^ 31) →
      (m < fuel → idx[k + m]? = some (-1) ∧ ∃ x, val[k + m]? = some x) →
      shared.length = 520 → (∀ j, j < 520 → shared[j]? = some (some (v j))) →
      ∃ sh, forward_scan idx val weight fuel k shared = some sh ∧ sh.length = 520 ∧
        ∀ j, j < 520 → sh[j]? = some (some
          ((List.range' k m).foldl (fun acc i => acc + W (row i * 520 + j) * fv i) (v j))) := by
  intro m
  induction m with
  | zero =>
    intro fuel k shared v _ _ hend hlen hv
    refine ⟨shared, ?_, hlen, by simpa using hv⟩
    cases fuel with
    | zero => rfl
    | succ fuel =>
      obtain ⟨h1, x, h2⟩ := hend (by omega)
      simp only [Nat.add_zero] at h1 h2
      exact forward_scan_stop idx val weight fuel k shared x h1 h2
  | succ m ih =>
    intro fuel k shared v hm hact hend hlen hv
    cases fuel with
    | zero => omega
    | succ fuel =>
      obtain ⟨h1, h2, h3, h4⟩ := hact 0 (by omega)
      simp only [Nat.add_zero] at h1 h2 h3 h4
      obtain ⟨sh1, e1, l1, p1⟩ := forward_accumulate_spec weight
        (((row k * 520 : Nat) : Int) + (slice_offset : Nat)) (fv k) shared v
        (fun j => W (row k * 520 + j)) (by simp only [slice_offset]; omega)
        (by
          intro j hj
          have : (((row k * 520 : Nat) : Int) + (slice_offset : Nat)).toNat = row k * 520 := by
            simp only [slice_offset]; omega
          rw [this]
          exact hW _ (by omega))
        hlen hv
      obtain ⟨sh, e2, l2, p2⟩ := ih fuel (k + 1) sh1 (fun j => v j + W (row k * 520 + j) * fv k)
        (by omega)
        (by
          intro i hi
          have := hact (i + 1) (by omega)
          rwa [show k + (i + 1) = k + 1 + i by omega] at this)
        (by
          intro hlt
          have := hend (by omega)
          rwa [show k + (m + 1) = k + 1 + m by omega] at this)
        l1 p1
      refine ⟨sh, ?_, l2, ?_⟩
      · rw [forward_scan_active idx val weight fuel k shared (row k) (fv k) h1 h2 h4, e1,
          Option.some_bind]
        exact e2
      · intro j hj
        rw [p2 j hj, List.range'_succ, List.foldl_cons]


theorem getElem?_eq_some_getD {β : Type} (l : List β) (d : β) (i : Nat) (h : i < l.length) :
    l[i]? = some (l.getD i d) := by
  rw [List.getD_eq_getElem l d h, List.getElem?_eq_getElem h]

theorem forward_spec [Add α] [Mul α] (idx : List Int) (val weight bias output : List α)
    (row : Nat → Nat) (fv W B : Nat → α) (n : Nat)
    (hW : ∀ i, i < weight.length → weight[i]? = some (W i))
    (hB : ∀ j, j < 520 → bias[j]? = some (B j)) (hout : output.length = 520)
    (hn : n ≤ 64)
    (hact : ∀ i, i < n → idx[i]? = some (row i : Int) ∧ val[i]? = some (fv i) ∧
      row i * 520 + 520 ≤ weight.length ∧ row i * 520 < 2 ^ 31)
    (hend : n < 64 → idx[n]? = some (-1) ∧ ∃ x, val[n]? = some x) :
    feature_transformer_slice_forward idx val weight bias output =
      some ((List.range 520).map fun j =>
        (List.range n).foldl (fun acc i => acc + W (row i * 520 + j) * fv i) (B j)) := by
  obtain ⟨sh1, e1, l1, p1⟩ := copy_to_shared_spec bias (local_array α 520) B hB
    (List.length_replicate _ _)
  obtain ⟨sh2, e2, _, p2⟩ := forward_scan_spec idx val weight row fv W hW n 64 0 sh1 B hn
    (by simpa using hact) (by simpa using hend) l1 p1
  unfold feature_transformer_slice_forward
  dsimp only
  rw [e1, Option.bind_eq_bind, Option.some_bind]
  unfold max_active_features
  rw [e2, Option.some_bind,
    copy_from_shared_spec sh2 output _ p2 hout, List.range_eq_range' n]


/-! ## C1: postcondition of Forward -/

/-- C1. For index/value lists of length `max_active_features` whose first `-1` is at
position `n` (`n = 64` when there is none) and whose entries before `n` are valid rows
of `weight`, Forward returns the row `output[j] = bias[j] + Σ_{k<n} value[k] *
weight[index[k]][j]`, `j < output_size`, the terms being added in scan order
`k = 0, ..., n-1` starting from `bias[j]`. -/
theorem forward_postcondition [Add α] [CommMagma α] [Zero α]
    (feature_indices : List Int) (feature_values weight bias output : List α)
    (num_inputs n : Nat)
    (hidx : feature_indices.length = 64) (hval : feature_values.length = 64)
    (hweight : weight.length = num_inputs * 520) (hnum : num_inputs * 520 < 2 ^ 31)
    (hbias : bias.length = 520) (hout : output.length = 520) (hn : n ≤ 64)
    (hvalid : ∀ k, k < n →
      0 ≤ feature_indices.getD k 0 ∧ feature_indices.getD k 0 < num_inputs)
    (hend : n < 64 → feature_indices.getD n 0 = -1) :
    feature_transformer_slice_forward feature_indices feature_values weight bias output =
      some ((List.range 520).map fun j =>
        (List.range n).foldl
          (fun acc k => acc + feature_values.getD k 0 *
            weight.getD ((feature_indices.getD k 0).toNat * 520 + j) 0)
          (bias.getD j 0)) := by
  rw [forward_spec feature_indices feature_values weight bias output
    (fun k => (feature_indices.getD k 0).toNat) (fun k => feature_values.getD k 0)
    (fun i => weight.getD i 0) (fun j => bias.getD j 0) n
    (fun i hi => getElem?_eq_some_getD weight 0 i hi)
    (fun j hj => getElem?_eq_some_getD bias 0 j (by omega)) hout hn
    (by
      intro i hi
      obtain ⟨h0, h1⟩ := hvalid i hi
      have h2 : (((feature_indices.getD i 0).toNat : Nat) : Int) = feature_indices.getD i 0 :=
        Int.toNat_of_nonneg h0
      refine ⟨?_, getElem?_eq_some_getD feature_values 0 i (by omega), ?_, ?_⟩
      · rw [h2]
        exact getElem?_eq_some_getD feature_indices 0 i (by omega)
      · have : (feature_indices.getD i 0).toNat < num_inputs := by omega
        dsimp only
        omega
      · have : (feature_indices.getD i 0).toNat < num_inputs := by omega
        dsimp only
        omega)
    (by
      intro hlt
      refine ⟨?_, feature_values.getD n 0, getElem?_eq_some_getD feature_values 0 n (by omega)⟩
      rw [getElem?_eq_some_getD feature_indices 0 n (by omega), hend hlt])]
  simp only [mul_comm]

/-- Witness for C1: two active features (rows 7 and 3 of an 8-row matrix), integer scalars. -/
theorem forward_postcondition_witness :
    feature_transformer_slice_forward (7 :: 3 :: List.replicate 62 (-1))
        (List.replicate 64 (2 : ℤ)) (List.replicate (8 * 520) 5) (List.replicate 520 1)
        (List.replicate 520 0) =
      some ((List.range 520).map fun j =>
        (List.range 2).foldl
          (fun acc k => acc + (List.replicate 64 (2 : ℤ)).getD k 0 *
            (List.replicate (8 * 520) (5 : ℤ)).getD
              (((7 :: 3 :: List.replicate 62 (-1) : List Int).getD k 0).toNat * 520 + j) 0)
          ((List.replicate 520 (1 : ℤ)).getD j 0)) :=
  forward_postcondition (7 :: 3 :: List.replicate 62 (-1)) (List.replicate 64 (2 : ℤ))
    (List.replicate (8 * 520) 5) (List.replicate 520 1) (List.replicate 520 0) 8 2
    (by simp) (List.length_replicate _ _) (List.length_replicate _ _) (by norm_num)
    (List.length_replicate _ _) (List.length_replicate _ _) (by norm_num)
    (by intro k hk; interval_cases k <;> simp)
    (by intro _; simp)

/-! ## Backward: the loops, the scan and the whole kernel -/

theorem foldlM_range_set_all {β : Type} (body : List β → Nat → Option (List β)) (buf : List β)
    (F : Nat → β) (n : Nat) (hlen : buf.length = n)
    (hbody : ∀ (b : List β) (s : Nat), s < n → b.length = buf.length →
      b[s]? = buf[s]? → body b s = some (b.set s (F s))) :
    (List.range n).foldlM body buf = some ((List.range n).map F) := by
  obtain ⟨out, h1, h2, h3⟩ := foldlM_range_set body buf 0 F n (by omega)
    (by
      intro b s hs hbl hbs
      rw [Nat.zero_add] at hbs ⊢
      exact hbody b s hs hbl hbs)
  have : out = (List.range n).map F := by
    apply List.ext_getElem?
    intro i
    rw [h3 i]
    by_cases hi : i < n
    · rw [if_pos (by omega)]
      simp [List.getElem?_range hi]
    · rw [if_neg (by omega)]
      rw [List.getElem?_eq_none (by omega), List.getElem?_eq_none (by simp; omega)]
  rw [← this]
  exact h1

theorem getElem?_map_range {β : Type} (F : Nat → β) (n i : Nat) (h : i < n) :
    ((List.range n).map F)[i]? = some (F i) := by
  simp [List.getElem?_range h]

theorem backward_bias_spec [Add α] [Zero α] [DecidableEq α] (shared : List (Option α))
    (bias_grad : List α) (g b : Nat → α)
    (hg : ∀ j, j < 520 → shared[j]? = some (some (g j)))
    (hb : ∀ j, j < 520 → bias_grad[j]? = some (b j)) (hlen : bias_grad.length = 520) :
    backward_bias shared bias_grad =
      some ((List.range 520).map fun j => if g j ≠ 0 then b j + g j else b j) := by
  have h := foldlM_range_set_all
    (fun bg s => do
      let sog ← load_local shared (slice_offset + s)
      if sog ≠ 0 then
        let b ← bg[slice_offset + s]?
        store bg (slice_offset + s) (b + sog)
      else
        some bg)
    bias_grad (fun j => if g j ≠ 0 then b j + g j else b j) 520 hlen
    (by
      intro bg s hs hbl hbs
      have hx : load_local shared s = some (g s) := load_local_eq_some _ _ _ (hg s hs)
      have hbs2 : bg[s]? = some (b s) := by rw [hbs]; exact hb s hs
      dsimp only
      rw [slice_offset, Nat.zero_add, hx, Option.bind_eq_bind, Option.some_bind]
      by_cases h0 : g s ≠ 0
      · rw [if_pos h0, if_pos h0, hbs2, Option.some_bind]
        exact store_eq_some bg s _ (by omega)
      · rw [if_neg h0, if_neg h0, set_same bg s (b s) hbs2])
  exact h

theorem backward_accumulate_spec [Add α] [Mul α] [Zero α] [DecidableEq α]
    (shared : List (Option α)) (base : Int) (fv : α) (weight_grad : List α) (g W : Nat → α)
    (hg : ∀ j, j < 520 → shared[j]? = some (some (g j)))
    (hbase : 0 ≤ base) (hlen : base.toNat + 520 ≤ weight_grad.length)
    (hW : ∀ i, i < weight_grad.length → weight_grad[i]? = some (W i)) :
    ∃ wg, backward_accumulate shared base fv weight_grad = some wg ∧
      wg.length = weight_grad.length ∧
      ∀ i, i < weight_grad.length → wg[i]? = some
        (if base.toNat ≤ i ∧ i < base.toNat + 520 ∧ g (i - base.toNat) ≠ 0
          then W i + g (i - base.toNat) * fv else W i) := by
  obtain ⟨wg, h1, h2, h3⟩ := foldlM_range_set
    (fun wg s => do
      let sog ← load_local shared (slice_offset + s)
      if sog ≠ 0 then
        let p ← element_at base s
        let x ← wg[p]?
        store wg p (x + sog * fv)
      else
        some wg)
    weight_grad base.toNat
    (fun s => if g s ≠ 0 then W (base.toNat + s) + g s * fv else W (base.toNat + s)) 520 hlen
    (by
      intro b s hs hbl hbs
      have hp : element_at base s = some (base.toNat + s) := by
        have h0 : 0 ≤ base + (s : Int) := by omega
        have h1 : (base + (s : Int)).toNat = base.toNat + s := by omega
        simp [element_at, h0, h1]
      have hx : load_local shared s = some (g s) := load_local_eq_some _ _ _ (hg s hs)
      have hbs2 : b[base.toNat + s]? = some (W (base.toNat + s)) := by
        rw [hbs]
        exact hW _ (by omega)
      dsimp only
      rw [slice_offset, Nat.zero_add, hx, Option.bind_eq_bind, Option.some_bind]
      by_cases h0 : g s ≠ 0
      · rw [if_pos h0, if_pos h0]
        simp only [hp, hbs2, Option.bind_eq_bind, Option.some_bind]
        exact store_eq_some b _ _ (by omega)
      · rw [if_neg h0, if_neg h0, set_same b _ _ hbs2])
  refine ⟨wg, h1, h2, ?_⟩
  intro i hi
  rw [h3 i]
  by_cases hin : base.toNat ≤ i ∧ i < base.toNat + 520
  · rw [if_pos hin]
    have e : base.toNat + (i - base.toNat) = i := by omega
    by_cases h0 : g (i - base.toNat) ≠ 0
    · rw [if_pos h0, if_pos ⟨hin.1, hin.2, h0⟩, e]
    · rw [if_neg h0, if_neg (fun h => h0 h.2.2), e]
  · rw [if_neg hin, if_neg (fun h => hin ⟨h.1, h.2.1⟩)]
    exact hW i hi

theorem backward_scan_stop [Add α] [Mul α] [Zero α] [DecidableEq α] (idx : List Int)
    (val : List α) (shared : List (Option α)) (fuel k : Nat) (wg : List α) (x : α)
    (h1 : idx[k]? = some (-1)) (h2 : val[k]? = some x) :
    backward_scan idx val shared (fuel + 1) k wg = some wg := by
  rw [backward_scan, h1, h2, Option.bind_eq_bind, Option.some_bind, Option.bind_eq_bind,
    Option.some_bind, if_neg (by simp)]

theorem backward_scan_active [Add α] [Mul α] [Zero α] [DecidableEq α] (idx : List Int)
    (val : List α) (shared : List (Option α)) (fuel k : Nat) (wg : List α) (r : Nat) (x : α)
    (h1 : idx[k]? = some (r : Int)) (h2 : val[k]? = some x) (h4 : r * 520 < 2 ^ 31) :
    backward_scan idx val shared (fuel + 1) k wg =
      (backward_accumulate shared (((r * 520 : Nat) : Int) + (slice_offset : Nat)) x wg).bind
        (fun wg1 => backward_scan idx val shared fuel (k + 1) wg1) := by
  have hne : (r : Int) ≠ -1 := by omega
  rw [backward_scan, h1, h2, Option.bind_eq_bind, Option.some_bind, Option.bind_eq_bind,
    Option.some_bind, if_pos hne, mul_int32_eq_some r h4, Option.some_bind]
  rfl

theorem backward_scan_spec [Add α] [Mul α] [Zero α] [DecidableEq α] (idx : List Int)
    (val : List α) (shared : List (Option α)) (row : Nat → Nat) (fv g : Nat → α) (L : Nat)
    (hg : ∀ j, j < 520 → shared[j]? = some (some (g j))) :
    ∀ (m fuel k : Nat) (wg : List α) (W : Nat → α),
      m ≤ fuel →
      (∀ i, i < m → idx[k + i]? = some (row (k + i) : Int) ∧ val[k + i]? = some (fv (k + i)) ∧
        row (k + i) * 520 + 520 ≤ L ∧ row (k + i) * 520 < 2 ^ 31) →
      (m < fuel → idx[k + m]? = some (-1) ∧ ∃ x, val[k + m]? = some x) →
      wg.length = L → (∀ i, i < L → wg[i]? = some (W i)) →
      ∃ wg', backward_scan idx val shared fuel k wg = some wg' ∧ wg'.length = L ∧
        ∀ i, i < L → wg'[i]? = some
          ((List.range' k m).foldl
            (fun acc t =>
              if row t * 520 ≤ i ∧ i < row t * 520 + 520 ∧ g (i - row t * 520) ≠ 0
                then acc + g (i - row t * 520) * fv t else acc)
            (W i)) := by
  intro m
  induction m with
  | zero =>
    intro fuel k wg W _ _ hend hlen hW
    refine ⟨wg, ?_, hlen, by simpa using hW⟩
    cases fuel with
    | zero => rfl
    | succ fuel =>
      obtain ⟨h1, x, h2⟩ := hend (by omega)
      simp only [Nat.add_zero] at h1 h2
      exact backward_scan_stop idx val shared fuel k wg x h1 h2
  | succ m ih =>
    intro fuel k wg W hm hact hend hlen hW
    cases fuel with
    | zero => omega
    | succ fuel =>
      obtain ⟨h1, h2, h3, h4⟩ := hact 0 (by omega)
      simp only [Nat.add_zero] at h1 h2 h3 h4
      have hb : (((row k * 520 : Nat) : Int) + (slice_offset : Nat)).toNat = row k * 520 := by
        simp only [slice_offset]; omega
      obtain ⟨wg1, e1, l1, p1⟩ := backward_accumulate_spec shared
        (((row k * 520 : Nat) : Int) + (slice_offset : Nat)) (fv k) wg g W hg
        (by simp only [slice_offset]; omega) (by rw [hb]; omega)
        (by intro i hi; exact hW i (by omega))
      rw [hb] at p1
      obtain ⟨wg', e2, l2, p2⟩ := ih fuel (k + 1) wg1
        (fun i => if row k * 520 ≤ i ∧ i < row k * 520 + 520 ∧ g (i - row k * 520) ≠ 0
          then W i + g (i - row k * 520) * fv k else W i)
        (by omega)
        (by
          intro i hi
          have := hact (i + 1) (by omega)
          rwa [show k + (i + 1) = k + 1 + i by omega] at this)
        (by
          intro hlt
          have := hend (by omega)
          rwa [show k + (m + 1) = k + 1 + m by omega] at this)
        (by omega) (by intro i hi; exact p1 i (by omega))
      refine ⟨wg', ?_, l2, ?_⟩
      · rw [backward_scan_active idx val shared fuel k wg (row k) (fv k) h1 h2 h4, e1,
          Option.some_bind]
        exact e2
      · intro i hi
        rw [p2 i hi, List.range'_succ, List.foldl_cons]

theorem backward_spec [Add α] [Mul α] [Zero α] [DecidableEq α] (idx : List Int)
    (val wg bg og : List α) (row : Nat → Nat) (fv g b W : Nat → α) (n : Nat)
    (hg : ∀ j, j < 520 → og[j]? = some (g j))
    (hb : ∀ j, j < 520 → bg[j]? = some (b j)) (hbg : bg.length = 520)
    (hW : ∀ i, i < wg.length → wg[i]? = some (W i))
    (hn : n ≤ 64)
    (hact : ∀ i, i < n → idx[i]? = some (row i : Int) ∧ val[i]? = some (fv i) ∧
      row i * 520 + 520 ≤ wg.length ∧ row i * 520 < 2 ^ 31)
    (hend : n < 64 → idx[n]? = some (-1) ∧ ∃ x, val[n]? = some x) :
    feature_transformer_slice_backward idx val wg bg og =
      some ((List.range wg.length).map (fun i =>
          (List.range n).foldl
            (fun acc t =>
              if row t * 520 ≤ i ∧ i < row t * 520 + 520 ∧ g (i - row t * 520) ≠ 0
                then acc + g (i - row t * 520) * fv t else acc)
            (W i)),
        (List.range 520).map (fun j => if g j ≠ 0 then b j + g j else b j)) := by
  obtain ⟨sh1, e1, l1, p1⟩ := copy_to_shared_spec og (local_array α 520) g hg
    (List.length_replicate _ _)
  have e2 := backward_bias_spec sh1 bg g b p1 hb hbg
  obtain ⟨wg', e3, l3, p3⟩ := backward_scan_spec idx val sh1 row fv g wg.length p1 n 64 0 wg W
    hn (by simpa using hact) (by simpa using hend) rfl hW
  have e4 : wg' = (List.range wg.length).map (fun i =>
      (List.range n).foldl
        (fun acc t =>
          if row t * 520 ≤ i ∧ i < row t * 520 + 520 ∧ g (i - row t * 520) ≠ 0
            then acc + g (i - row t * 520) * fv t else acc)
        (W i)) := by
    apply List.ext_getElem?
    intro i
    by_cases hi : i < wg.length
    · rw [p3 i hi, getElem?_map_range _ _ _ hi, List.range_eq_range' n]
    · rw [List.getElem?_eq_none (by omega), List.getElem?_eq_none (by simp; omega)]
  unfold feature_transformer_slice_backward
  dsimp only
  rw [e1, Option.bind_eq_bind, Option.some_bind, e2, Option.bind_eq_bind, Option.some_bind]
  unfold max_active_features
  rw [e3, Option.some_bind, e4]

/-! ## The caller contract, and Backward in a commutative semiring -/

theorem contract_active (idx : List Int) (val : List α) (d : α) (L num_inputs n : Nat)
    (hidx : idx.length = 64) (hval : val.length = 64) (hL : L = num_inputs * 520)
    (hnum : num_inputs * 520 < 2 ^ 31) (hn : n ≤ 64)
    (hvalid : ∀ k, k < n → 0 ≤ idx.getD k 0 ∧ idx.getD k 0 < num_inputs) :
    ∀ i, i < n → idx[i]? = some (((idx.getD i 0).toNat : Nat) : Int) ∧
      val[i]? = some (val.getD i d) ∧ (idx.getD i 0).toNat * 520 + 520 ≤ L ∧
      (idx.getD i 0).toNat * 520 < 2 ^ 31 := by
  intro i hi
  obtain ⟨h0, h1⟩ := hvalid i hi
  have h2 : (((idx.getD i 0).toNat : Nat) : Int) = idx.getD i 0 := Int.toNat_of_nonneg h0
  have h3 : (idx.getD i 0).toNat < num_inputs := by omega
  refine ⟨?_, getElem?_eq_some_getD val d i (by omega), by omega, by omega⟩
  rw [h2]
  exact getElem?_eq_some_getD idx 0 i (by omega)

theorem contract_end (idx : List Int) (val : List α) (d : α) (n : Nat)
    (hidx : idx.length = 64) (hval : val.length = 64)
    (hend : n < 64 → idx.getD n 0 = -1) :
    n < 64 → idx[n]? = some (-1) ∧ ∃ x, val[n]? = some x := by
  intro hlt
  refine ⟨?_, val.getD n d, getElem?_eq_some_getD val d n (by omega)⟩
  rw [getElem?_eq_some_getD idx 0 n (by omega), hend hlt]

theorem foldl_range_eq_sum [AddCommMonoid α] (step : α → Nat → α) (term : Nat → α) (a : α)
    (n : Nat) (h : ∀ acc t, t < n → step acc t = acc + term t) :
    (List.range n).foldl step a = a + ∑ t in Finset.range n, term t := by
  induction n with
  | zero => simp
  | succ n ih =>
    rw [List.range_succ, List.foldl_append, List.foldl_cons, List.foldl_nil,
      ih (fun acc t ht => h acc t (by omega)), h _ n (by omega), Finset.sum_range_succ,
      add_assoc]

theorem backward_sum [CommSemiring α] [DecidableEq α] (idx : List Int)
    (val wg bg og : List α) (num_inputs n : Nat)
    (hidx : idx.length = 64) (hval : val.length = 64)
    (hwg : wg.length = num_inputs * 520) (hnum : num_inputs * 520 < 2 ^ 31)
    (hbg : bg.length = 520) (hog : og.length = 520) (hn : n ≤ 64)
    (hvalid : ∀ k, k < n → 0 ≤ idx.getD k 0 ∧ idx.getD k 0 < num_inputs)
    (hend : n < 64 → idx.getD n 0 = -1) :
    feature_transformer_slice_backward idx val wg bg og =
      some ((List.range (num_inputs * 520)).map (fun p =>
          wg.getD p 0 + ∑ k in Finset.range n,
            if (idx.getD k 0).toNat = p / 520 then val.getD k 0 * og.getD (p % 520) 0 else 0),
        (List.range 520).map (fun j => bg.getD j 0 + og.getD j 0)) := by
  rw [backward_spec idx val wg bg og (fun k => (idx.getD k 0).toNat) (fun k => val.getD k 0)
    (fun j => og.getD j 0) (fun j => bg.getD j 0) (fun i => wg.getD i 0) n
    (fun j hj => getElem?_eq_some_getD og 0 j (by omega))
    (fun j hj => getElem?_eq_some_getD bg 0 j (by omega)) hbg
    (fun i hi => getElem?_eq_some_getD wg 0 i hi) hn
    (contract_active idx val 0 wg.length num_inputs n hidx hval hwg hnum hn hvalid)
    (contract_end idx val 0 n hidx hval hend), hwg]
  refine congrArg some (congrArg₂ Prod.mk ?_ ?_)
  · apply List.map_congr_left
    intro p _
    apply foldl_range_eq_sum
    intro acc t _
    dsimp only
    by_cases hr : (idx.getD t 0).toNat = p / 520
    · have h1 : (idx.getD t 0).toNat * 520 ≤ p ∧ p < (idx.getD t 0).toNat * 520 + 520 := by
        omega
      have h2 : p - (idx.getD t 0).toNat * 520 = p % 520 := by omega
      rw [if_pos hr, h2]
      by_cases h0 : og.getD (p % 520) 0 ≠ 0
      · rw [if_pos ⟨h1.1, h1.2, h0⟩, mul_comm]
      · rw [if_neg (fun h => h0 h.2.2)]
        rw [not_not] at h0
        rw [h0, mul_zero, add_zero]
    · rw [if_neg hr, add_zero, if_neg]
      intro h
      omega
  · apply List.map_congr_left
    intro j _
    by_cases h0 : og.getD j 0 ≠ 0
    · rw [if_pos h0]
    · rw [if_neg h0]
      rw [not_not] at h0
      rw [h0, add_zero]

/-! ## C2: postcondition of Backward -/

/-- C2. Under the caller contract (lists of length 64 with active prefix of length `n`,
whose entries are rows of `weight_grad`), Backward leaves
`bias_grad'[j] = bias_grad[j] + output_grad[j]` for every column `j` and
`weight_grad'[i][j] = weight_grad[i][j] + Σ_{k<n, index[k]=i} value[k] * output_grad[j]`
for every row `i` and column `j`: an index that occurs several times in the active
prefix contributes once per occurrence. -/
theorem backward_postcondition [CommSemiring α] [DecidableEq α]
    (feature_indices : List Int) (feature_values weight_grad bias_grad output_grad : List α)
    (num_inputs n : Nat)
    (hidx : feature_indices.length = 64) (hval : feature_values.length = 64)
    (hwg : weight_grad.length = num_inputs * 520) (hnum : num_inputs * 520 < 2 ^ 31)
    (hbg : bias_grad.length = 520) (hog : output_grad.length = 520) (hn : n ≤ 64)
    (hvalid : ∀ k, k < n →
      0 ≤ feature_indices.getD k 0 ∧ feature_indices.getD k 0 < num_inputs)
    (hend : n < 64 → feature_indices.getD n 0 = -1) :
    ∃ weight_grad' bias_grad',
      feature_transformer_slice_backward feature_indices feature_values weight_grad bias_grad
        output_grad = some (weight_grad', bias_grad') ∧
      weight_grad'.length = num_inputs * 520 ∧ bias_grad'.length = 520 ∧
      (∀ j, j < 520 →
        bias_grad'[j]? = some (bias_grad.getD j 0 + output_grad.getD j 0)) ∧
      (∀ i j, i < num_inputs → j < 520 →
        weight_grad'[i * 520 + j]? = some (weight_grad.getD (i * 520 + j) 0 +
          ∑ k in (Finset.range n).filter (fun k => feature_indices.getD k 0 = (i : Int)),
            feature_values.getD k 0 * output_grad.getD j 0)) := by
  refine ⟨_, _, backward_sum feature_indices feature_values weight_grad bias_grad output_grad
    num_inputs n hidx hval hwg hnum hbg hog hn hvalid hend, ?_, ?_, ?_, ?_⟩
  · rw [List.length_map, List.length_range]
  · rw [List.length_map, List.length_range]
  · intro j hj
    rw [getElem?_map_range _ _ _ hj]
  · intro i j hi hj
    rw [getElem?_map_range _ _ _ (by omega)]
    have h1 : (i * 520 + j) / 520 = i := by omega
    have h2 : (i * 520 + j) % 520 = j := by omega
    rw [h1, h2, Finset.sum_filter]
    congr 2
    apply Finset.sum_congr rfl
    intro k hk
    have hk' : k < n := Finset.mem_range.mp hk
    obtain ⟨h0, _⟩ := hvalid k hk'
    have h3 : ((feature_indices.getD k 0).toNat = i) ↔ (feature_indices.getD k 0 = (i : Int)) := by
      omega
    simp only [h3]

/-- Witness for C2: index 3 occurs twice in the active prefix `[3, 5, 3]`. -/
theorem backward_postcondition_witness :
    ∃ weight_grad' bias_grad',
      feature_transformer_slice_backward (3 :: 5 :: 3 :: List.replicate 61 (-1))
        (List.replicate 64 (2 : ℤ)) (List.replicate (8 * 520) 7) (List.replicate 520 1)
        (List.replicate 520 4) = some (weight_grad', bias_grad') ∧
      weight_grad'.length = 8 * 520 ∧ bias_grad'.length = 520 ∧
      (∀ j, j < 520 →
        bias_grad'[j]? = some ((List.replicate 520 (1 : ℤ)).getD j 0 +
          (List.replicate 520 (4 : ℤ)).getD j 0)) ∧
      (∀ i j : Nat, i < 8 → j < 520 →
        weight_grad'[i * 520 + j]? = some ((List.replicate (8 * 520) (7 : ℤ)).getD (i * 520 + j) 0 +
          ∑ k in (Finset.range 3).filter
              (fun k => (3 :: 5 :: 3 :: List.replicate 61 (-1) : List Int).getD k 0 = (i : Int)),
            (List.replicate 64 (2 : ℤ)).getD k 0 * (List.replicate 520 (4 : ℤ)).getD j 0)) :=
  backward_postcondition (3 :: 5 :: 3 :: List.replicate 61 (-1)) (List.replicate 64 (2 : ℤ))
    (List.replicate (8 * 520) 7) (List.replicate 520 1) (List.replicate 520 4) 8 3
    (by simp) (List.length_replicate _ _) (List.length_replicate _ _) (by norm_num)
    (List.length_replicate _ _) (List.length_replicate _ _) (by norm_num)
    (by intro k hk; interval_cases k <;> simp)
    (by intro _; simp)

/-! ## C3: early exit of Forward -/

theorem forward_scan_succ [Add α] [Mul α] (idx : List Int) (val weight : List α)
    (fuel k : Nat) (shared : List (Option α)) :
    forward_scan idx val weight (fuel + 1) k shared =
      (idx[k]?).bind (fun feature_index => (val[k]?).bind (fun feature_value =>
        if feature_index ≠ -1 then
          (mul_int32 feature_index output_size).bind (fun row =>
            (forward_accumulate weight (row + slice_offset) feature_value shared).bind
              (fun shared1 => forward_scan idx val weight fuel (k + 1) shared1))
        else some shared)) := by
  rw [forward_scan]
  rfl

theorem forward_scan_agree [Add α] [Mul α] (idx1 idx2 : List Int) (val1 val2 weight : List α) :
    ∀ (m fuel k : Nat) (shared : List (Option α)),
      (∀ i, i < m → idx1[k + i]? = idx2[k + i]? ∧ val1[k + i]? = val2[k + i]?) →
      idx1[k + m]? = some (-1) → idx2[k + m]? = some (-1) →
      (∃ x, val1[k + m]? = some x) → (∃ x, val2[k + m]? = some x) →
      forward_scan idx1 val1 weight fuel k shared =
        forward_scan idx2 val2 weight fuel k shared := by
  intro m
  induction m with
  | zero =>
    intro fuel k shared _ h1 h2 hx1 hx2
    cases fuel with
    | zero => rfl
    | succ fuel =>
      obtain ⟨x1, hx1⟩ := hx1
      obtain ⟨x2, hx2⟩ := hx2
      rw [forward_scan_stop idx1 val1 weight fuel k shared x1 h1 hx1,
        forward_scan_stop idx2 val2 weight fuel k shared x2 h2 hx2]
  | succ m ih =>
    intro fuel k shared hagree h1 h2 hx1 hx2
    cases fuel with
    | zero => rfl
    | succ fuel =>
      obtain ⟨e1, e2⟩ := hagree 0 (by omega)
      rw [Nat.add_zero] at e1 e2
      rw [forward_scan_succ, forward_scan_succ, e1, e2]
      refine congrArg _ (funext fun feature_index => congrArg _ (funext fun feature_value => ?_))
      by_cases hne : feature_index ≠ -1
      · rw [if_pos hne, if_pos hne]
        refine congrArg _ (funext fun row => congrArg _ (funext fun shared1 => ?_))
        apply ih fuel (k + 1) shared1
        · intro i hi
          have := hagree (i + 1) (by omega)
          rwa [show k + (i + 1) = k + 1 + i by omega] at this
        · rwa [show k + (m + 1) = k + 1 + m by omega] at h1
        · rwa [show k + (m + 1) = k + 1 + m by omega] at h2
        · rwa [show k + (m + 1) = k + 1 + m by omega] at hx1
        · rwa [show k + (m + 1) = k + 1 + m by omega] at hx2
      · rw [if_neg hne, if_neg hne]

theorem forward_congr_scan [Add α] [Mul α] (idx1 idx2 : List Int)
    (val1 val2 weight bias output : List α)
    (h : ∀ shared : List (Option α),
      forward_scan idx1 val1 weight 64 0 shared = forward_scan idx2 val2 weight 64 0 shared) :
    feature_transformer_slice_forward idx1 val1 weight bias output =
      feature_transformer_slice_forward idx2 val2 weight bias output := by
  unfold feature_transformer_slice_forward max_active_features
  dsimp only
  refine congrArg _ (funext fun shared1 => ?_)
  rw [h shared1]

theorem forward_defined [Add α] [Mul α] (idx : List Int) (val weight bias output : List α)
    (num_inputs n : Nat) (hidx : idx.length = 64) (hval : val.length = 64)
    (hweight : weight.length = num_inputs * 520) (hnum : num_inputs * 520 < 2 ^ 31)
    (hbias : bias.length = 520) (hout : output.length = 520) (hn : n ≤ 64)
    (hvalid : ∀ k, k < n → 0 ≤ idx.getD k 0 ∧ idx.getD k 0 < num_inputs)
    (hend : n < 64 → idx.getD n 0 = -1) :
    ∃ out, feature_transformer_slice_forward idx val weight bias output = some out ∧
      out.length = 520 := by
  obtain ⟨d, _⟩ : ∃ d, bias[0]? = some d := ⟨_, List.getElem?_eq_getElem (by omega)⟩
  refine ⟨_, forward_spec idx val weight bias output (fun k => (idx.getD k 0).toNat)
    (fun k => val.getD k d) (fun i => weight.getD i d) (fun j => bias.getD j d) n
    (fun i hi => getElem?_eq_some_getD weight d i hi)
    (fun j hj => getElem?_eq_some_getD bias d j (by omega)) hout hn
    (contract_active idx val d weight.length num_inputs n hidx hval hweight hnum hn hvalid)
    (contract_end idx val d n hidx hval hend), ?_⟩
  rw [List.length_map, List.length_range]

/-- C3. Forward honours the early exit: two index/value list pairs that both hold `-1`
at position `n` of the index list and agree on all entries at positions `k < n` give
identical outputs, whatever stands at the positions after `n` (and whatever the two
values at position `n` are); and no entry after position `n` is read: the kernel
gives the same result on the lists cut off after position `n`. -/
theorem forward_early_exit [Add α] [Mul α] (idx1 idx2 : List Int)
    (val1 val2 weight bias output : List α) (n : Nat)
    (h1 : idx1[n]? = some (-1)) (h2 : idx2[n]? = some (-1))
    (hidx : ∀ k, k < n → idx1[k]? = idx2[k]?) (hval : ∀ k, k < n → val1[k]? = val2[k]?)
    (hv1 : n < val1.length) (hv2 : n < val2.length) :
    feature_transformer_slice_forward idx1 val1 weight bias output =
        feature_transformer_slice_forward idx2 val2 weight bias output ∧
      feature_transformer_slice_forward idx1 val1 weight bias output =
        feature_transformer_slice_forward (idx1.take (n + 1)) (val1.take (n + 1)) weight bias
          output := by
  constructor
  · apply forward_congr_scan
    intro shared
    apply forward_scan_agree idx1 idx2 val1 val2 weight n 64 0 shared
    · intro i hi
      rw [Nat.zero_add]
      exact ⟨hidx i hi, hval i hi⟩
    · rwa [Nat.zero_add]
    · rwa [Nat.zero_add]
    · rw [Nat.zero_add]
      exact ⟨_, List.getElem?_eq_getElem hv1⟩
    · rw [Nat.zero_add]
      exact ⟨_, List.getElem?_eq_getElem hv2⟩
  · apply forward_congr_scan
    intro shared
    apply forward_scan_agree idx1 (idx1.take (n + 1)) val1 (val1.take (n + 1)) weight n 64 0
      shared
    · intro i hi
      rw [Nat.zero_add, List.getElem?_take_of_lt (by omega), List.getElem?_take_of_lt (by omega)]
      exact ⟨rfl, rfl⟩
    · rwa [Nat.zero_add]
    · rw [Nat.zero_add, List.getElem?_take_of_lt (by omega)]
      exact h1
    · rw [Nat.zero_add]
      exact ⟨_, List.getElem?_eq_getElem hv1⟩
    · rw [Nat.zero_add, List.getElem?_take_of_lt (by omega)]
      exact ⟨_, List.getElem?_eq_getElem hv1⟩

/-- Witness for C3: the two pairs differ at the sentinel position (values 11 and 17) and
everywhere after it, and the kernel returns a row on them. -/
theorem forward_early_exit_witness :
    (feature_transformer_slice_forward (7 :: -1 :: List.replicate 62 9)
          (2 :: 11 :: List.replicate 62 (13 : ℤ)) (List.replicate (8 * 520) 5)
          (List.replicate 520 1) (List.replicate 520 0) =
        feature_transformer_slice_forward (7 :: -1 :: List.replicate 62 (-5))
          (2 :: 17 :: List.replicate 62 (19 : ℤ)) (List.replicate (8 * 520) 5)
          (List.replicate 520 1) (List.replicate 520 0) ∧
      feature_transformer_slice_forward (7 :: -1 :: List.replicate 62 9)
          (2 :: 11 :: List.replicate 62 (13 : ℤ)) (List.replicate (8 * 520) 5)
          (List.replicate 520 1) (List.replicate 520 0) =
        feature_transformer_slice_forward ((7 :: -1 :: List.replicate 62 9).take (1 + 1))
          ((2 :: 11 :: List.replicate 62 (13 : ℤ)).take (1 + 1)) (List.replicate (8 * 520) 5)
          (List.replicate 520 1) (List.replicate 520 0)) ∧
    ∃ out, feature_transformer_slice_forward (7 :: -1 :: List.replicate 62 9)
        (2 :: 11 :: List.replicate 62 (13 : ℤ)) (List.replicate (8 * 520) 5)
        (List.replicate 520 1) (List.replicate 520 0) = some out ∧ out.length = 520 :=
  ⟨forward_early_exit (7 :: -1 :: List.replicate 62 9) (7 :: -1 :: List.replicate 62 (-5))
      (2 :: 11 :: List.replicate 62 (13 : ℤ)) (2 :: 17 :: List.replicate 62 (19 : ℤ))
      (List.replicate (8 * 520) 5) (List.replicate 520 1) (List.replicate 520 0) 1
      (by simp) (by simp) (by intro k hk; interval_cases k; rfl)
      (by intro k hk; interval_cases k; rfl) (by simp) (by simp),
    forward_defined (7 :: -1 :: List.replicate 62 9) (2 :: 11 :: List.replicate 62 (13 : ℤ))
      (List.replicate (8 * 520) 5) (List.replicate 520 1) (List.replicate 520 0) 8 1
      (by simp) (by simp) (List.length_replicate _ _) (by norm_num)
      (List.length_replicate _ _) (List.length_replicate _ _) (by norm_num)
      (by intro k hk; interval_cases k; simp) (by intro _; simp)⟩

/-! ## C4: bias-only output -/

theorem map_range_getD {β : Type} (l : List β) (d : β) (n : Nat) (h : l.length = n) :
    (List.range n).map (fun j => l.getD j d) = l := by
  apply List.ext_getElem?
  intro i
  by_cases hi : i < n
  · rw [getElem?_map_range _ _ _ hi]
    exact (getElem?_eq_some_getD l d i (by omega)).symm
  · rw [List.getElem?_eq_none (by rw [List.length_map, List.length_range]; omega),
      List.getElem?_eq_none (by omega)]

/-- C4. When `feature_indices[0] == -1`, Forward returns exactly the bias vector,
whatever the remaining index entries, the feature values, the weights and the previous
contents of `output` are. -/
theorem forward_bias_only [Add α] [Mul α] (feature_indices : List Int)
    (feature_values weight bias output : List α)
    (h0 : feature_indices[0]? = some (-1)) (hval : 0 < feature_values.length)
    (hbias : bias.length = 520) (hout : output.length = 520) :
    feature_transformer_slice_forward feature_indices feature_values weight bias output =
      some bias := by
  obtain ⟨d, _⟩ : ∃ d, bias[0]? = some d := ⟨_, List.getElem?_eq_getElem (by omega)⟩
  rw [forward_spec feature_indices feature_values weight bias output (fun _ => 0) (fun _ => d)
    (fun i => weight.getD i d) (fun j => bias.getD j d) 0
    (fun i hi => getElem?_eq_some_getD weight d i hi)
    (fun j hj => getElem?_eq_some_getD bias d j (by omega)) hout (by omega)
    (by intro i hi; omega)
    (fun _ => ⟨h0, _, List.getElem?_eq_getElem hval⟩)]
  rw [List.range_zero]
  simp only [List.foldl_nil]
  rw [map_range_getD bias d 520 hbias]

/-- Witness for C4: garbage indices and values after the sentinel, an empty weight
matrix and a non-zero previous output. -/
theorem forward_bias_only_witness :
    feature_transformer_slice_forward (-1 :: List.replicate 63 1000000)
        (List.replicate 64 (9 : ℤ)) [] (List.replicate 520 3) (List.replicate 520 8) =
      some (List.replicate 520 3) :=
  forward_bias_only (-1 :: List.replicate 63 1000000) (List.replicate 64 (9 : ℤ)) []
    (List.replicate 520 3) (List.replicate 520 8) rfl (by simp)
    (List.length_replicate _ _) (List.length_replicate _ _)

/-! ## The unguarded variant: the loops, the scan and the whole kernel -/

theorem backward_bias_unguarded_spec [Add α] (shared : List (Option α))
    (bias_grad : List α) (g b : Nat → α)
    (hg : ∀ j, j < 520 → shared[j]? = some (some (g j)))
    (hb : ∀ j, j < 520 → bias_grad[j]? = some (b j)) (hlen : bias_grad.length = 520) :
    backward_bias_unguarded shared bias_grad = some ((List.range 520).map fun j => b j + g j) := by
  have h := foldlM_range_set_all
    (fun bg s => do
      let sog ← load_local shared (slice_offset + s)
      let b ← bg[slice_offset + s]?
      store bg (slice_offset + s) (b + sog))
    bias_grad (fun j => b j + g j) 520 hlen
    (by
      intro bg s hs hbl hbs
      have hx : load_local shared s = some (g s) := load_local_eq_some _ _ _ (hg s hs)
      have hbs2 : bg[s]? = some (b s) := by rw [hbs]; exact hb s hs
      dsimp only
      rw [slice_offset, Nat.zero_add, hx, Option.bind_eq_bind, Option.some_bind, hbs2,
        Option.some_bind]
      exact store_eq_some bg s _ (by omega))
  exact h

theorem backward_accumulate_unguarded_spec [Add α] [Mul α]
    (shared : List (Option α)) (base : Int) (fv : α) (weight_grad : List α) (g W : Nat → α)
    (hg : ∀ j, j < 520 → shared[j]? = some (some (g j)))
    (hbase : 0 ≤ base) (hlen : base.toNat + 520 ≤ weight_grad.length)
    (hW : ∀ i, i < weight_grad.length → weight_grad[i]? = some (W i)) :
    ∃ wg, backward_accumulate_unguarded shared base fv weight_grad = some wg ∧
      wg.length = weight_grad.length ∧
      ∀ i, i < weight_grad.length → wg[i]? = some
        (if base.toNat ≤ i ∧ i < base.toNat + 520
          then W i + fv * g (i - base.toNat) else W i) := by
  obtain ⟨wg, h1, h2, h3⟩ := foldlM_range_set
    (fun wg s => do
      let sog ← load_local shared (slice_offset + s)
      let p ← element_at base s
      let x ← wg[p]?
      store wg p (x + fv * sog))
    weight_grad base.toNat (fun s => W (base.toNat + s) + fv * g s) 520 hlen
    (by
      intro b s hs hbl hbs
      have hp : element_at base s = some (base.toNat + s) := by
        have h0 : 0 ≤ base + (s : Int) := by omega
        have h1 : (base + (s : Int)).toNat = base.toNat + s := by omega
        simp [element_at, h0, h1]
      have hx : load_local shared s = some (g s) := load_local_eq_some _ _ _ (hg s hs)
      have hbs2 : b[base.toNat + s]? = some (W (base.toNat + s)) := by
        rw [hbs]
        exact hW _ (by omega)
      dsimp only
      rw [slice_offset, Nat.zero_add, hx, Option.bind_eq_bind, Option.some_bind]
      simp only [hp, hbs2, Option.bind_eq_bind, Option.some_bind]
      exact store_eq_some b _ _ (by omega))
  refine ⟨wg, h1, h2, ?_⟩
  intro i hi
  rw [h3 i]
  by_cases hin : base.toNat ≤ i ∧ i < base.toNat + 520
  · have e : base.toNat + (i - base.toNat) = i := by omega
    rw [if_pos hin, if_pos hin, e]
  · rw [if_neg hin, if_neg hin]
    exact hW i hi

theorem backward_scan_unguarded_stop [Add α] [Mul α] (idx : List Int)
    (val : List α) (shared : List (Option α)) (fuel k : Nat) (wg : List α) (x : α)
    (h1 : idx[k]? = some (-1)) (h2 : val[k]? = some x) :
    backward_scan_unguarded idx val shared (fuel + 1) k wg = some wg := by
  rw [backward_scan_unguarded, h1, h2, Option.bind_eq_bind, Option.some_bind,
    Option.bind_eq_bind, Option.some_bind, if_neg (by simp)]

theorem backward_scan_unguarded_active [Add α] [Mul α] (idx : List Int)
    (val : List α) (shared : List (Option α)) (fuel k : Nat) (wg : List α) (r : Nat) (x : α)
    (h1 : idx[k]? = some (r : Int)) (h2 : val[k]? = some x) (h4 : r * 520 < 2 ^ 31) :
    backward_scan_unguarded idx val shared (fuel + 1) k wg =
      (backward_accumulate_unguarded shared (((r * 520 : Nat) : Int) + (slice_offset : Nat)) x
        wg).bind
        (fun wg1 => backward_scan_unguarded idx val shared fuel (k + 1) wg1) := by
  have hne : (r : Int) ≠ -1 := by omega
  rw [backward_scan_unguarded, h1, h2, Option.bind_eq_bind, Option.some_bind,
    Option.bind_eq_bind, Option.some_bind, if_pos hne, mul_int32_eq_some r h4, Option.some_bind]
  rfl

theorem backward_scan_unguarded_spec [Add α] [Mul α] (idx : List Int)
    (val : List α) (shared : List (Option α)) (row : Nat → Nat) (fv g : Nat → α) (L : Nat)
    (hg : ∀ j, j < 520 → shared[j]? = some (some (g j))) :
    ∀ (m fuel k : Nat) (wg : List α) (W : Nat → α),
      m ≤ fuel →
      (∀ i, i < m → idx[k + i]? = some (row (k + i) : Int) ∧ val[k + i]? = some (fv (k + i)) ∧
        row (k + i) * 520 + 520 ≤ L ∧ row (k + i) * 520 < 2 ^ 31) →
      (m < fuel → idx[k + m]? = some (-1) ∧ ∃ x, val[k + m]? = some x) →
      wg.length = L → (∀ i, i < L → wg[i]? = some (W i)) →
      ∃ wg', backward_scan_unguarded idx val shared fuel k wg = some wg' ∧ wg'.length = L ∧
        ∀ i, i < L → wg'[i]? = some
          ((List.range' k m).foldl
            (fun acc t =>
              if row t * 520 ≤ i ∧ i < row t * 520 + 520
                then acc + fv t * g (i - row t * 520) else acc)
            (W i)) := by
  intro m
  induction m with
  | zero =>
    intro fuel k wg W _ _ hend hlen hW
    refine ⟨wg, ?_, hlen, by simpa using hW⟩
    cases fuel with
    | zero => rfl
    | succ fuel =>
      obtain ⟨h1, x, h2⟩ := hend (by omega)
      simp only [Nat.add_zero] at h1 h2
      exact backward_scan_unguarded_stop idx val shared fuel k wg x h1 h2
  | succ m ih =>
    intro fuel k wg W hm hact hend hlen hW
    cases fuel with
    | zero => omega
    | succ fuel =>
      obtain ⟨h1, h2, h3, h4⟩ := hact 0 (by omega)
      simp only [Nat.add_zero] at h1 h2 h3 h4
      have hb : (((row k * 520 : Nat) : Int) + (slice_offset : Nat)).toNat = row k * 520 := by
        simp only [slice_offset]; omega
      obtain ⟨wg1, e1, l1, p1⟩ := backward_accumulate_unguarded_spec shared
        (((row k * 520 : Nat) : Int) + (slice_offset : Nat)) (fv k) wg g W hg
        (by simp only [slice_offset]; omega) (by rw [hb]; omega)
        (by intro i hi; exact hW i (by omega))
      rw [hb] at p1
      obtain ⟨wg', e2, l2, p2⟩ := ih fuel (k + 1) wg1
        (fun i => if row k * 520 ≤ i ∧ i < row k * 520 + 520
          then W i + fv k * g (i - row k * 520) else W i)
        (by omega)
        (by
          intro i hi
          have := hact (i + 1) (by omega)
          rwa [show k + (i + 1) = k + 1 + i by omega] at this)
        (by
          intro hlt
          have := hend (by omega)
          rwa [show k + (m + 1) = k + 1 + m by omega] at this)
        (by omega) (by intro i hi; exact p1 i (by omega))
      refine ⟨wg', ?_, l2, ?_⟩
      · rw [backward_scan_unguarded_active idx val shared fuel k wg (row k) (fv k) h1 h2 h4, e1,
          Option.some_bind]
        exact e2
      · intro i hi
        rw [p2 i hi, List.range'_succ, List.foldl_cons]

theorem backward_unguarded_spec [Add α] [Mul α] (idx : List Int)
    (val wg bg og : List α) (row : Nat → Nat) (fv g b W : Nat → α) (n : Nat)
    (hg : ∀ j, j < 520 → og[j]? = some (g j))
    (hb : ∀ j, j < 520 → bg[j]? = some (b j)) (hbg : bg.length = 520)
    (hW : ∀ i, i < wg.length → wg[i]? = some (W i))
    (hn : n ≤ 64)
    (hact : ∀ i, i < n → idx[i]? = some (row i : Int) ∧ val[i]? = some (fv i) ∧
      row i * 520 + 520 ≤ wg.length ∧ row i * 520 < 2 ^ 31)
    (hend : n < 64 → idx[n]? = some (-1) ∧ ∃ x, val[n]? = some x) :
    backward_unguarded idx val wg bg og =
      some ((List.range wg.length).map (fun i =>
          (List.range n).foldl
            (fun acc t =>
              if row t * 520 ≤ i ∧ i < row t * 520 + 520
                then acc + fv t * g (i - row t * 520) else acc)
            (W i)),
        (List.range 520).map (fun j => b j + g j)) := by
  obtain ⟨sh1, e1, l1, p1⟩ := copy_to_shared_spec og (local_array α 520) g hg
    (List.length_replicate _ _)
  have e2 := backward_bias_unguarded_spec sh1 bg g b p1 hb hbg
  obtain ⟨wg', e3, l3, p3⟩ := backward_scan_unguarded_spec idx val sh1 row fv g wg.length p1
    n 64 0 wg W hn (by simpa using hact) (by simpa using hend) rfl hW
  have e4 : wg' = (List.range wg.length).map (fun i =>
      (List.range n).foldl
        (fun acc t =>
          if row t * 520 ≤ i ∧ i < row t * 520 + 520
            then acc + fv t * g (i - row t * 520) else acc)
        (W i)) := by
    apply List.ext_getElem?
    intro i
    by_cases hi : i < wg.length
    · rw [p3 i hi, getElem?_map_range _ _ _ hi, List.range_eq_range' n]
    · rw [List.getElem?_eq_none (by omega), List.getElem?_eq_none (by simp; omega)]
  unfold backward_unguarded
  dsimp only
  rw [e1, Option.bind_eq_bind, Option.some_bind, e2, Option.bind_eq_bind, Option.some_bind]
  unfold max_active_features
  rw [e3, Option.some_bind, e4]

theorem backward_unguarded_sum [CommSemiring α] (idx : List Int)
    (val wg bg og : List α) (num_inputs n : Nat)
    (hidx : idx.length = 64) (hval : val.length = 64)
    (hwg : wg.length = num_inputs * 520) (hnum : num_inputs * 520 < 2 ^ 31)
    (hbg : bg.length = 520) (hog : og.length = 520) (hn : n ≤ 64)
    (hvalid : ∀ k, k < n → 0 ≤ idx.getD k 0 ∧ idx.getD k 0 < num_inputs)
    (hend : n < 64 → idx.getD n 0 = -1) :
    backward_unguarded idx val wg bg og =
      some ((List.range (num_inputs * 520)).map (fun p =>
          wg.getD p 0 + ∑ k in Finset.range n,
            if (idx.getD k 0).toNat = p / 520 then val.getD k 0 * og.getD (p % 520) 0 else 0),
        (List.range 520).map (fun j => bg.getD j 0 + og.getD j 0)) := by
  rw [backward_unguarded_spec idx val wg bg og (fun k => (idx.getD k 0).toNat)
    (fun k => val.getD k 0) (fun j => og.getD j 0) (fun j => bg.getD j 0)
    (fun i => wg.getD i 0) n
    (fun j hj => getElem?_eq_some_getD og 0 j (by omega))
    (fun j hj => getElem?_eq_some_getD bg 0 j (by omega)) hbg
    (fun i hi => getElem?_eq_some_getD wg 0 i hi) hn
    (contract_active idx val 0 wg.length num_inputs n hidx hval hwg hnum hn hvalid)
    (contract_end idx val 0 n hidx hval hend), hwg]
  refine congrArg some (congrArg₂ Prod.mk ?_ rfl)
  apply List.map_congr_left
  intro p _
  apply foldl_range_eq_sum
  intro acc t _
  dsimp only
  by_cases hr : (idx.getD t 0).toNat = p / 520
  · have h1 : (idx.getD t 0).toNat * 520 ≤ p ∧ p < (idx.getD t 0).toNat * 520 + 520 := by
      omega
    have h2 : p - (idx.getD t 0).toNat * 520 = p % 520 := by omega
    rw [if_pos hr, h2, if_pos h1]
  · rw [if_neg hr, add_zero, if_neg]
    intro h
    omega

/-! ## C5 - C8: algebra of the accumulators -/

theorem getD_replicate_lt {β : Type} (n p : Nat) (a d : β) (h : p < n) :
    (List.replicate n a).getD p d = a := by
  rw [List.getD_eq_getElem?_getD, List.getElem?_replicate, if_pos h]
  rfl

theorem getD_of_getElem? {β : Type} (l : List β) (i : Nat) (a d : β) (h : l[i]? = some a) :
    l.getD i d = a := by
  rw [List.getD_eq_getElem?_getD, h]
  rfl

theorem getElem?_replicate_lt {β : Type} (n i : Nat) (a : β) (h : i < n) :
    (List.replicate n a)[i]? = some a := by
  rw [List.getElem?_replicate, if_pos h]

theorem getD_map_range {β : Type} (F : Nat → β) (n p : Nat) (d : β) (h : p < n) :
    ((List.range n).map F).getD p d = F p := by
  rw [List.getD_eq_getElem?_getD, getElem?_map_range F n p h]
  rfl

theorem getD_replicate_zero [Zero α] (n p : Nat) : (List.replicate n (0 : α)).getD p 0 = 0 := by
  rw [List.getD_eq_getElem?_getD, List.getElem?_replicate]
  by_cases h : p < n
  · rw [if_pos h]; rfl
  · rw [if_neg h]; rfl

theorem getD_eq_zero_of_forall [Zero α] (l : List α) (h : ∀ x ∈ l, x = 0) (p : Nat) :
    l.getD p 0 = 0 := by
  by_cases hp : p < l.length
  · rw [List.getD_eq_getElem l 0 hp]
    exact h _ (List.getElem_mem hp)
  · exact List.getD_eq_default l 0 (by omega)

theorem foldl_fixed {β γ : Type} (step : β → γ → β) (a : β) (l : List γ)
    (h : ∀ acc t, step acc t = acc) : l.foldl step a = a := by
  induction l with
  | nil => rfl
  | cons t l ih => rw [List.foldl_cons, h, ih]

theorem twice_exact [CommSemiring α] [DecidableEq α]
    (feature_indices : List Int) (feature_values output_grad : List α) (num_inputs n : Nat)
    (hidx : feature_indices.length = 64) (hval : feature_values.length = 64)
    (hnum : num_inputs * 520 < 2 ^ 31) (hog : output_grad.length = 520) (hn : n ≤ 64)
    (hvalid : ∀ k, k < n →
      0 ≤ feature_indices.getD k 0 ∧ feature_indices.getD k 0 < num_inputs)
    (hend : n < 64 → feature_indices.getD n 0 = -1) :
    ∃ weight_grad1 bias_grad1 weight_grad2 bias_grad2,
      feature_transformer_slice_backward feature_indices feature_values
        (List.replicate (num_inputs * 520) 0) (List.replicate 520 0) output_grad =
          some (weight_grad1, bias_grad1) ∧
      feature_transformer_slice_backward feature_indices feature_values
        weight_grad1 bias_grad1 output_grad = some (weight_grad2, bias_grad2) ∧
      weight_grad2 = weight_grad1.map (fun x => 2 * x) ∧
      bias_grad2 = bias_grad1.map (fun x => 2 * x) := by
  refine ⟨_, _, _, _,
    backward_sum feature_indices feature_values (List.replicate (num_inputs * 520) 0)
      (List.replicate 520 0) output_grad num_inputs n hidx hval (List.length_replicate _ _)
      hnum (List.length_replicate _ _) hog hn hvalid hend,
    backward_sum feature_indices feature_values _ _ output_grad num_inputs n hidx hval
      (by rw [List.length_map, List.length_range]) hnum
      (by rw [List.length_map, List.length_range]) hog hn hvalid hend, ?_, ?_⟩
  · rw [List.map_map]
    apply List.map_congr_left
    intro p hp
    have hp' : p < num_inputs * 520 := List.mem_range.mp hp
    rw [getD_map_range _ _ _ _ hp', Function.comp_apply]
    simp only [getD_replicate_zero, zero_add, two_mul]
  · rw [List.map_map]
    apply List.map_congr_left
    intro j hj
    have hj' : j < 520 := List.mem_range.mp hj
    rw [getD_map_range _ _ _ _ hj', Function.comp_apply]
    simp only [getD_replicate_zero, zero_add, two_mul]

/-! ## Rounding to binary32 is idempotent

The result of a binary32 operation is a binary32 value, so that adding it to `0` returns
it unchanged. -/

theorem drop_bits_spec (a : Nat) : ∀ (fuel d : Nat),
    d ≤ drop_bits a fuel d ∧ drop_bits a fuel d ≤ d + fuel ∧
    (∀ s, d ≤ s → s < drop_bits a fuel d → 2 ^ 24 ≤ a / 2 ^ s) ∧
    (a / 2 ^ drop_bits a fuel d < 2 ^ 24 ∨ drop_bits a fuel d = d + fuel) := by
  intro fuel
  induction fuel with
  | zero =>
    intro d
    refine ⟨le_refl _, le_refl _, ?_, Or.inr rfl⟩
    intro s h1 h2
    simp only [drop_bits] at h2
    omega
  | succ fuel ih =>
    intro d
    by_cases h : a / 2 ^ d < 2 ^ 24
    · have e : drop_bits a (fuel + 1) d = d := by simp only [drop_bits, if_pos h]
      rw [e]
      refine ⟨le_refl _, by omega, ?_, Or.inl h⟩
      intro s h1 h2
      omega
    · have e : drop_bits a (fuel + 1) d = drop_bits a fuel (d + 1) := by
        simp only [drop_bits, if_neg h]
      rw [e]
      obtain ⟨h1, h2, h3, h4⟩ := ih (d + 1)
      refine ⟨by omega, by omega, ?_, ?_⟩
      · intro s hs1 hs2
        by_cases hsd : s = d
        · subst hsd
          omega
        · exact h3 s (by omega) hs2
      · rcases h4 with h4 | h4
        · exact Or.inl h4
        · exact Or.inr (by omega)

theorem drop_bits_lt (a d : Nat) : a / 2 ^ drop_bits a a d < 2 ^ 24 := by
  obtain ⟨h1, _, _, h4⟩ := drop_bits_spec a a d
  rcases h4 with h4 | h4
  · exact h4
  · rw [h4]
    have : a < 2 ^ (d + a) :=
      lt_of_lt_of_le (Nat.lt_two_pow a) (Nat.pow_le_pow_right (by omega) (by omega))
    rw [Nat.div_eq_of_lt this]
    exact Nat.two_pow_pos 24

theorem round_magnitude_exact (m e : Nat) (hm : m ≤ 2 ^ 24) :
    round_magnitude (m * 2 ^ e) 0 = m * 2 ^ e := by
  obtain ⟨_, _, h3, _⟩ := drop_bits_spec (m * 2 ^ e) (m * 2 ^ e) 0
  have hdvd : 2 ^ drop_bits (m * 2 ^ e) (m * 2 ^ e) 0 ∣ m * 2 ^ e := by
    by_cases hs : drop_bits (m * 2 ^ e) (m * 2 ^ e) 0 ≤ e
    · exact Dvd.dvd.mul_left (pow_dvd_pow 2 hs) m
    · have h5 := h3 e (by omega) (by omega)
      rw [Nat.mul_div_cancel _ (Nat.two_pow_pos e)] at h5
      have hm2 : m = 2 ^ 24 := by omega
      subst hm2
      have h6 := h3 (drop_bits (2 ^ 24 * 2 ^ e) (2 ^ 24 * 2 ^ e) 0 - 1) (by omega) (by omega)
      rw [← pow_add] at h6 ⊢
      apply pow_dvd_pow
      by_contra hc
      have h7 : 2 ^ (24 + e) ≤ 2 ^ (drop_bits (2 ^ (24 + e)) (2 ^ (24 + e)) 0 - 1) :=
        Nat.pow_le_pow_right (by omega) (by omega)
      have h8 : 2 ^ (24 + e) / 2 ^ (drop_bits (2 ^ (24 + e)) (2 ^ (24 + e)) 0 - 1)
          ≤ 2 ^ (24 + e) / 2 ^ (24 + e) :=
        Nat.div_le_div_left h7 (Nat.two_pow_pos (24 + e))
      rw [Nat.div_self (Nat.two_pow_pos (24 + e))] at h8
      have h9 := Nat.two_pow_pos 24
      omega
  unfold round_magnitude
  dsimp only
  rw [Nat.mod_eq_zero_of_dvd hdvd, Nat.sub_zero]
  have hpos : 0 < 2 ^ drop_bits (m * 2 ^ e) (m * 2 ^ e) 0 := Nat.two_pow_pos _
  rw [if_neg (by omega)]
  exact Nat.div_mul_cancel hdvd

theorem round_magnitude_idem (a d : Nat) :
    round_magnitude (round_magnitude a d) 0 = round_magnitude a d := by
  have h := drop_bits_lt a d
  unfold round_magnitude
  dsimp only
  apply round_magnitude_exact
  split_ifs <;> omega

theorem round_binary32_zero_add (p : Int) (d : Nat) :
    (0 : Binary32) + round_binary32 p d = round_binary32 p d := by
  show round_binary32 ((0 : Int) + (round_binary32 p d).units) 0 = round_binary32 p d
  rw [zero_add]
  unfold round_binary32
  dsimp only
  by_cases hp : p < 0
  · rw [if_pos hp]
    by_cases h0 : round_magnitude p.natAbs d = 0
    · rw [h0]
      rfl
    · have hneg : -(round_magnitude p.natAbs d : Int) < 0 := by omega
      rw [if_pos hneg, Int.natAbs_neg, Int.natAbs_ofNat, round_magnitude_idem]
  · rw [if_neg hp]
    have hnn : ¬ ((round_magnitude p.natAbs d : Int) < 0) := by omega
    rw [if_neg hnn, Int.natAbs_ofNat, round_magnitude_idem]

theorem binary32_zero_add_mul (x y : Binary32) : 0 + x * y = x * y :=
  round_binary32_zero_add _ _

theorem binary32_zero_add_add (x y : Binary32) : 0 + (x + y) = x + y :=
  round_binary32_zero_add _ _

/-! ## Backward, element by element -/

theorem backward_pointwise [Add α] [Mul α] [Zero α] [DecidableEq α] (idx : List Int)
    (val wg bg og : List α) (row : Nat → Nat) (fv g : Nat → α) (n : Nat)
    (hg : ∀ j, j < 520 → og[j]? = some (g j)) (hbg : bg.length = 520) (hn : n ≤ 64)
    (hact : ∀ i, i < n → idx[i]? = some (row i : Int) ∧ val[i]? = some (fv i) ∧
      row i * 520 + 520 ≤ wg.length ∧ row i * 520 < 2 ^ 31)
    (hend : n < 64 → idx[n]? = some (-1) ∧ ∃ x, val[n]? = some x) :
    ∃ wg' bg', feature_transformer_slice_backward idx val wg bg og = some (wg', bg') ∧
      wg'.length = wg.length ∧ bg'.length = 520 ∧
      (∀ i, i < wg.length → wg'[i]? = some ((List.range n).foldl
        (fun acc t =>
          if row t * 520 ≤ i ∧ i < row t * 520 + 520 ∧ g (i - row t * 520) ≠ 0
            then acc + g (i - row t * 520) * fv t else acc)
        (wg.getD i 0))) ∧
      (∀ j, j < 520 → bg'[j]? = some (if g j ≠ 0 then bg.getD j 0 + g j else bg.getD j 0)) :=
  ⟨_, _,
    backward_spec idx val wg bg og row fv g (fun j => bg.getD j 0) (fun i => wg.getD i 0) n hg
      (fun j hj => getElem?_eq_some_getD bg 0 j (by omega)) hbg
      (fun i hi => getElem?_eq_some_getD wg 0 i hi) hn hact hend,
    by rw [List.length_map, List.length_range],
    by rw [List.length_map, List.length_range],
    fun i hi => getElem?_map_range _ _ i hi,
    fun j hj => getElem?_map_range _ _ j hj⟩

theorem foldl_range_single {β : Type} (step : β → Nat → β) (a : β) (n t0 : Nat)
    (h : ∀ acc t, t < n → t ≠ t0 → step acc t = acc) :
    (List.range n).foldl step a = if t0 < n then step a t0 else a := by
  induction n with
  | zero => rfl
  | succ n ih =>
    rw [List.range_succ, List.foldl_append, List.foldl_cons, List.foldl_nil,
      ih (fun acc t ht hne => h acc t (by omega) hne)]
    by_cases hn : n = t0
    · subst hn
      rw [if_neg (by omega), if_pos (by omega)]
    · rw [h _ n (by omega) hn]
      by_cases ht : t0 < n
      · rw [if_pos ht, if_pos (by omega)]
      · rw [if_neg ht, if_neg (by omega)]

theorem twice_distinct {β : Type} [Add β] [Mul β] [Zero β] [DecidableEq β]
    (idx : List Int) (val og : List β) (num_inputs n : Nat)
    (hidx : idx.length = 64) (hval : val.length = 64)
    (hnum : num_inputs * 520 < 2 ^ 31) (hog : og.length = 520) (hn : n ≤ 64)
    (hvalid : ∀ k, k < n → 0 ≤ idx.getD k 0 ∧ idx.getD k 0 < num_inputs)
    (hend : n < 64 → idx.getD n 0 = -1)
    (hdistinct : ∀ k l, k < n → l < n → idx.getD k 0 = idx.getD l 0 → k = l)
    (h00 : (0 : β) + 0 = 0) (hmul : ∀ x y : β, 0 + x * y = x * y)
    (hgz : ∀ x, x ∈ og → 0 + x = x) :
    ∃ weight_grad1 bias_grad1 weight_grad2 bias_grad2,
      feature_transformer_slice_backward idx val
        (List.replicate (num_inputs * 520) 0) (List.replicate 520 0) og =
          some (weight_grad1, bias_grad1) ∧
      feature_transformer_slice_backward idx val weight_grad1 bias_grad1 og =
        some (weight_grad2, bias_grad2) ∧
      weight_grad2 = weight_grad1.map (fun x => x + x) ∧
      bias_grad2 = bias_grad1.map (fun x => x + x) := by
  have hg : ∀ j, j < 520 → og[j]? = some (og.getD j 0) :=
    fun j hj => getElem?_eq_some_getD og 0 j (by omega)
  obtain ⟨wg1, bg1, e1, l1, lb1, w1, b1⟩ := backward_pointwise idx val
    (List.replicate (num_inputs * 520) 0) (List.replicate 520 0) og
    (fun k => (idx.getD k 0).toNat) (fun k => val.getD k 0) (fun j => og.getD j 0) n hg
    (List.length_replicate _ _) hn
    (contract_active idx val 0 _ num_inputs n hidx hval (List.length_replicate _ _) hnum hn
      hvalid)
    (contract_end idx val 0 n hidx hval hend)
  rw [List.length_replicate] at l1 w1
  obtain ⟨wg2, bg2, e2, l2, lb2, w2, b2⟩ := backward_pointwise idx val wg1 bg1 og
    (fun k => (idx.getD k 0).toNat) (fun k => val.getD k 0) (fun j => og.getD j 0) n hg
    lb1 hn (contract_active idx val 0 _ num_inputs n hidx hval l1 hnum hn hvalid)
    (contract_end idx val 0 n hidx hval hend)
  rw [l1] at l2 w2
  refine ⟨wg1, bg1, wg2, bg2, e1, e2, ?_, ?_⟩
  · apply List.ext_getElem?
    intro i
    by_cases hi : i < num_inputs * 520
    · rw [w2 i hi, List.getElem?_map, getD_of_getElem? wg1 i _ 0 (w1 i hi), w1 i hi,
        getD_replicate_lt _ _ _ _ hi, Option.map_some']
      refine congrArg some ?_
      have hsingle : ∃ t0, ∀ (acc : β) t, t < n → t ≠ t0 →
          (if (idx.getD t 0).toNat * 520 ≤ i ∧ i < (idx.getD t 0).toNat * 520 + 520 ∧
              og.getD (i - (idx.getD t 0).toNat * 520) 0 ≠ 0
            then acc + og.getD (i - (idx.getD t 0).toNat * 520) 0 * val.getD t 0
            else acc) = acc := by
        by_cases hex : ∃ t0, t0 < n ∧ (idx.getD t0 0).toNat = i / 520
        · obtain ⟨t0, ht0, hr0⟩ := hex
          refine ⟨t0, ?_⟩
          intro acc t ht hne
          rw [if_neg]
          intro hc
          apply hne
          apply hdistinct t t0 ht ht0
          have := (hvalid t ht).1
          have := (hvalid t0 ht0).1
          omega
        · refine ⟨n, ?_⟩
          intro acc t ht _
          rw [if_neg]
          intro hc
          exact hex ⟨t, ht, by omega⟩
      obtain ⟨t0, hs⟩ := hsingle
      rw [foldl_range_single _ _ n t0 hs, foldl_range_single _ _ n t0 hs]
      by_cases ht0 : t0 < n
      · rw [if_pos ht0, if_pos ht0]
        by_cases hc : (idx.getD t0 0).toNat * 520 ≤ i ∧
            i < (idx.getD t0 0).toNat * 520 + 520 ∧
            og.getD (i - (idx.getD t0 0).toNat * 520) 0 ≠ 0
        · simp only [if_pos hc, hmul]
        · simp only [if_neg hc, h00]
      · rw [if_neg ht0, if_neg ht0, h00]
    · rw [List.getElem?_eq_none (by omega), List.getElem?_eq_none
        (by rw [List.length_map]; omega)]
  · apply List.ext_getElem?
    intro j
    by_cases hj : j < 520
    · rw [b2 j hj, List.getElem?_map, getD_of_getElem? bg1 j _ 0 (b1 j hj), b1 j hj,
        getD_replicate_lt _ _ _ _ hj, Option.map_some']
      refine congrArg some ?_
      by_cases hc : og.getD j 0 ≠ 0
      · have hz : 0 + og.getD j 0 = og.getD j 0 := by
          apply hgz
          rw [List.getD_eq_getElem og 0 (by omega)]
          exact List.getElem_mem _
        simp only [if_pos hc, hz]
      · simp only [if_neg hc, h00]
    · rw [List.getElem?_eq_none (by omega), List.getElem?_eq_none
        (by rw [List.length_map]; omega)]

/-- C5, as amended. Running Backward twice with the same inputs, starting from all-zero
accumulators, leaves every element of `weight_grad` and of `bias_grad` exactly double its
value after the first run
(i) in exact arithmetic (a commutative semiring, double = `2 * x`), for every feature
list, repeated indices included; and
(ii) when no index occurs twice in the active prefix, in every arithmetic in which adding
`0`, a product or an `output_grad` entry to `0` returns it unchanged (double = `x + x`):
binary32 is such an arithmetic, and each element then receives at most one addition per
run. -/
theorem backward_twice_doubles :
    (∀ (α : Type) [CommSemiring α] [DecidableEq α] (feature_indices : List Int)
        (feature_values output_grad : List α) (num_inputs n : Nat),
      feature_indices.length = 64 → feature_values.length = 64 →
      num_inputs * 520 < 2 ^ 31 → output_grad.length = 520 → n ≤ 64 →
      (∀ k, k < n → 0 ≤ feature_indices.getD k 0 ∧ feature_indices.getD k 0 < num_inputs) →
      (n < 64 → feature_indices.getD n 0 = -1) →
      ∃ weight_grad1 bias_grad1 weight_grad2 bias_grad2,
        feature_transformer_slice_backward feature_indices feature_values
          (List.replicate (num_inputs * 520) 0) (List.replicate 520 0) output_grad =
            some (weight_grad1, bias_grad1) ∧
        feature_transformer_slice_backward feature_indices feature_values
          weight_grad1 bias_grad1 output_grad = some (weight_grad2, bias_grad2) ∧
        weight_grad2 = weight_grad1.map (fun x => 2 * x) ∧
        bias_grad2 = bias_grad1.map (fun x => 2 * x)) ∧
    (∀ (β : Type) [Add β] [Mul β] [Zero β] [DecidableEq β] (feature_indices : List Int)
        (feature_values output_grad : List β) (num_inputs n : Nat),
      feature_indices.length = 64 → feature_values.length = 64 →
      num_inputs * 520 < 2 ^ 31 → output_grad.length = 520 → n ≤ 64 →
      (∀ k, k < n → 0 ≤ feature_indices.getD k 0 ∧ feature_indices.getD k 0 < num_inputs) →
      (n < 64 → feature_indices.getD n 0 = -1) →
      (∀ k l, k < n → l < n → feature_indices.getD k 0 = feature_indices.getD l 0 → k = l) →
      (0 : β) + 0 = 0 → (∀ x y : β, 0 + x * y = x * y) →
      (∀ x, x ∈ output_grad → 0 + x = x) →
      ∃ weight_grad1 bias_grad1 weight_grad2 bias_grad2,
        feature_transformer_slice_backward feature_indices feature_values
          (List.replicate (num_inputs * 520) 0) (List.replicate 520 0) output_grad =
            some (weight_grad1, bias_grad1) ∧
        feature_transformer_slice_backward feature_indices feature_values
          weight_grad1 bias_grad1 output_grad = some (weight_grad2, bias_grad2) ∧
        weight_grad2 = weight_grad1.map (fun x => x + x) ∧
        bias_grad2 = bias_grad1.map (fun x => x + x)) :=
  ⟨fun _ _ _ feature_indices feature_values output_grad num_inputs n hidx hval hnum hog hn
      hvalid hend =>
    twice_exact feature_indices feature_values output_grad num_inputs n hidx hval
      hnum hog hn hvalid hend,
  fun _ _ _ _ _ feature_indices feature_values output_grad num_inputs n hidx hval hnum hog hn
      hvalid hend hdistinct h00 hmul hgz =>
    twice_distinct feature_indices feature_values output_grad num_inputs n hidx hval
      hnum hog hn hvalid hend hdistinct h00 hmul hgz⟩

/-- Witness for C5 as amended: in `ℤ` with index 3 twice in the active prefix `[3, 5, 3]`,
and in binary32 with the distinct indices `[3, 5]`, the values `1.5 * 2^-24` and `1`,
and an `output_grad` of `1 + 2^-23` in every column. -/
theorem backward_twice_doubles_witness :
    (∃ weight_grad1 bias_grad1 weight_grad2 bias_grad2,
      feature_transformer_slice_backward (3 :: 5 :: 3 :: List.replicate 61 (-1))
        (List.replicate 64 (2 : ℤ)) (List.replicate (8 * 520) 0) (List.replicate 520 0)
        (List.replicate 520 4) = some (weight_grad1, bias_grad1) ∧
      feature_transformer_slice_backward (3 :: 5 :: 3 :: List.replicate 61 (-1))
        (List.replicate 64 (2 : ℤ)) weight_grad1 bias_grad1 (List.replicate 520 4) =
          some (weight_grad2, bias_grad2) ∧
      weight_grad2 = weight_grad1.map (fun x => 2 * x) ∧
      bias_grad2 = bias_grad1.map (fun x => 2 * x)) ∧
    (∃ weight_grad1 bias_grad1 weight_grad2 bias_grad2,
      feature_transformer_slice_backward (3 :: 5 :: List.replicate 62 (-1))
        (binary32 3 (-25) :: binary32 1 0 :: List.replicate 62 0)
        (List.replicate (8 * 520) 0) (List.replicate 520 0)
        (List.replicate 520 (binary32 8388609 (-23))) = some (weight_grad1, bias_grad1) ∧
      feature_transformer_slice_backward (3 :: 5 :: List.replicate 62 (-1))
        (binary32 3 (-25) :: binary32 1 0 :: List.replicate 62 0)
        weight_grad1 bias_grad1 (List.replicate 520 (binary32 8388609 (-23))) =
          some (weight_grad2, bias_grad2) ∧
      weight_grad2 = weight_grad1.map (fun x => x + x) ∧
      bias_grad2 = bias_grad1.map (fun x => x + x)) :=
  ⟨backward_twice_doubles.1 ℤ (3 :: 5 :: 3 :: List.replicate 61 (-1))
      (List.replicate 64 (2 : ℤ)) (List.replicate 520 4) 8 3 (by simp)
      (List.length_replicate _ _) (by norm_num) (List.length_replicate _ _) (by norm_num)
      (by intro k hk; interval_cases k <;> simp)
      (by intro _; simp),
    backward_twice_doubles.2 Binary32 (3 :: 5 :: List.replicate 62 (-1))
      (binary32 3 (-25) :: binary32 1 0 :: List.replicate 62 0)
      (List.replicate 520 (binary32 8388609 (-23))) 8 2 (by simp)
      (by rw [List.length_cons, List.length_cons, List.length_replicate])
      (by norm_num) (List.length_replicate _ _) (by norm_num)
      (by intro k hk; interval_cases k <;> simp)
      (by intro _; simp)
      (by
        intro k l hk hl h
        interval_cases k <;> interval_cases l <;> simp at h ⊢)
      (by decide) binary32_zero_add_mul
      (by
        intro x hx
        rw [List.eq_of_mem_replicate hx]
        decide)⟩

/-- C5 fails as stated on binary32: with the active features `(0, 1)` and
`(0, 1.5 * 2^-24)`, which share row 0, all-one `output_grad` and all-zero accumulators,
one run of Backward leaves `weight_grad[0][0] = 1 + 2^-23` (the sum `1 + 1.5 * 2^-24`
rounded), and a second run leaves `2` (`(1 + 2^-23) + 1` rounds to `2`, and
`2 + 1.5 * 2^-24` rounds to `2`), which is not the double `2 + 2^-22` of the value after
one run. -/
theorem backward_twice_counterexample :
    ∃ weight_grad1 bias_grad1 weight_grad2 bias_grad2,
      feature_transformer_slice_backward (0 :: 0 :: List.replicate 62 (-1))
        (binary32 1 0 :: binary32 3 (-25) :: List.replicate 62 0)
        (List.replicate (1 * 520) 0) (List.replicate 520 0)
        (List.replicate 520 (binary32 1 0)) = some (weight_grad1, bias_grad1) ∧
      feature_transformer_slice_backward (0 :: 0 :: List.replicate 62 (-1))
        (binary32 1 0 :: binary32 3 (-25) :: List.replicate 62 0)
        weight_grad1 bias_grad1 (List.replicate 520 (binary32 1 0)) =
          some (weight_grad2, bias_grad2) ∧
      weight_grad1[0 * 520 + 0]? = some (binary32 8388609 (-23)) ∧
      weight_grad2[0 * 520 + 0]? = some (binary32 2 0) ∧
      binary32 2 0 * binary32 8388609 (-23) = binary32 8388609 (-22) ∧
      binary32 8388609 (-23) + binary32 8388609 (-23) = binary32 8388609 (-22) ∧
      binary32 2 0 ≠ binary32 8388609 (-22) := by
  have hidx : ∀ i, i < 2 →
      (0 :: 0 :: List.replicate 62 (-1) : List Int)[i]? = some (((fun _ => 0) i : Nat) : Int) ∧
      (binary32 1 0 :: binary32 3 (-25) :: List.replicate 62 0)[i]? =
        some ((fun t => if t = 0 then binary32 1 0 else binary32 3 (-25)) i) := by
    intro i hi
    have : i = 0 ∨ i = 1 := by omega
    rcases this with h | h <;> subst h <;> exact ⟨by simp, by simp⟩
  have hend : (2 < 64 → (0 :: 0 :: List.replicate 62 (-1) : List Int)[2]? = some (-1) ∧
      ∃ x, (binary32 1 0 :: binary32 3 (-25) :: List.replicate 62 (0 : Binary32))[2]? = some x) :=
    fun _ => ⟨by simp, 0, by simp⟩
  have hg : ∀ j, j < 520 → (List.replicate 520 (binary32 1 0))[j]? = some (binary32 1 0) :=
    fun j hj => getElem?_replicate_lt 520 j _ hj
  obtain ⟨wg1, bg1, e1, l1, lb1, w1, _⟩ := backward_pointwise
    (0 :: 0 :: List.replicate 62 (-1))
    (binary32 1 0 :: binary32 3 (-25) :: List.replicate 62 0)
    (List.replicate (1 * 520) 0) (List.replicate 520 0) (List.replicate 520 (binary32 1 0))
    (fun _ => 0) (fun t => if t = 0 then binary32 1 0 else binary32 3 (-25))
    (fun _ => binary32 1 0) 2 hg (List.length_replicate _ _) (by omega)
    (fun i hi => ⟨(hidx i hi).1, (hidx i hi).2,
      by rw [List.length_replicate]; norm_num, by norm_num⟩)
    hend
  rw [List.length_replicate] at l1 w1
  obtain ⟨wg2, bg2, e2, _, _, w2, _⟩ := backward_pointwise
    (0 :: 0 :: List.replicate 62 (-1))
    (binary32 1 0 :: binary32 3 (-25) :: List.replicate 62 0)
    wg1 bg1 (List.replicate 520 (binary32 1 0))
    (fun _ => 0) (fun t => if t = 0 then binary32 1 0 else binary32 3 (-25))
    (fun _ => binary32 1 0) 2 hg lb1 (by omega)
    (fun i hi => ⟨(hidx i hi).1, (hidx i hi).2, by rw [l1]; norm_num, by norm_num⟩)
    hend
  have c1 : wg1[0 * 520 + 0]? = some (binary32 8388609 (-23)) := by
    rw [w1 (0 * 520 + 0) (by omega), getD_replicate_lt _ _ _ _ (by omega)]
    exact congrArg some (by decide!)
  refine ⟨wg1, bg1, wg2, bg2, e1, e2, c1, ?_, by decide!, by decide!, by decide!⟩
  rw [w2 (0 * 520 + 0) (by omega), getD_of_getElem? wg1 (0 * 520 + 0) _ 0 c1]
  exact congrArg some (by decide!)

/-- C6. When every `output_grad[j]` is zero, Backward leaves every element of
`weight_grad` and `bias_grad` unchanged, whatever the accumulators hold. -/
theorem backward_zero_grad_noop [Add α] [Mul α] [Zero α] [DecidableEq α]
    (feature_indices : List Int) (feature_values weight_grad bias_grad output_grad : List α)
    (num_inputs n : Nat)
    (hidx : feature_indices.length = 64) (hval : feature_values.length = 64)
    (hwg : weight_grad.length = num_inputs * 520) (hnum : num_inputs * 520 < 2 ^ 31)
    (hbg : bias_grad.length = 520) (hog : output_grad.length = 520) (hn : n ≤ 64)
    (hvalid : ∀ k, k < n →
      0 ≤ feature_indices.getD k 0 ∧ feature_indices.getD k 0 < num_inputs)
    (hend : n < 64 → feature_indices.getD n 0 = -1)
    (hzero : ∀ x ∈ output_grad, x = 0) :
    feature_transformer_slice_backward feature_indices feature_values weight_grad bias_grad
      output_grad = some (weight_grad, bias_grad) := by
  rw [backward_spec feature_indices feature_values weight_grad bias_grad output_grad
    (fun k => (feature_indices.getD k 0).toNat) (fun k => feature_values.getD k 0)
    (fun j => output_grad.getD j 0) (fun j => bias_grad.getD j 0)
    (fun i => weight_grad.getD i 0) n
    (fun j hj => getElem?_eq_some_getD output_grad 0 j (by omega))
    (fun j hj => getElem?_eq_some_getD bias_grad 0 j (by omega)) hbg
    (fun i hi => getElem?_eq_some_getD weight_grad 0 i hi) hn
    (contract_active feature_indices feature_values 0 weight_grad.length num_inputs n hidx hval
      hwg hnum hn hvalid)
    (contract_end feature_indices feature_values 0 n hidx hval hend)]
  have hz : ∀ p, output_grad.getD p 0 = 0 := getD_eq_zero_of_forall output_grad hzero
  refine congrArg some (congrArg₂ Prod.mk ?_ ?_)
  · refine (List.map_congr_left ?_).trans (map_range_getD weight_grad 0 weight_grad.length rfl)
    intro p _
    apply foldl_fixed
    intro acc t
    rw [if_neg]
    intro h
    exact h.2.2 (hz _)
  · refine (List.map_congr_left ?_).trans (map_range_getD bias_grad 0 520 hbg)
    intro j _
    rw [if_neg]
    intro h
    exact h (hz _)

/-- Witness for C6: non-zero accumulators, active prefix `[3, 5, 3]`. -/
theorem backward_zero_grad_noop_witness :
    feature_transformer_slice_backward (3 :: 5 :: 3 :: List.replicate 61 (-1))
      (List.replicate 64 (2 : ℤ)) (List.replicate (8 * 520) 7) (List.replicate 520 1)
      (List.replicate 520 0) = some (List.replicate (8 * 520) 7, List.replicate 520 1) :=
  backward_zero_grad_noop (3 :: 5 :: 3 :: List.replicate 61 (-1)) (List.replicate 64 (2 : ℤ))
    (List.replicate (8 * 520) 7) (List.replicate 520 1) (List.replicate 520 0) 8 3
    (by simp) (List.length_replicate _ _) (List.length_replicate _ _) (by norm_num)
    (List.length_replicate _ _) (List.length_replicate _ _) (by norm_num)
    (by intro k hk; interval_cases k <;> simp)
    (by intro _; simp)
    (fun x hx => List.eq_of_mem_replicate hx)

/-- C7. Skipping exact zeros has no semantic effect: under the caller contract Backward
(with its tests `sog != 0`) and the unguarded variant, which makes every addition
unconditionally, both return, and return the same `weight_grad` and `bias_grad`. -/
theorem backward_guard_no_effect [CommSemiring α] [DecidableEq α]
    (feature_indices : List Int) (feature_values weight_grad bias_grad output_grad : List α)
    (num_inputs n : Nat)
    (hidx : feature_indices.length = 64) (hval : feature_values.length = 64)
    (hwg : weight_grad.length = num_inputs * 520) (hnum : num_inputs * 520 < 2 ^ 31)
    (hbg : bias_grad.length = 520) (hog : output_grad.length = 520) (hn : n ≤ 64)
    (hvalid : ∀ k, k < n →
      0 ≤ feature_indices.getD k 0 ∧ feature_indices.getD k 0 < num_inputs)
    (hend : n < 64 → feature_indices.getD n 0 = -1) :
    ∃ weight_grad' bias_grad',
      feature_transformer_slice_backward feature_indices feature_values weight_grad bias_grad
        output_grad = some (weight_grad', bias_grad') ∧
      backward_unguarded feature_indices feature_values weight_grad bias_grad output_grad =
        some (weight_grad', bias_grad') :=
  ⟨_, _,
    backward_sum feature_indices feature_values weight_grad bias_grad output_grad num_inputs n
      hidx hval hwg hnum hbg hog hn hvalid hend,
    backward_unguarded_sum feature_indices feature_values weight_grad bias_grad output_grad
      num_inputs n hidx hval hwg hnum hbg hog hn hvalid hend⟩

/-- Witness for C7: an output gradient with zero and non-zero entries. -/
theorem backward_guard_no_effect_witness :
    ∃ weight_grad' bias_grad',
      feature_transformer_slice_backward (3 :: 5 :: 3 :: List.replicate 61 (-1))
        (List.replicate 64 (2 : ℤ)) (List.replicate (8 * 520) 7) (List.replicate 520 1)
        (0 :: 4 :: List.replicate 518 0) = some (weight_grad', bias_grad') ∧
      backward_unguarded (3 :: 5 :: 3 :: List.replicate 61 (-1))
        (List.replicate 64 (2 : ℤ)) (List.replicate (8 * 520) 7) (List.replicate 520 1)
        (0 :: 4 :: List.replicate 518 0) = some (weight_grad', bias_grad') :=
  backward_guard_no_effect (3 :: 5 :: 3 :: List.replicate 61 (-1)) (List.replicate 64 (2 : ℤ))
    (List.replicate (8 * 520) 7) (List.replicate 520 1) (0 :: 4 :: List.replicate 518 0) 8 3
    (by simp) (List.length_replicate _ _) (List.length_replicate _ _) (by norm_num)
    (List.length_replicate _ _)
    (by rw [List.length_cons, List.length_cons, List.length_replicate])
    (by norm_num)
    (by intro k hk; interval_cases k <;> simp)
    (by intro _; simp)

/-- C8, as amended. In exact arithmetic (a commutative semiring), Backward accumulation
commutes across examples: for two examples A and B that satisfy the caller contract,
running Backward on A and then on B leaves the same `weight_grad` and `bias_grad` as
running it on B and then on A, whether or not A and B share active feature indices. -/
theorem backward_commutes [CommSemiring α] [DecidableEq α]
    (indicesA indicesB : List Int) (valuesA valuesB output_gradA output_gradB : List α)
    (weight_grad bias_grad : List α) (num_inputs nA nB : Nat)
    (hidxA : indicesA.length = 64) (hvalA : valuesA.length = 64)
    (hidxB : indicesB.length = 64) (hvalB : valuesB.length = 64)
    (hwg : weight_grad.length = num_inputs * 520) (hnum : num_inputs * 520 < 2 ^ 31)
    (hbg : bias_grad.length = 520)
    (hogA : output_gradA.length = 520) (hogB : output_gradB.length = 520)
    (hnA : nA ≤ 64) (hnB : nB ≤ 64)
    (hvalidA : ∀ k, k < nA → 0 ≤ indicesA.getD k 0 ∧ indicesA.getD k 0 < num_inputs)
    (hendA : nA < 64 → indicesA.getD nA 0 = -1)
    (hvalidB : ∀ k, k < nB → 0 ≤ indicesB.getD k 0 ∧ indicesB.getD k 0 < num_inputs)
    (hendB : nB < 64 → indicesB.getD nB 0 = -1) :
    ∃ wgA bgA wgB bgB weight_grad' bias_grad',
      feature_transformer_slice_backward indicesA valuesA weight_grad bias_grad output_gradA =
        some (wgA, bgA) ∧
      feature_transformer_slice_backward indicesB valuesB wgA bgA output_gradB =
        some (weight_grad', bias_grad') ∧
      feature_transformer_slice_backward indicesB valuesB weight_grad bias_grad output_gradB =
        some (wgB, bgB) ∧
      feature_transformer_slice_backward indicesA valuesA wgB bgB output_gradA =
        some (weight_grad', bias_grad') := by
  have hlw : ∀ F : Nat → α, ((List.range (num_inputs * 520)).map F).length = num_inputs * 520 := by
    intro F
    rw [List.length_map, List.length_range]
  have hlb : ∀ F : Nat → α, ((List.range 520).map F).length = 520 := by
    intro F
    rw [List.length_map, List.length_range]
  refine ⟨_, _, _, _, _, _,
    backward_sum indicesA valuesA weight_grad bias_grad output_gradA num_inputs nA
      hidxA hvalA hwg hnum hbg hogA hnA hvalidA hendA,
    backward_sum indicesB valuesB _ _ output_gradB num_inputs nB
      hidxB hvalB (hlw _) hnum (hlb _) hogB hnB hvalidB hendB,
    backward_sum indicesB valuesB weight_grad bias_grad output_gradB num_inputs nB
      hidxB hvalB hwg hnum hbg hogB hnB hvalidB hendB, ?_⟩
  rw [backward_sum indicesA valuesA _ _ output_gradA num_inputs nA
      hidxA hvalA (hlw _) hnum (hlb _) hogA hnA hvalidA hendA]
  refine congrArg some (congrArg₂ Prod.mk ?_ ?_)
  · apply List.map_congr_left
    intro p hp
    have hp' : p < num_inputs * 520 := List.mem_range.mp hp
    rw [getD_map_range _ _ _ _ hp', getD_map_range _ _ _ _ hp', add_right_comm]
  · apply List.map_congr_left
    intro j hj
    have hj' : j < 520 := List.mem_range.mp hj
    rw [getD_map_range _ _ _ _ hj', getD_map_range _ _ _ _ hj', add_right_comm]

/-- Witness for C8 as amended: the examples share the active index 3. -/
theorem backward_commutes_witness :
    ∃ wgA bgA wgB bgB weight_grad' bias_grad',
      feature_transformer_slice_backward (3 :: 5 :: List.replicate 62 (-1))
        (List.replicate 64 (2 : ℤ)) (List.replicate (8 * 520) 7) (List.replicate 520 1)
        (List.replicate 520 4) = some (wgA, bgA) ∧
      feature_transformer_slice_backward (3 :: List.replicate 63 (-1))
        (List.replicate 64 (6 : ℤ)) wgA bgA (List.replicate 520 9) =
          some (weight_grad', bias_grad') ∧
      feature_transformer_slice_backward (3 :: List.replicate 63 (-1))
        (List.replicate 64 (6 : ℤ)) (List.replicate (8 * 520) 7) (List.replicate 520 1)
        (List.replicate 520 9) = some (wgB, bgB) ∧
      feature_transformer_slice_backward (3 :: 5 :: List.replicate 62 (-1))
        (List.replicate 64 (2 : ℤ)) wgB bgB (List.replicate 520 4) =
          some (weight_grad', bias_grad') :=
  backward_commutes (3 :: 5 :: List.replicate 62 (-1)) (3 :: List.replicate 63 (-1))
    (List.replicate 64 (2 : ℤ)) (List.replicate 64 (6 : ℤ)) (List.replicate 520 4)
    (List.replicate 520 9) (List.replicate (8 * 520) 7) (List.replicate 520 1) 8 2 1
    (by simp) (List.length_replicate _ _) (by simp) (List.length_replicate _ _)
    (List.length_replicate _ _) (by norm_num) (List.length_replicate _ _)
    (List.length_replicate _ _) (List.length_replicate _ _) (by norm_num) (by norm_num)
    (by intro k hk; interval_cases k <;> simp)
    (by intro _; simp)
    (by intro k hk; interval_cases k; simp)
    (by intro _; simp)

/-- C8 fails as stated on binary32: with every `bias_grad[j] = 2^24`, an example A whose
`output_grad` is all `1` and an example B whose `output_grad` is all `-2^24` (both with
the one active feature `(0, 1)`), running Backward on A and then on B leaves
`bias_grad[0] = 0` (`2^24 + 1` rounds to `2^24`), and running it on B and then on A
leaves `bias_grad[0] = 1`. -/
theorem backward_commutes_counterexample :
    ∃ wgA bgA wgAB bgAB wgB bgB wgBA bgBA,
      feature_transformer_slice_backward (0 :: List.replicate 63 (-1))
        (List.replicate 64 (binary32 1 0)) (List.replicate (1 * 520) 0)
        (List.replicate 520 (binary32 1 24)) (List.replicate 520 (binary32 1 0)) =
          some (wgA, bgA) ∧
      feature_transformer_slice_backward (0 :: List.replicate 63 (-1))
        (List.replicate 64 (binary32 1 0)) wgA bgA (List.replicate 520 (binary32 (-1) 24)) =
          some (wgAB, bgAB) ∧
      feature_transformer_slice_backward (0 :: List.replicate 63 (-1))
        (List.replicate 64 (binary32 1 0)) (List.replicate (1 * 520) 0)
        (List.replicate 520 (binary32 1 24)) (List.replicate 520 (binary32 (-1) 24)) =
          some (wgB, bgB) ∧
      feature_transformer_slice_backward (0 :: List.replicate 63 (-1))
        (List.replicate 64 (binary32 1 0)) wgB bgB (List.replicate 520 (binary32 1 0)) =
          some (wgBA, bgBA) ∧
      bgAB[0]? = some 0 ∧ bgBA[0]? = some (binary32 1 0) ∧ bgAB[0]? ≠ bgBA[0]? := by
  have hact : ∀ (wg : List Binary32), wg.length = 1 * 520 → ∀ i, i < 1 →
      (0 :: List.replicate 63 (-1) : List Int)[i]? = some (((fun _ => 0) i : Nat) : Int) ∧
      (List.replicate 64 (binary32 1 0))[i]? = some ((fun _ => binary32 1 0) i) ∧
      (fun _ => 0) i * 520 + 520 ≤ wg.length ∧ (fun _ => 0) i * 520 < 2 ^ 31 := by
    intro wg hwg i hi
    have : i = 0 := by omega
    subst this
    exact ⟨by simp, getElem?_replicate_lt 64 0 _ (by omega), by rw [hwg]; norm_num,
      by norm_num⟩
  have hend : (1 < 64 → (0 :: List.replicate 63 (-1) : List Int)[1]? = some (-1) ∧
      ∃ x, (List.replicate 64 (binary32 1 0))[1]? = some x) :=
    fun _ => ⟨by simp, _, getElem?_replicate_lt 64 1 _ (by omega)⟩
  have hgA : ∀ j, j < 520 → (List.replicate 520 (binary32 1 0))[j]? =
      some ((fun _ => binary32 1 0) j) :=
    fun j hj => getElem?_replicate_lt 520 j _ hj
  have hgB : ∀ j, j < 520 → (List.replicate 520 (binary32 (-1) 24))[j]? =
      some ((fun _ => binary32 (-1) 24) j) :=
    fun j hj => getElem?_replicate_lt 520 j _ hj
  obtain ⟨wgA, bgA, eA, lA, lbA, _, bA⟩ := backward_pointwise
    (0 :: List.replicate 63 (-1)) (List.replicate 64 (binary32 1 0))
    (List.replicate (1 * 520) 0) (List.replicate 520 (binary32 1 24))
    (List.replicate 520 (binary32 1 0)) (fun _ => 0) (fun _ => binary32 1 0)
    (fun _ => binary32 1 0) 1 hgA (List.length_replicate _ _) (by omega)
    (hact _ (List.length_replicate _ _)) hend
  rw [List.length_replicate] at lA
  obtain ⟨wgAB, bgAB, eAB, _, _, _, bAB⟩ := backward_pointwise
    (0 :: List.replicate 63 (-1)) (List.replicate 64 (binary32 1 0)) wgA bgA
    (List.replicate 520 (binary32 (-1) 24)) (fun _ => 0) (fun _ => binary32 1 0)
    (fun _ => binary32 (-1) 24) 1 hgB lbA (by omega) (hact _ lA) hend
  obtain ⟨wgB, bgB, eB, lB, lbB, _, bB⟩ := backward_pointwise
    (0 :: List.replicate 63 (-1)) (List.replicate 64 (binary32 1 0))
    (List.replicate (1 * 520) 0) (List.replicate 520 (binary32 1 24))
    (List.replicate 520 (binary32 (-1) 24)) (fun _ => 0) (fun _ => binary32 1 0)
    (fun _ => binary32 (-1) 24) 1 hgB (List.length_replicate _ _) (by omega)
    (hact _ (List.length_replicate _ _)) hend
  rw [List.length_replicate] at lB
  obtain ⟨wgBA, bgBA, eBA, _, _, _, bBA⟩ := backward_pointwise
    (0 :: List.replicate 63 (-1)) (List.replicate 64 (binary32 1 0)) wgB bgB
    (List.replicate 520 (binary32 1 0)) (fun _ => 0) (fun _ => binary32 1 0)
    (fun _ => binary32 1 0) 1 hgA lbB (by omega) (hact _ lB) hend
  have cA : bgA[0]? = some (binary32 1 24) := by
    rw [bA 0 (by omega), getD_replicate_lt _ _ _ _ (by omega)]
    exact congrArg some (by decide!)
  have cB : bgB[0]? = some 0 := by
    rw [bB 0 (by omega), getD_replicate_lt _ _ _ _ (by omega)]
    exact congrArg some (by decide!)
  have cAB : bgAB[0]? = some 0 := by
    rw [bAB 0 (by omega), getD_of_getElem? bgA 0 _ 0 cA]
    exact congrArg some (by decide!)
  have cBA : bgBA[0]? = some (binary32 1 0) := by
    rw [bBA 0 (by omega), getD_of_getElem? bgB 0 _ 0 cB]
    exact congrArg some (by decide!)
  refine ⟨wgA, bgA, wgAB, bgAB, wgB, bgB, wgBA, bgBA, eA, eAB, eB, eBA, cAB, cBA, ?_⟩
  rw [cAB, cBA]
  decide

/-! ## C9: all-one output gradient -/

theorem backward_ones [CommSemiring α] [DecidableEq α]
    (idx : List Int) (val : List α) (num_inputs n : Nat)
    (hidx : idx.length = 64) (hval : val.length = 64)
    (hnum : num_inputs * 520 < 2 ^ 31) (hn : n ≤ 64)
    (hvalid : ∀ k, k < n → 0 ≤ idx.getD k 0 ∧ idx.getD k 0 < num_inputs)
    (hend : n < 64 → idx.getD n 0 = -1) :
    ∃ wg bg,
      feature_transformer_slice_backward idx val (List.replicate (num_inputs * 520) 0)
        (List.replicate 520 0) (List.replicate 520 1) = some (wg, bg) ∧
      (∀ j, j < 520 → bg[j]? = some 1) ∧
      (∀ i j, i < num_inputs → j < 520 → wg[i * 520 + j]? =
        some (∑ k in (Finset.range n).filter (fun k => idx.getD k 0 = (i : Int)),
          val.getD k 0)) := by
  refine ⟨_, _, backward_sum idx val (List.replicate (num_inputs * 520) 0)
    (List.replicate 520 0) (List.replicate 520 1) num_inputs n hidx hval
    (List.length_replicate _ _) hnum (List.length_replicate _ _) (List.length_replicate _ _)
    hn hvalid hend, ?_, ?_⟩
  · intro j hj
    rw [getElem?_map_range _ _ _ hj, getD_replicate_zero, getD_replicate_lt _ _ _ _ hj,
      zero_add]
  · intro i j hi hj
    rw [getElem?_map_range _ _ _ (by omega)]
    have h1 : (i * 520 + j) / 520 = i := by omega
    have h2 : (i * 520 + j) % 520 = j := by omega
    rw [h1, h2, getD_replicate_zero, zero_add, getD_replicate_lt _ _ _ _ hj, Finset.sum_filter]
    congr 1
    apply Finset.sum_congr rfl
    intro k hk
    have hk' : k < n := Finset.mem_range.mp hk
    obtain ⟨h0, _⟩ := hvalid k hk'
    have h3 : ((idx.getD k 0).toNat = i) ↔ (idx.getD k 0 = (i : Int)) := by omega
    simp only [h3, mul_one]

/-- C9, as amended. With `output_grad[j] = 1` for every `j` and all-zero accumulators,
Backward yields `bias_grad[j] = 1` for every `j` and, for every row `i` and column `j`,
`weight_grad[i][j]` = the sum of the values of the active features whose index is `i`;
so `weight_grad[index][j] = value` for each active feature `(index, value)` whose index
occurs only once in the active prefix. -/
theorem backward_duality [CommSemiring α] [DecidableEq α]
    (feature_indices : List Int) (feature_values : List α) (num_inputs n : Nat)
    (hidx : feature_indices.length = 64) (hval : feature_values.length = 64)
    (hnum : num_inputs * 520 < 2 ^ 31) (hn : n ≤ 64)
    (hvalid : ∀ k, k < n →
      0 ≤ feature_indices.getD k 0 ∧ feature_indices.getD k 0 < num_inputs)
    (hend : n < 64 → feature_indices.getD n 0 = -1) :
    ∃ weight_grad' bias_grad',
      feature_transformer_slice_backward feature_indices feature_values
        (List.replicate (num_inputs * 520) 0) (List.replicate 520 0) (List.replicate 520 1) =
          some (weight_grad', bias_grad') ∧
      (∀ j, j < 520 → bias_grad'[j]? = some 1) ∧
      (∀ i j, i < num_inputs → j < 520 → weight_grad'[i * 520 + j]? =
        some (∑ k in (Finset.range n).filter (fun k => feature_indices.getD k 0 = (i : Int)),
          feature_values.getD k 0)) ∧
      (∀ k, k < n →
        (∀ k', k' < n → feature_indices.getD k' 0 = feature_indices.getD k 0 → k' = k) →
        ∀ j, j < 520 → weight_grad'[(feature_indices.getD k 0).toNat * 520 + j]? =
          some (feature_values.getD k 0)) := by
  obtain ⟨wg, bg, h1, h2, h3⟩ := backward_ones feature_indices feature_values num_inputs n
    hidx hval hnum hn hvalid hend
  refine ⟨wg, bg, h1, h2, h3, ?_⟩
  intro k hk huniq j hj
  obtain ⟨h0, h4⟩ := hvalid k hk
  have h5 : (((feature_indices.getD k 0).toNat : Nat) : Int) = feature_indices.getD k 0 :=
    Int.toNat_of_nonneg h0
  rw [h3 (feature_indices.getD k 0).toNat j (by omega) hj, h5]
  refine congrArg some ?_
  apply Finset.sum_eq_single_of_mem k
  · rw [Finset.mem_filter, Finset.mem_range]
    exact ⟨hk, rfl⟩
  · intro b hb hne
    rw [Finset.mem_filter, Finset.mem_range] at hb
    exact absurd (huniq b hb.1 hb.2) hne

/-- Witness for C9 as amended: index 5 occurs once in the active prefix `[3, 5, 3]`. -/
theorem backward_duality_witness :
    ∃ weight_grad' bias_grad',
      feature_transformer_slice_backward (3 :: 5 :: 3 :: List.replicate 61 (-1))
        (List.replicate 64 (2 : ℤ)) (List.replicate (8 * 520) 0) (List.replicate 520 0)
        (List.replicate 520 1) = some (weight_grad', bias_grad') ∧
      (∀ j, j < 520 → bias_grad'[j]? = some 1) ∧
      (∀ i j : Nat, i < 8 → j < 520 → weight_grad'[i * 520 + j]? =
        some (∑ k in (Finset.range 3).filter
            (fun k => (3 :: 5 :: 3 :: List.replicate 61 (-1) : List Int).getD k 0 = (i : Int)),
          (List.replicate 64 (2 : ℤ)).getD k 0)) ∧
      (∀ k, k < 3 →
        (∀ k', k' < 3 → (3 :: 5 :: 3 :: List.replicate 61 (-1) : List Int).getD k' 0 =
          (3 :: 5 :: 3 :: List.replicate 61 (-1) : List Int).getD k 0 → k' = k) →
        ∀ j, j < 520 →
          weight_grad'[((3 :: 5 :: 3 :: List.replicate 61 (-1) : List Int).getD k 0).toNat * 520
            + j]? = some ((List.replicate 64 (2 : ℤ)).getD k 0)) :=
  backward_duality (3 :: 5 :: 3 :: List.replicate 61 (-1)) (List.replicate 64 (2 : ℤ)) 8 3
    (by simp) (List.length_replicate _ _) (by norm_num) (by norm_num)
    (by intro k hk; interval_cases k <;> simp)
    (by intro _; simp)

/-- C9 fails as stated: with the active features `(0, 3)` and `(0, 4)`, all-one
`output_grad` and all-zero accumulators, Backward leaves `weight_grad[0][0] = 7`, which
is neither of the two values. -/
theorem backward_duality_counterexample :
    ∃ weight_grad' bias_grad',
      feature_transformer_slice_backward (0 :: 0 :: List.replicate 62 (-1))
        (3 :: 4 :: List.replicate 62 (0 : ℤ)) (List.replicate (1 * 520) 0)
        (List.replicate 520 0) (List.replicate 520 1) = some (weight_grad', bias_grad') ∧
      weight_grad'[0 * 520 + 0]? = some 7 ∧
      weight_grad'[0 * 520 + 0]? ≠ some ((3 :: 4 :: List.replicate 62 (0 : ℤ)).getD 0 0) ∧
      weight_grad'[0 * 520 + 0]? ≠ some ((3 :: 4 :: List.replicate 62 (0 : ℤ)).getD 1 0) := by
  obtain ⟨wg, bg, h1, _, h3⟩ := backward_ones (0 :: 0 :: List.replicate 62 (-1))
    (3 :: 4 :: List.replicate 62 (0 : ℤ)) 1 2 (by simp)
    (by rw [List.length_cons, List.length_cons, List.length_replicate]) (by norm_num)
    (by norm_num) (by intro k hk; interval_cases k <;> simp) (by intro _; simp)
  have h4 : wg[0 * 520 + 0]? = some 7 := by
    rw [h3 0 0 (by omega) (by omega)]
    refine congrArg some ?_
    simp [Finset.sum_filter, Finset.sum_range_succ]
  refine ⟨wg, bg, h1, h4, ?_, ?_⟩
  · rw [h4]
    simp
  · rw [h4]
    simp

/-! ## C10: superposition of Forward -/

theorem superposition_exact [CommRing α] (iA iB : Nat) (vA vB : α)
    (restA restB restAB : List Int) (tailA tailB tailAB : List α)
    (weight bias output : List α) (num_inputs : Nat)
    (htA : 0 < tailA.length) (htB : 0 < tailB.length) (htAB : 0 < tailAB.length)
    (hweight : weight.length = num_inputs * 520) (hnum : num_inputs * 520 < 2 ^ 31)
    (hbias : bias.length = 520) (hout : output.length = 520)
    (hiA : iA < num_inputs) (hiB : iB < num_inputs) :
    ∃ outA outB outAB,
      feature_transformer_slice_forward ((iA : Int) :: -1 :: restA) (vA :: tailA)
        weight bias output = some outA ∧
      feature_transformer_slice_forward ((iB : Int) :: -1 :: restB) (vB :: tailB)
        weight bias output = some outB ∧
      feature_transformer_slice_forward ((iA : Int) :: (iB : Int) :: -1 :: restAB)
        (vA :: vB :: tailAB) weight bias output = some outAB ∧
      ∀ j, j < 520 →
        outAB[j]? = some (outA.getD j 0 + outB.getD j 0 - bias.getD j 0) := by
  have hW : ∀ i, i < weight.length → weight[i]? = some (weight.getD i 0) :=
    fun i hi => getElem?_eq_some_getD weight 0 i hi
  have hB : ∀ j, j < 520 → bias[j]? = some (bias.getD j 0) :=
    fun j hj => getElem?_eq_some_getD bias 0 j (by omega)
  have eA := forward_spec ((iA : Int) :: -1 :: restA) (vA :: tailA) weight bias output
    (fun _ => iA) (fun _ => vA) (fun i => weight.getD i 0) (fun j => bias.getD j 0) 1
    hW hB hout (by omega)
    (by
      intro i hi
      have : i = 0 := by omega
      subst this
      exact ⟨by simp, by simp, by dsimp only; omega, by dsimp only; omega⟩)
    (fun _ => ⟨by simp, _, List.getElem?_eq_getElem (by rw [List.length_cons]; omega)⟩)
  have eB := forward_spec ((iB : Int) :: -1 :: restB) (vB :: tailB) weight bias output
    (fun _ => iB) (fun _ => vB) (fun i => weight.getD i 0) (fun j => bias.getD j 0) 1
    hW hB hout (by omega)
    (by
      intro i hi
      have : i = 0 := by omega
      subst this
      exact ⟨by simp, by simp, by dsimp only; omega, by dsimp only; omega⟩)
    (fun _ => ⟨by simp, _, List.getElem?_eq_getElem (by rw [List.length_cons]; omega)⟩)
  have eAB := forward_spec ((iA : Int) :: (iB : Int) :: -1 :: restAB) (vA :: vB :: tailAB)
    weight bias output (fun i => if i = 0 then iA else iB) (fun i => if i = 0 then vA else vB)
    (fun i => weight.getD i 0) (fun j => bias.getD j 0) 2 hW hB hout (by omega)
    (by
      intro i hi
      have : i = 0 ∨ i = 1 := by omega
      rcases this with h | h
      · subst h
        exact ⟨by simp, by simp, by dsimp only; rw [if_pos rfl]; omega,
          by dsimp only; rw [if_pos rfl]; omega⟩
      · subst h
        exact ⟨by simp, by simp, by dsimp only; rw [if_neg (by omega)]; omega,
          by dsimp only; rw [if_neg (by omega)]; omega⟩)
    (fun _ => ⟨by simp, _, List.getElem?_eq_getElem
      (by rw [List.length_cons, List.length_cons]; omega)⟩)
  refine ⟨_, _, _, eA, eB, eAB, ?_⟩
  intro j hj
  have r1 : List.range 1 = [0] := rfl
  have r2 : List.range 2 = [0, 1] := rfl
  rw [getElem?_map_range _ _ _ hj, getD_map_range _ _ _ _ hj, getD_map_range _ _ _ _ hj, r1, r2]
  refine congrArg some ?_
  simp only [List.foldl_cons, List.foldl_nil, if_true, one_ne_zero, if_false]
  ring

theorem forward_pointwise [Add α] [Mul α] [Zero α] (idx : List Int)
    (val weight bias output : List α) (row : Nat → Nat) (fv : Nat → α) (n : Nat)
    (hbias : bias.length = 520) (hout : output.length = 520) (hn : n ≤ 64)
    (hact : ∀ i, i < n → idx[i]? = some (row i : Int) ∧ val[i]? = some (fv i) ∧
      row i * 520 + 520 ≤ weight.length ∧ row i * 520 < 2 ^ 31)
    (hend : n < 64 → idx[n]? = some (-1) ∧ ∃ x, val[n]? = some x) :
    ∃ out, feature_transformer_slice_forward idx val weight bias output = some out ∧
      out.length = 520 ∧
      ∀ j, j < 520 → out[j]? = some ((List.range n).foldl
        (fun acc i => acc + weight.getD (row i * 520 + j) 0 * fv i) (bias.getD j 0)) :=
  ⟨_,
    forward_spec idx val weight bias output row fv (fun i => weight.getD i 0)
      (fun j => bias.getD j 0) n (fun i hi => getElem?_eq_some_getD weight 0 i hi)
      (fun j hj => getElem?_eq_some_getD bias 0 j (by omega)) hout hn hact hend,
    by rw [List.length_map, List.length_range],
    fun j hj => getElem?_map_range _ _ j hj⟩

theorem superposition_steps {β : Type} [Add β] [Mul β] [Zero β] (iA iB : Nat)
    (vA vB : β) (restA restB restAB : List Int) (tailA tailB tailAB : List β)
    (weight bias output : List β) (num_inputs : Nat)
    (htA : 0 < tailA.length) (htB : 0 < tailB.length) (htAB : 0 < tailAB.length)
    (hweight : weight.length = num_inputs * 520) (hnum : num_inputs * 520 < 2 ^ 31)
    (hbias : bias.length = 520) (hout : output.length = 520)
    (hiA : iA < num_inputs) (hiB : iB < num_inputs) :
    ∃ outA outB outAB,
      feature_transformer_slice_forward ((iA : Int) :: -1 :: restA) (vA :: tailA)
        weight bias output = some outA ∧
      feature_transformer_slice_forward ((iB : Int) :: -1 :: restB) (vB :: tailB)
        weight bias output = some outB ∧
      feature_transformer_slice_forward ((iA : Int) :: (iB : Int) :: -1 :: restAB)
        (vA :: vB :: tailAB) weight bias output = some outAB ∧
      ∀ j, j < 520 →
        outB[j]? = some (bias.getD j 0 + weight.getD (iB * 520 + j) 0 * vB) ∧
        outAB[j]? = some (outA.getD j 0 + weight.getD (iB * 520 + j) 0 * vB) := by
  obtain ⟨outA, eA, _, pA⟩ := forward_pointwise ((iA : Int) :: -1 :: restA) (vA :: tailA)
    weight bias output (fun _ => iA) (fun _ => vA) 1 hbias hout (by omega)
    (by
      intro i hi
      have : i = 0 := by omega
      subst this
      exact ⟨by simp, by simp, by dsimp only; omega, by dsimp only; omega⟩)
    (fun _ => ⟨by simp, _, List.getElem?_eq_getElem (by rw [List.length_cons]; omega)⟩)
  obtain ⟨outB, eB, _, pB⟩ := forward_pointwise ((iB : Int) :: -1 :: restB) (vB :: tailB)
    weight bias output (fun _ => iB) (fun _ => vB) 1 hbias hout (by omega)
    (by
      intro i hi
      have : i = 0 := by omega
      subst this
      exact ⟨by simp, by simp, by dsimp only; omega, by dsimp only; omega⟩)
    (fun _ => ⟨by simp, _, List.getElem?_eq_getElem (by rw [List.length_cons]; omega)⟩)
  obtain ⟨outAB, eAB, _, pAB⟩ := forward_pointwise
    ((iA : Int) :: (iB : Int) :: -1 :: restAB) (vA :: vB :: tailAB) weight bias output
    (fun i => if i = 0 then iA else iB) (fun i => if i = 0 then vA else vB) 2 hbias hout
    (by omega)
    (by
      intro i hi
      have : i = 0 ∨ i = 1 := by omega
      rcases this with h | h
      · subst h
        exact ⟨by simp, by simp, by dsimp only; rw [if_pos rfl]; omega,
          by dsimp only; rw [if_pos rfl]; omega⟩
      · subst h
        exact ⟨by simp, by simp, by dsimp only; rw [if_neg (by omega)]; omega,
          by dsimp only; rw [if_neg (by omega)]; omega⟩)
    (fun _ => ⟨by simp, _, List.getElem?_eq_getElem
      (by rw [List.length_cons, List.length_cons]; omega)⟩)
  refine ⟨outA, outB, outAB, eA, eB, eAB, ?_⟩
  intro j hj
  have r1 : List.range 1 = [0] := rfl
  have r2 : List.range 2 = [0, 1] := rfl
  refine ⟨?_, ?_⟩
  · rw [pB j hj, r1]
    rfl
  · rw [pAB j hj, getD_of_getElem? outA j _ 0 (pA j hj), r1, r2]
    rfl

/-- C10, as amended. Superposition of Forward for two single-feature examples
`A = [(iA, vA), -1, ...]` and `B = [(iB, vB), -1, ...]` with valid rows `iA`, `iB` (which
need not be different) and the combined example `AB = [(iA, vA), (iB, vB), -1, ...]`:
(i) in exact arithmetic (a commutative ring),
`forward(AB)[j] = forward(A)[j] + forward(B)[j] - bias[j]` in every column `j`; and
(ii) in the arithmetic of the kernel, whatever its laws (binary32 included),
`forward(B)[j] = bias[j] + weight[iB][j] * vB` and
`forward(AB)[j] = forward(A)[j] + weight[iB][j] * vB`: the combined example adds the
product of B to the output of A, and each `+` and `*` rounds once. -/
theorem forward_superposition :
    (∀ (α : Type) [CommRing α] (iA iB : Nat) (vA vB : α) (restA restB restAB : List Int)
        (tailA tailB tailAB weight bias output : List α) (num_inputs : Nat),
      0 < tailA.length → 0 < tailB.length → 0 < tailAB.length →
      weight.length = num_inputs * 520 → num_inputs * 520 < 2 ^ 31 →
      bias.length = 520 → output.length = 520 → iA < num_inputs → iB < num_inputs →
      ∃ outA outB outAB,
        feature_transformer_slice_forward ((iA : Int) :: -1 :: restA) (vA :: tailA)
          weight bias output = some outA ∧
        feature_transformer_slice_forward ((iB : Int) :: -1 :: restB) (vB :: tailB)
          weight bias output = some outB ∧
        feature_transformer_slice_forward ((iA : Int) :: (iB : Int) :: -1 :: restAB)
          (vA :: vB :: tailAB) weight bias output = some outAB ∧
        ∀ j, j < 520 →
          outAB[j]? = some (outA.getD j 0 + outB.getD j 0 - bias.getD j 0)) ∧
    (∀ (β : Type) [Add β] [Mul β] [Zero β] (iA iB : Nat) (vA vB : β)
        (restA restB restAB : List Int) (tailA tailB tailAB weight bias output : List β)
        (num_inputs : Nat),
      0 < tailA.length → 0 < tailB.length → 0 < tailAB.length →
      weight.length = num_inputs * 520 → num_inputs * 520 < 2 ^ 31 →
      bias.length = 520 → output.length = 520 → iA < num_inputs → iB < num_inputs →
      ∃ outA outB outAB,
        feature_transformer_slice_forward ((iA : Int) :: -1 :: restA) (vA :: tailA)
          weight bias output = some outA ∧
        feature_transformer_slice_forward ((iB : Int) :: -1 :: restB) (vB :: tailB)
          weight bias output = some outB ∧
        feature_transformer_slice_forward ((iA : Int) :: (iB : Int) :: -1 :: restAB)
          (vA :: vB :: tailAB) weight bias output = some outAB ∧
        ∀ j, j < 520 →
          outB[j]? = some (bias.getD j 0 + weight.getD (iB * 520 + j) 0 * vB) ∧
          outAB[j]? = some (outA.getD j 0 + weight.getD (iB * 520 + j) 0 * vB)) :=
  ⟨fun _ _ iA iB vA vB restA restB restAB tailA tailB tailAB weight bias output num_inputs
      htA htB htAB hweight hnum hbias hout hiA hiB =>
    superposition_exact iA iB vA vB restA restB restAB tailA tailB tailAB weight bias
      output num_inputs htA htB htAB hweight hnum hbias hout hiA hiB,
  fun _ _ _ _ iA iB vA vB restA restB restAB tailA tailB tailAB weight bias output num_inputs
      htA htB htAB hweight hnum hbias hout hiA hiB =>
    superposition_steps iA iB vA vB restA restB restAB tailA tailB tailAB weight bias
      output num_inputs htA htB htAB hweight hnum hbias hout hiA hiB⟩

/-- Witness for C10 as amended: rows 7 and 3 of an 8-row matrix in `ℤ`, and in binary32
the rows 0 and 1 of a matrix of ones with the values `1.5 * 2^-24` and `2^-24`. -/
theorem forward_superposition_witness :
    (∃ outA outB outAB,
      feature_transformer_slice_forward (((7 : Nat) : Int) :: -1 :: List.replicate 62 9)
        ((2 : ℤ) :: List.replicate 63 11) (List.replicate (8 * 520) 5) (List.replicate 520 1)
        (List.replicate 520 0) = some outA ∧
      feature_transformer_slice_forward (((3 : Nat) : Int) :: -1 :: List.replicate 62 9)
        ((6 : ℤ) :: List.replicate 63 11) (List.replicate (8 * 520) 5) (List.replicate 520 1)
        (List.replicate 520 0) = some outB ∧
      feature_transformer_slice_forward
        (((7 : Nat) : Int) :: ((3 : Nat) : Int) :: -1 :: List.replicate 61 9)
        ((2 : ℤ) :: 6 :: List.replicate 62 11) (List.replicate (8 * 520) 5)
        (List.replicate 520 1) (List.replicate 520 0) = some outAB ∧
      ∀ j, j < 520 →
        outAB[j]? =
          some (outA.getD j 0 + outB.getD j 0 - (List.replicate 520 (1 : ℤ)).getD j 0)) ∧
    (∃ outA outB outAB,
      feature_transformer_slice_forward (((0 : Nat) : Int) :: -1 :: List.replicate 62 (-1))
        (binary32 3 (-25) :: List.replicate 63 0) (List.replicate (2 * 520) (binary32 1 0))
        (List.replicate 520 (binary32 1 0)) (List.replicate 520 0) = some outA ∧
      feature_transformer_slice_forward (((1 : Nat) : Int) :: -1 :: List.replicate 62 (-1))
        (binary32 1 (-24) :: List.replicate 63 0) (List.replicate (2 * 520) (binary32 1 0))
        (List.replicate 520 (binary32 1 0)) (List.replicate 520 0) = some outB ∧
      feature_transformer_slice_forward
        (((0 : Nat) : Int) :: ((1 : Nat) : Int) :: -1 :: List.replicate 61 (-1))
        (binary32 3 (-25) :: binary32 1 (-24) :: List.replicate 62 0)
        (List.replicate (2 * 520) (binary32 1 0)) (List.replicate 520 (binary32 1 0))
        (List.replicate 520 0) = some outAB ∧
      ∀ j, j < 520 →
        outB[j]? = some ((List.replicate 520 (binary32 1 0)).getD j 0 +
          (List.replicate (2 * 520) (binary32 1 0)).getD (1 * 520 + j) 0 * binary32 1 (-24)) ∧
        outAB[j]? = some (outA.getD j 0 +
          (List.replicate (2 * 520) (binary32 1 0)).getD (1 * 520 + j) 0 *
            binary32 1 (-24))) :=
  ⟨forward_superposition.1 ℤ 7 3 2 6 (List.replicate 62 9) (List.replicate 62 9)
      (List.replicate 61 9) (List.replicate 63 11) (List.replicate 63 11)
      (List.replicate 62 11) (List.replicate (8 * 520) 5) (List.replicate 520 1)
      (List.replicate 520 0) 8
      (by rw [List.length_replicate]; omega) (by rw [List.length_replicate]; omega)
      (by rw [List.length_replicate]; omega)
      (List.length_replicate _ _) (by norm_num) (List.length_replicate _ _)
      (List.length_replicate _ _) (by omega) (by omega),
    forward_superposition.2 Binary32 0 1 (binary32 3 (-25)) (binary32 1 (-24))
      (List.replicate 62 (-1)) (List.replicate 62 (-1)) (List.replicate 61 (-1))
      (List.replicate 63 0) (List.replicate 63 0) (List.replicate 62 0)
      (List.replicate (2 * 520) (binary32 1 0)) (List.replicate 520 (binary32 1 0))
      (List.replicate 520 0) 2
      (by rw [List.length_replicate]; omega) (by rw [List.length_replicate]; omega)
      (by rw [List.length_replicate]; omega)
      (List.length_replicate _ _) (by norm_num) (List.length_replicate _ _)
      (List.length_replicate _ _) (by omega) (by omega)⟩

/-- C10 fails as stated on binary32: with every bias and weight equal to `1`,
`A = [(0, 1.5 * 2^-24), -1, ...]` and `B = [(1, 2^-24), -1, ...]`, Forward gives
`forward(A)[0] = 1 + 2^-23`, `forward(B)[0] = 1` and, on the combined example
`[(0, 1.5 * 2^-24), (1, 2^-24), -1, ...]`, `forward(AB)[0] = 1 + 2^-22`, while
`forward(A)[0] + forward(B)[0] - bias[0]` is `1` (summed left to right) or `1 + 2^-23`
(with `forward(B)[0] - bias[0]` computed first). -/
theorem forward_superposition_counterexample :
    ∃ outA outB outAB,
      feature_transformer_slice_forward (0 :: List.replicate 63 (-1))
        (binary32 3 (-25) :: List.replicate 63 0) (List.replicate (2 * 520) (binary32 1 0))
        (List.replicate 520 (binary32 1 0)) (List.replicate 520 0) = some outA ∧
      feature_transformer_slice_forward (1 :: List.replicate 63 (-1))
        (binary32 1 (-24) :: List.replicate 63 0) (List.replicate (2 * 520) (binary32 1 0))
        (List.replicate 520 (binary32 1 0)) (List.replicate 520 0) = some outB ∧
      feature_transformer_slice_forward (0 :: 1 :: List.replicate 62 (-1))
        (binary32 3 (-25) :: binary32 1 (-24) :: List.replicate 62 0)
        (List.replicate (2 * 520) (binary32 1 0)) (List.replicate 520 (binary32 1 0))
        (List.replicate 520 0) = some outAB ∧
      outA[0]? = some (binary32 8388609 (-23)) ∧ outB[0]? = some (binary32 1 0) ∧
      outAB[0]? = some (binary32 8388610 (-23)) ∧
      outAB[0]? ≠ some (outA.getD 0 0 + outB.getD 0 0 -
        (List.replicate 520 (binary32 1 0)).getD 0 0) ∧
      outAB[0]? ≠ some (outA.getD 0 0 + (outB.getD 0 0 -
        (List.replicate 520 (binary32 1 0)).getD 0 0)) := by
  have hw : (List.replicate (2 * 520) (binary32 1 0)).length = 2 * 520 :=
    List.length_replicate _ _
  obtain ⟨outA, eA, _, pA⟩ := forward_pointwise (0 :: List.replicate 63 (-1))
    (binary32 3 (-25) :: List.replicate 63 0) (List.replicate (2 * 520) (binary32 1 0))
    (List.replicate 520 (binary32 1 0)) (List.replicate 520 0) (fun _ => 0)
    (fun _ => binary32 3 (-25)) 1 (List.length_replicate _ _) (List.length_replicate _ _)
    (by omega)
    (by
      intro i hi
      have : i = 0 := by omega
      subst this
      exact ⟨by simp, by simp, by rw [hw]; norm_num, by norm_num⟩)
    (fun _ => ⟨by simp, 0, by simp⟩)
  obtain ⟨outB, eB, _, pB⟩ := forward_pointwise (1 :: List.replicate 63 (-1))
    (binary32 1 (-24) :: List.replicate 63 0) (List.replicate (2 * 520) (binary32 1 0))
    (List.replicate 520 (binary32 1 0)) (List.replicate 520 0) (fun _ => 1)
    (fun _ => binary32 1 (-24)) 1 (List.length_replicate _ _) (List.length_replicate _ _)
    (by omega)
    (by
      intro i hi
      have : i = 0 := by omega
      subst this
      exact ⟨by simp, by simp, by rw [hw]; norm_num, by norm_num⟩)
    (fun _ => ⟨by simp, 0, by simp⟩)
  obtain ⟨outAB, eAB, _, pAB⟩ := forward_pointwise (0 :: 1 :: List.replicate 62 (-1))
    (binary32 3 (-25) :: binary32 1 (-24) :: List.replicate 62 0)
    (List.replicate (2 * 520) (binary32 1 0))
    (List.replicate 520 (binary32 1 0)) (List.replicate 520 0) (fun i => i)
    (fun i => if i = 0 then binary32 3 (-25) else binary32 1 (-24)) 2
    (List.length_replicate _ _) (List.length_replicate _ _) (by omega)
    (by
      intro i hi
      have : i = 0 ∨ i = 1 := by omega
      rcases this with h | h <;> subst h <;>
        exact ⟨by simp, by simp, by rw [hw]; norm_num, by norm_num⟩)
    (fun _ => ⟨by simp, 0, by simp⟩)
  have hb : (List.replicate 520 (binary32 1 0)).getD 0 0 = binary32 1 0 :=
    getD_replicate_lt _ _ _ _ (by omega)
  have cA : outA[0]? = some (binary32 8388609 (-23)) := by
    rw [pA 0 (by omega), hb]
    rw [getD_replicate_lt _ _ _ _ (by omega)]
    exact congrArg some (by decide!)
  have cB : outB[0]? = some (binary32 1 0) := by
    rw [pB 0 (by omega), hb]
    rw [getD_replicate_lt _ _ _ _ (by omega)]
    exact congrArg some (by decide!)
  have cAB : outAB[0]? = some (binary32 8388610 (-23)) := by
    rw [pAB 0 (by omega), hb]
    have r2 : List.range 2 = [0, 1] := rfl
    rw [r2, List.foldl_cons, List.foldl_cons, List.foldl_nil]
    rw [getD_replicate_lt _ _ _ _ (by omega), getD_replicate_lt _ _ _ _ (by omega)]
    exact congrArg some (by decide!)
  refine ⟨outA, outB, outAB, eA, eB, eAB, cA, cB, cAB, ?_, ?_⟩
  · rw [cAB, getD_of_getElem? outA 0 _ 0 cA, getD_of_getElem? outB 0 _ 0 cB, hb]
    decide!
  · rw [cAB, getD_of_getElem? outA 0 _ 0 cA, getD_of_getElem? outB 0 _ 0 cB, hb]
    decide!

/-! ## C11: Forward overwrites the output row and nothing else -/

/-- C11. Under the caller contract Forward returns, and its only effect is to overwrite
the whole output row: the 520 elements of `output` after the call are the same for every
initial content of `output`, and `feature_indices`, `feature_values`, `weight` and `bias`
are the same after the call as before it. -/
theorem forward_frame [Add α] [Mul α] (feature_indices : List Int)
    (feature_values weight bias : List α) (num_inputs n : Nat)
    (hidx : feature_indices.length = 64) (hval : feature_values.length = 64)
    (hweight : weight.length = num_inputs * 520) (hnum : num_inputs * 520 < 2 ^ 31)
    (hbias : bias.length = 520) (hn : n ≤ 64)
    (hvalid : ∀ k, k < n →
      0 ≤ feature_indices.getD k 0 ∧ feature_indices.getD k 0 < num_inputs)
    (hend : n < 64 → feature_indices.getD n 0 = -1) :
    ∃ out : List α, out.length = 520 ∧
      ∀ output : List α, output.length = 520 →
        forward_call ⟨feature_indices, feature_values, weight, bias, output⟩ =
          some ⟨feature_indices, feature_values, weight, bias, out⟩ := by
  obtain ⟨d, _⟩ : ∃ d, bias[0]? = some d := ⟨_, List.getElem?_eq_getElem (by omega)⟩
  refine ⟨(List.range 520).map fun j =>
      (List.range n).foldl
        (fun acc i => acc + weight.getD ((feature_indices.getD i 0).toNat * 520 + j) d *
          feature_values.getD i d)
        (bias.getD j d),
    by rw [List.length_map, List.length_range], ?_⟩
  intro output hout
  unfold forward_call
  dsimp only
  rw [forward_spec feature_indices feature_values weight bias output
    (fun k => (feature_indices.getD k 0).toNat) (fun k => feature_values.getD k d)
    (fun i => weight.getD i d) (fun j => bias.getD j d) n
    (fun i hi => getElem?_eq_some_getD weight d i hi)
    (fun j hj => getElem?_eq_some_getD bias d j (by omega)) hout hn
    (contract_active feature_indices feature_values d weight.length num_inputs n hidx hval
      hweight hnum hn hvalid)
    (contract_end feature_indices feature_values d n hidx hval hend)]
  rfl

/-- Witness for C11: two active features, rows 7 and 3 of an 8-row matrix. -/
theorem forward_frame_witness :
    ∃ out : List ℤ, out.length = 520 ∧
      ∀ output : List ℤ, output.length = 520 →
        forward_call ⟨7 :: 3 :: List.replicate 62 (-1), List.replicate 64 2,
            List.replicate (8 * 520) 5, List.replicate 520 1, output⟩ =
          some ⟨7 :: 3 :: List.replicate 62 (-1), List.replicate 64 2,
            List.replicate (8 * 520) 5, List.replicate 520 1, out⟩ :=
  forward_frame (7 :: 3 :: List.replicate 62 (-1)) (List.replicate 64 (2 : ℤ))
    (List.replicate (8 * 520) 5) (List.replicate 520 1) 8 2
    (by simp) (List.length_replicate _ _) (List.length_replicate _ _) (by norm_num)
    (List.length_replicate _ _) (by norm_num)
    (by intro k hk; interval_cases k <;> simp)
    (by intro _; simp)

/-! ## C12: Backward only adds, and only into the rows of active features -/

/-- C12. Under the caller contract Backward returns and only adds into its accumulators:
there are increments `dW`, `dB`, fixed by the feature lists and `output_grad` alone, such
that for every initial `weight_grad` and `bias_grad` each element after the call is its
previous value plus its increment; and every row `i` of `weight_grad` that is not an
index of the active prefix has all its elements unchanged. -/
theorem backward_frame [CommSemiring α] [DecidableEq α]
    (feature_indices : List Int) (feature_values output_grad : List α) (num_inputs n : Nat)
    (hidx : feature_indices.length = 64) (hval : feature_values.length = 64)
    (hnum : num_inputs * 520 < 2 ^ 31) (hog : output_grad.length = 520) (hn : n ≤ 64)
    (hvalid : ∀ k, k < n →
      0 ≤ feature_indices.getD k 0 ∧ feature_indices.getD k 0 < num_inputs)
    (hend : n < 64 → feature_indices.getD n 0 = -1) :
    ∃ dW dB : Nat → α, ∀ weight_grad bias_grad : List α,
      weight_grad.length = num_inputs * 520 → bias_grad.length = 520 →
      ∃ weight_grad' bias_grad',
        feature_transformer_slice_backward feature_indices feature_values weight_grad
          bias_grad output_grad = some (weight_grad', bias_grad') ∧
        (∀ p, p < num_inputs * 520 →
          weight_grad'[p]? = some (weight_grad.getD p 0 + dW p)) ∧
        (∀ j, j < 520 → bias_grad'[j]? = some (bias_grad.getD j 0 + dB j)) ∧
        (∀ i, i < num_inputs → (∀ k, k < n → feature_indices.getD k 0 ≠ (i : Int)) →
          ∀ j, j < 520 → weight_grad'[i * 520 + j]? = weight_grad[i * 520 + j]?) := by
  refine ⟨fun p => ∑ k in Finset.range n,
      if (feature_indices.getD k 0).toNat = p / 520
        then feature_values.getD k 0 * output_grad.getD (p % 520) 0 else 0,
    fun j => output_grad.getD j 0, ?_⟩
  intro weight_grad bias_grad hwg hbg
  refine ⟨_, _, backward_sum feature_indices feature_values weight_grad bias_grad output_grad
    num_inputs n hidx hval hwg hnum hbg hog hn hvalid hend, ?_, ?_, ?_⟩
  · intro p hp
    rw [getElem?_map_range _ _ _ hp]
  · intro j hj
    rw [getElem?_map_range _ _ _ hj]
  · intro i hi hrow j hj
    rw [getElem?_map_range _ _ _ (by omega),
      getElem?_eq_some_getD weight_grad 0 (i * 520 + j) (by omega)]
    refine congrArg some ?_
    rw [Finset.sum_eq_zero, add_zero]
    intro k hk
    have hk' : k < n := Finset.mem_range.mp hk
    obtain ⟨h0, _⟩ := hvalid k hk'
    have h1 := hrow k hk'
    rw [if_neg]
    omega

/-- Witness for C12: active prefix `[3, 5, 3]` in an 8-row matrix. -/
theorem backward_frame_witness :
    ∃ dW dB : Nat → ℤ, ∀ weight_grad bias_grad : List ℤ,
      weight_grad.length = 8 * 520 → bias_grad.length = 520 →
      ∃ weight_grad' bias_grad',
        feature_transformer_slice_backward (3 :: 5 :: 3 :: List.replicate 61 (-1))
          (List.replicate 64 2) weight_grad bias_grad (List.replicate 520 4) =
            some (weight_grad', bias_grad') ∧
        (∀ p, p < 8 * 520 → weight_grad'[p]? = some (weight_grad.getD p 0 + dW p)) ∧
        (∀ j, j < 520 → bias_grad'[j]? = some (bias_grad.getD j 0 + dB j)) ∧
        (∀ i : Nat, i < 8 →
          (∀ k, k < 3 →
            (3 :: 5 :: 3 :: List.replicate 61 (-1) : List Int).getD k 0 ≠ (i : Int)) →
          ∀ j, j < 520 → weight_grad'[i * 520 + j]? = weight_grad[i * 520 + j]?) :=
  backward_frame (3 :: 5 :: 3 :: List.replicate 61 (-1)) (List.replicate 64 (2 : ℤ))
    (List.replicate 520 4) 8 3 (by simp) (List.length_replicate _ _) (by norm_num)
    (List.length_replicate _ _) (by norm_num)
    (by intro k hk; interval_cases k <;> simp)
    (by intro _; simp)

/-! ## C13: early exit of Backward, and the rows it adds into -/

theorem backward_scan_succ [Add α] [Mul α] [Zero α] [DecidableEq α] (idx : List Int)
    (val : List α) (shared : List (Option α)) (fuel k : Nat) (wg : List α) :
    backward_scan idx val shared (fuel + 1) k wg =
      (idx[k]?).bind (fun feature_index => (val[k]?).bind (fun feature_value =>
        if feature_index ≠ -1 then
          (mul_int32 feature_index output_size).bind (fun row =>
            (backward_accumulate shared (row + slice_offset) feature_value wg).bind
              (fun wg1 => backward_scan idx val shared fuel (k + 1) wg1))
        else some wg)) := by
  rw [backward_scan]
  rfl

theorem backward_scan_agree [Add α] [Mul α] [Zero α] [DecidableEq α] (idx1 idx2 : List Int)
    (val1 val2 : List α) (shared : List (Option α)) :
    ∀ (m fuel k : Nat) (wg : List α),
      (∀ i, i < m → idx1[k + i]? = idx2[k + i]? ∧ val1[k + i]? = val2[k + i]?) →
      idx1[k + m]? = some (-1) → idx2[k + m]? = some (-1) →
      (∃ x, val1[k + m]? = some x) → (∃ x, val2[k + m]? = some x) →
      backward_scan idx1 val1 shared fuel k wg = backward_scan idx2 val2 shared fuel k wg := by
  intro m
  induction m with
  | zero =>
    intro fuel k wg _ h1 h2 hx1 hx2
    cases fuel with
    | zero => rfl
    | succ fuel =>
      obtain ⟨x1, hx1⟩ := hx1
      obtain ⟨x2, hx2⟩ := hx2
      rw [backward_scan_stop idx1 val1 shared fuel k wg x1 h1 hx1,
        backward_scan_stop idx2 val2 shared fuel k wg x2 h2 hx2]
  | succ m ih =>
    intro fuel k wg hagree h1 h2 hx1 hx2
    cases fuel with
    | zero => rfl
    | succ fuel =>
      obtain ⟨e1, e2⟩ := hagree 0 (by omega)
      rw [Nat.add_zero] at e1 e2
      rw [backward_scan_succ, backward_scan_succ, e1, e2]
      refine congrArg _ (funext fun feature_index => congrArg _ (funext fun feature_value => ?_))
      by_cases hne : feature_index ≠ -1
      · rw [if_pos hne, if_pos hne]
        refine congrArg _ (funext fun row => congrArg _ (funext fun wg1 => ?_))
        apply ih fuel (k + 1) wg1
        · intro i hi
          have := hagree (i + 1) (by omega)
          rwa [show k + (i + 1) = k + 1 + i by omega] at this
        · rwa [show k + (m + 1) = k + 1 + m by omega] at h1
        · rwa [show k + (m + 1) = k + 1 + m by omega] at h2
        · rwa [show k + (m + 1) = k + 1 + m by omega] at hx1
        · rwa [show k + (m + 1) = k + 1 + m by omega] at hx2
      · rw [if_neg hne, if_neg hne]

theorem backward_congr_scan [Add α] [Mul α] [Zero α] [DecidableEq α] (idx1 idx2 : List Int)
    (val1 val2 wg bg og : List α)
    (h : ∀ (shared : List (Option α)) (w : List α),
      backward_scan idx1 val1 shared 64 0 w = backward_scan idx2 val2 shared 64 0 w) :
    feature_transformer_slice_backward idx1 val1 wg bg og =
      feature_transformer_slice_backward idx2 val2 wg bg og := by
  unfold feature_transformer_slice_backward max_active_features
  dsimp only
  refine congrArg _ (funext fun shared1 => congrArg _ (funext fun bias_grad1 => ?_))
  rw [h shared1 wg]

theorem backward_agree [Add α] [Mul α] [Zero α] [DecidableEq α] (idx1 idx2 : List Int)
    (val1 val2 wg bg og : List α) (n : Nat)
    (h1 : idx1[n]? = some (-1)) (h2 : idx2[n]? = some (-1))
    (hidx : ∀ k, k < n → idx1[k]? = idx2[k]?) (hval : ∀ k, k < n → val1[k]? = val2[k]?)
    (hv1 : n < val1.length) (hv2 : n < val2.length) :
    feature_transformer_slice_backward idx1 val1 wg bg og =
      feature_transformer_slice_backward idx2 val2 wg bg og := by
  apply backward_congr_scan
  intro shared w
  apply backward_scan_agree idx1 idx2 val1 val2 shared n 64 0 w
  · intro i hi
    rw [Nat.zero_add]
    exact ⟨hidx i hi, hval i hi⟩
  · rwa [Nat.zero_add]
  · rwa [Nat.zero_add]
  · rw [Nat.zero_add]
    exact ⟨_, List.getElem?_eq_getElem hv1⟩
  · rw [Nat.zero_add]
    exact ⟨_, List.getElem?_eq_getElem hv2⟩

theorem forward_sum [CommSemiring α] (idx : List Int) (val weight bias output : List α)
    (num_inputs n : Nat) (hidx : idx.length = 64) (hval : val.length = 64)
    (hweight : weight.length = num_inputs * 520) (hnum : num_inputs * 520 < 2 ^ 31)
    (hbias : bias.length = 520) (hout : output.length = 520) (hn : n ≤ 64)
    (hvalid : ∀ k, k < n → 0 ≤ idx.getD k 0 ∧ idx.getD k 0 < num_inputs)
    (hend : n < 64 → idx.getD n 0 = -1) :
    feature_transformer_slice_forward idx val weight bias output =
      some ((List.range 520).map fun j =>
        bias.getD j 0 + ∑ k in Finset.range n,
          val.getD k 0 * weight.getD ((idx.getD k 0).toNat * 520 + j) 0) := by
  rw [forward_spec idx val weight bias output (fun k => (idx.getD k 0).toNat)
    (fun k => val.getD k 0) (fun i => weight.getD i 0) (fun j => bias.getD j 0) n
    (fun i hi => getElem?_eq_some_getD weight 0 i hi)
    (fun j hj => getElem?_eq_some_getD bias 0 j (by omega)) hout hn
    (contract_active idx val 0 weight.length num_inputs n hidx hval hweight hnum hn hvalid)
    (contract_end idx val 0 n hidx hval hend)]
  refine congrArg some (List.map_congr_left ?_)
  intro j _
  apply foldl_range_eq_sum
  intro acc t _
  rw [mul_comm]

theorem forward_one_feature [Add α] [Mul α] (idx : List Int)
    (val weight bias output : List α) (r : Nat) (v y : α) (W B : Nat → α)
    (h0 : idx[0]? = some (r : Int)) (h1 : idx[1]? = some (-1))
    (hv0 : val[0]? = some v) (hv1 : val[1]? = some y)
    (hr1 : r * 520 + 520 ≤ weight.length) (hr : r * 520 < 2 ^ 31)
    (hW : ∀ i, i < weight.length → weight[i]? = some (W i))
    (hB : ∀ j, j < 520 → bias[j]? = some (B j)) (hout : output.length = 520) :
    feature_transformer_slice_forward idx val weight bias output =
      some ((List.range 520).map fun j => B j + W (r * 520 + j) * v) := by
  rw [forward_spec idx val weight bias output (fun _ => r) (fun _ => v) W B 1 hW hB hout
    (by omega)
    (by
      intro i hi
      have : i = 0 := by omega
      subst this
      exact ⟨h0, hv0, hr1, hr⟩)
    (fun _ => ⟨h1, y, hv1⟩)]
  rfl

/-- C13. Backward applies the early-exit rule of Forward: two index/value list pairs
whose index lists hold their first `-1` at the same position `n` and that agree on all
entries before `n` give identical `weight_grad` and `bias_grad`, whatever stands after
position `n`.  The rows Backward updates are exactly the rows Forward accumulates:
Forward accumulates the rows `index[k]`, `k < n`, into its output, Backward adds
`value[k] * output_grad[j]` into column `j` of the rows `index[k]`, `k < n`, and it
leaves every other row of `weight_grad` unchanged. -/
theorem backward_early_exit [CommSemiring α] [DecidableEq α] (idx1 idx2 : List Int)
    (val1 val2 weight_grad bias_grad output_grad weight bias output : List α)
    (num_inputs n : Nat)
    (hidx1 : idx1.length = 64) (hval1 : val1.length = 64)
    (hwg : weight_grad.length = num_inputs * 520) (hnum : num_inputs * 520 < 2 ^ 31)
    (hbg : bias_grad.length = 520) (hog : output_grad.length = 520)
    (hweight : weight.length = num_inputs * 520) (hbias : bias.length = 520)
    (hout : output.length = 520) (hn : n < 64)
    (hvalid : ∀ k, k < n → 0 ≤ idx1.getD k 0 ∧ idx1.getD k 0 < num_inputs)
    (hend : idx1.getD n 0 = -1) (h2 : idx2[n]? = some (-1))
    (hidx : ∀ k, k < n → idx1[k]? = idx2[k]?) (hval : ∀ k, k < n → val1[k]? = val2[k]?)
    (hv2 : n < val2.length) :
    feature_transformer_slice_backward idx1 val1 weight_grad bias_grad output_grad =
        feature_transformer_slice_backward idx2 val2 weight_grad bias_grad output_grad ∧
      ∃ weight_grad' bias_grad' out,
        feature_transformer_slice_backward idx1 val1 weight_grad bias_grad output_grad =
          some (weight_grad', bias_grad') ∧
        feature_transformer_slice_forward idx1 val1 weight bias output = some out ∧
        (∀ j, j < 520 → out[j]? = some (bias.getD j 0 +
          ∑ k in Finset.range n,
            val1.getD k 0 * weight.getD ((idx1.getD k 0).toNat * 520 + j) 0)) ∧
        (∀ i j, i < num_inputs → j < 520 →
          weight_grad'[i * 520 + j]? = some (weight_grad.getD (i * 520 + j) 0 +
            ∑ k in (Finset.range n).filter (fun k => idx1.getD k 0 = (i : Int)),
              val1.getD k 0 * output_grad.getD j 0)) ∧
        (∀ i, i < num_inputs → (∀ k, k < n → idx1.getD k 0 ≠ (i : Int)) →
          ∀ j, j < 520 → weight_grad'[i * 520 + j]? = weight_grad[i * 520 + j]?) := by
  have h1 : idx1[n]? = some (-1) := by
    rw [getElem?_eq_some_getD idx1 0 n (by omega), hend]
  have hsum : ∀ i j, i < num_inputs → j < 520 →
      ((List.range (num_inputs * 520)).map (fun p =>
          weight_grad.getD p 0 + ∑ k in Finset.range n,
            if (idx1.getD k 0).toNat = p / 520
              then val1.getD k 0 * output_grad.getD (p % 520) 0 else 0))[i * 520 + j]? =
        some (weight_grad.getD (i * 520 + j) 0 +
          ∑ k in (Finset.range n).filter (fun k => idx1.getD k 0 = (i : Int)),
            val1.getD k 0 * output_grad.getD j 0) := by
    intro i j hi hj
    rw [getElem?_map_range _ _ _ (by omega)]
    have e1 : (i * 520 + j) / 520 = i := by omega
    have e2 : (i * 520 + j) % 520 = j := by omega
    rw [e1, e2, Finset.sum_filter]
    refine congrArg some (congrArg _ (Finset.sum_congr rfl ?_))
    intro k hk
    obtain ⟨h0, _⟩ := hvalid k (Finset.mem_range.mp hk)
    have h3 : ((idx1.getD k 0).toNat = i) ↔ (idx1.getD k 0 = (i : Int)) := by omega
    simp only [h3]
  refine ⟨backward_agree idx1 idx2 val1 val2 weight_grad bias_grad output_grad n h1 h2 hidx hval
      (by omega) hv2,
    _, _, _,
    backward_sum idx1 val1 weight_grad bias_grad output_grad num_inputs n hidx1 hval1 hwg hnum
      hbg hog (by omega) hvalid (fun _ => hend),
    forward_sum idx1 val1 weight bias output num_inputs n hidx1 hval1 hweight hnum hbias hout
      (by omega) hvalid (fun _ => hend), ?_, hsum, ?_⟩
  · intro j hj
    rw [getElem?_map_range _ _ _ hj]
  · intro i hi hrow j hj
    rw [hsum i j hi hj, getElem?_eq_some_getD weight_grad 0 (i * 520 + j) (by omega)]
    refine congrArg some ?_
    rw [Finset.sum_eq_zero, add_zero]
    intro k hk
    rw [Finset.mem_filter, Finset.mem_range] at hk
    exact absurd hk.2 (hrow k hk.1)

/-- Witness for C13: the second pair differs from the first at the sentinel
position and after it. -/
theorem backward_early_exit_witness :
    feature_transformer_slice_backward (3 :: 5 :: -1 :: List.replicate 61 9)
        (2 :: 6 :: List.replicate 62 (13 : ℤ)) (List.replicate (8 * 520) 7)
        (List.replicate 520 1) (List.replicate 520 4) =
      feature_transformer_slice_backward (3 :: 5 :: -1 :: List.replicate 61 (-5))
        (2 :: 6 :: List.replicate 62 (19 : ℤ)) (List.replicate (8 * 520) 7)
        (List.replicate 520 1) (List.replicate 520 4) ∧
    ∃ weight_grad' bias_grad' out,
      feature_transformer_slice_backward (3 :: 5 :: -1 :: List.replicate 61 9)
        (2 :: 6 :: List.replicate 62 (13 : ℤ)) (List.replicate (8 * 520) 7)
        (List.replicate 520 1) (List.replicate 520 4) = some (weight_grad', bias_grad') ∧
      feature_transformer_slice_forward (3 :: 5 :: -1 :: List.replicate 61 9)
        (2 :: 6 :: List.replicate 62 (13 : ℤ)) (List.replicate (8 * 520) 5)
        (List.replicate 520 1) (List.replicate 520 0) = some out ∧
      (∀ j, j < 520 → out[j]? = some ((List.replicate 520 (1 : ℤ)).getD j 0 +
        ∑ k in Finset.range 2,
          (2 :: 6 :: List.replicate 62 (13 : ℤ)).getD k 0 *
            (List.replicate (8 * 520) (5 : ℤ)).getD
              (((3 :: 5 :: -1 :: List.replicate 61 9 : List Int).getD k 0).toNat * 520 + j) 0)) ∧
      (∀ i j : Nat, i < 8 → j < 520 →
        weight_grad'[i * 520 + j]? = some ((List.replicate (8 * 520) (7 : ℤ)).getD (i * 520 + j) 0 +
          ∑ k in (Finset.range 2).filter
              (fun k => (3 :: 5 :: -1 :: List.replicate 61 9 : List Int).getD k 0 = (i : Int)),
            (2 :: 6 :: List.replicate 62 (13 : ℤ)).getD k 0 *
              (List.replicate 520 (4 : ℤ)).getD j 0)) ∧
      (∀ i : Nat, i < 8 →
        (∀ k, k < 2 → (3 :: 5 :: -1 :: List.replicate 61 9 : List Int).getD k 0 ≠ (i : Int)) →
        ∀ j, j < 520 →
          weight_grad'[i * 520 + j]? = (List.replicate (8 * 520) (7 : ℤ))[i * 520 + j]?) :=
  backward_early_exit (3 :: 5 :: -1 :: List.replicate 61 9)
    (3 :: 5 :: -1 :: List.replicate 61 (-5)) (2 :: 6 :: List.replicate 62 (13 : ℤ))
    (2 :: 6 :: List.replicate 62 (19 : ℤ)) (List.replicate (8 * 520) 7)
    (List.replicate 520 1) (List.replicate 520 4) (List.replicate (8 * 520) 5)
    (List.replicate 520 1) (List.replicate 520 0) 8 2
    (by simp) (by simp) (List.length_replicate _ _) (by norm_num)
    (List.length_replicate _ _) (List.length_replicate _ _) (List.length_replicate _ _)
    (List.length_replicate _ _) (List.length_replicate _ _) (by norm_num)
    (by intro k hk; interval_cases k <;> simp) (by simp) (by simp)
    (by intro k hk; interval_cases k <;> rfl) (by intro k hk; interval_cases k <;> rfl)
    (by simp)

/-! ## C14: the feature value at the sentinel position -/

theorem forward_scan_short [Add α] [Mul α] (idx : List Int) (val weight : List α) :
    ∀ (m fuel k : Nat) (shared : List (Option α)),
      m < fuel → (∀ i, i < m → idx[k + i]? ≠ some (-1)) → val.length ≤ k + m →
      forward_scan idx val weight fuel k shared = none := by
  intro m
  induction m with
  | zero =>
    intro fuel k shared hf _ hlen
    cases fuel with
    | zero => omega
    | succ fuel =>
      rw [forward_scan_succ, List.getElem?_eq_none (by omega : val.length ≤ k)]
      cases idx[k]? <;> rfl
  | succ m ih =>
    intro fuel k shared hf hne hlen
    cases fuel with
    | zero => omega
    | succ fuel =>
      rw [forward_scan_succ]
      cases hi : idx[k]? with
      | none => rfl
      | some feature_index =>
        have hfi : feature_index ≠ -1 := by
          intro h
          have := hne 0 (by omega)
          rw [Nat.add_zero, hi, h] at this
          exact this rfl
        rw [Option.some_bind]
        cases val[k]? with
        | none => rfl
        | some feature_value =>
          rw [Option.some_bind, if_pos hfi]
          cases mul_int32 feature_index output_size with
          | none => rfl
          | some row =>
            rw [Option.some_bind]
            cases forward_accumulate weight (row + slice_offset) feature_value shared with
            | none => rfl
            | some shared1 =>
              rw [Option.some_bind]
              apply ih fuel (k + 1) shared1 (by omega)
              · intro i hi'
                have := hne (i + 1) (by omega)
                rwa [show k + (i + 1) = k + 1 + i by omega] at this
              · omega

theorem forward_short [Add α] [Mul α] (idx : List Int) (val weight bias output : List α)
    (n : Nat) (hn : n < 64) (hne : ∀ k, k < n → idx[k]? ≠ some (-1)) (hlen : val.length ≤ n) :
    feature_transformer_slice_forward idx val weight bias output = none := by
  unfold feature_transformer_slice_forward max_active_features
  dsimp only
  cases copy_to_shared bias (local_array α 520) with
  | none => rfl
  | some shared1 =>
    rw [Option.bind_eq_bind, Option.some_bind,
      forward_scan_short idx val weight n 64 0 shared1 hn
        (by intro i hi; rw [Nat.zero_add]; exact hne i hi) (by omega)]
    rfl

theorem backward_scan_short [Add α] [Mul α] [Zero α] [DecidableEq α] (idx : List Int)
    (val : List α) (shared : List (Option α)) :
    ∀ (m fuel k : Nat) (wg : List α),
      m < fuel → (∀ i, i < m → idx[k + i]? ≠ some (-1)) → val.length ≤ k + m →
      backward_scan idx val shared fuel k wg = none := by
  intro m
  induction m with
  | zero =>
    intro fuel k wg hf _ hlen
    cases fuel with
    | zero => omega
    | succ fuel =>
      rw [backward_scan_succ, List.getElem?_eq_none (by omega : val.length ≤ k)]
      cases idx[k]? <;> rfl
  | succ m ih =>
    intro fuel k wg hf hne hlen
    cases fuel with
    | zero => omega
    | succ fuel =>
      rw [backward_scan_succ]
      cases hi : idx[k]? with
      | none => rfl
      | some feature_index =>
        have hfi : feature_index ≠ -1 := by
          intro h
          have := hne 0 (by omega)
          rw [Nat.add_zero, hi, h] at this
          exact this rfl
        rw [Option.some_bind]
        cases val[k]? with
        | none => rfl
        | some feature_value =>
          rw [Option.some_bind, if_pos hfi]
          cases mul_int32 feature_index output_size with
          | none => rfl
          | some row =>
            rw [Option.some_bind]
            cases backward_accumulate shared (row + slice_offset) feature_value wg with
            | none => rfl
            | some wg1 =>
              rw [Option.some_bind]
              apply ih fuel (k + 1) wg1 (by omega)
              · intro i hi'
                have := hne (i + 1) (by omega)
                rwa [show k + (i + 1) = k + 1 + i by omega] at this
              · omega

theorem backward_short [Add α] [Mul α] [Zero α] [DecidableEq α] (idx : List Int)
    (val wg bg og : List α) (n : Nat) (hn : n < 64)
    (hne : ∀ k, k < n → idx[k]? ≠ some (-1)) (hlen : val.length ≤ n) :
    feature_transformer_slice_backward idx val wg bg og = none := by
  unfold feature_transformer_slice_backward max_active_features
  dsimp only
  cases copy_to_shared og (local_array α 520) with
  | none => rfl
  | some shared1 =>
    rw [Option.bind_eq_bind, Option.some_bind]
    cases backward_bias shared1 bg with
    | none => rfl
    | some bias_grad1 =>
      rw [Option.bind_eq_bind, Option.some_bind,
        backward_scan_short idx val shared1 n 64 0 wg hn
          (by intro i hi; rw [Nat.zero_add]; exact hne i hi) (by omega)]
      rfl

theorem forward_agree [Add α] [Mul α] (idx1 idx2 : List Int)
    (val1 val2 weight bias output : List α) (n : Nat)
    (h1 : idx1[n]? = some (-1)) (h2 : idx2[n]? = some (-1))
    (hidx : ∀ k, k < n → idx1[k]? = idx2[k]?) (hval : ∀ k, k < n → val1[k]? = val2[k]?)
    (hv1 : n < val1.length) (hv2 : n < val2.length) :
    feature_transformer_slice_forward idx1 val1 weight bias output =
      feature_transformer_slice_forward idx2 val2 weight bias output := by
  apply forward_congr_scan
  intro shared
  apply forward_scan_agree idx1 idx2 val1 val2 weight n 64 0 shared
  · intro i hi
    rw [Nat.zero_add]
    exact ⟨hidx i hi, hval i hi⟩
  · rwa [Nat.zero_add]
  · rwa [Nat.zero_add]
  · rw [Nat.zero_add]
    exact ⟨_, List.getElem?_eq_getElem hv1⟩
  · rw [Nat.zero_add]
    exact ⟨_, List.getElem?_eq_getElem hv2⟩

theorem backward_defined [Add α] [Mul α] [Zero α] [DecidableEq α] (idx : List Int)
    (val wg bg og : List α) (num_inputs n : Nat)
    (hidx : idx.length = 64) (hval : val.length = 64)
    (hwg : wg.length = num_inputs * 520) (hnum : num_inputs * 520 < 2 ^ 31)
    (hbg : bg.length = 520) (hog : og.length = 520) (hn : n ≤ 64)
    (hvalid : ∀ k, k < n → 0 ≤ idx.getD k 0 ∧ idx.getD k 0 < num_inputs)
    (hend : n < 64 → idx.getD n 0 = -1) :
    ∃ wg' bg', feature_transformer_slice_backward idx val wg bg og = some (wg', bg') ∧
      wg'.length = num_inputs * 520 ∧ bg'.length = 520 := by
  refine ⟨_, _, backward_spec idx val wg bg og (fun k => (idx.getD k 0).toNat)
    (fun k => val.getD k 0) (fun j => og.getD j 0) (fun j => bg.getD j 0)
    (fun i => wg.getD i 0) n
    (fun j hj => getElem?_eq_some_getD og 0 j (by omega))
    (fun j hj => getElem?_eq_some_getD bg 0 j (by omega)) hbg
    (fun i hi => getElem?_eq_some_getD wg 0 i hi) hn
    (contract_active idx val 0 wg.length num_inputs n hidx hval hwg hnum hn hvalid)
    (contract_end idx val 0 n hidx hval hend), ?_, ?_⟩
  · rw [List.length_map, List.length_range, hwg]
  · rw [List.length_map, List.length_range]

/-- C14, as amended. The feature value at the sentinel position is read but not used:
for an index list whose first `-1` is at position `n < 64`, the positions of
`feature_values` that Forward and Backward read are exactly `0, ..., n`.  Under the
caller contract both kernels return, return the same on the value list cut off after
position `n` (no position after `n` is read) and the same whatever value stands at
position `n` (it is not used); and on every value buffer of at most `n` elements both
kernels fail with an access outside the buffer (position `n` is read). -/
theorem sentinel_value_read [Add α] [Mul α] [Zero α] [DecidableEq α]
    (feature_indices : List Int)
    (feature_values weight bias output weight_grad bias_grad output_grad : List α)
    (num_inputs n : Nat)
    (hidx : feature_indices.length = 64) (hval : feature_values.length = 64)
    (hweight : weight.length = num_inputs * 520) (hnum : num_inputs * 520 < 2 ^ 31)
    (hbias : bias.length = 520) (hout : output.length = 520)
    (hwg : weight_grad.length = num_inputs * 520) (hbg : bias_grad.length = 520)
    (hog : output_grad.length = 520) (hn : n < 64)
    (hvalid : ∀ k, k < n →
      0 ≤ feature_indices.getD k 0 ∧ feature_indices.getD k 0 < num_inputs)
    (hend : feature_indices.getD n 0 = -1) :
    (∃ out,
      feature_transformer_slice_forward feature_indices feature_values weight bias output =
        some out ∧
      feature_transformer_slice_forward feature_indices (feature_values.take (n + 1)) weight
        bias output = some out ∧
      ∀ x, feature_transformer_slice_forward feature_indices (feature_values.set n x) weight
        bias output = some out) ∧
    (∃ grads,
      feature_transformer_slice_backward feature_indices feature_values weight_grad bias_grad
        output_grad = some grads ∧
      feature_transformer_slice_backward feature_indices (feature_values.take (n + 1))
        weight_grad bias_grad output_grad = some grads ∧
      ∀ x, feature_transformer_slice_backward feature_indices (feature_values.set n x)
        weight_grad bias_grad output_grad = some grads) ∧
    (∀ values : List α, values.length ≤ n →
      feature_transformer_slice_forward feature_indices values weight bias output = none ∧
      feature_transformer_slice_backward feature_indices values weight_grad bias_grad
        output_grad = none) := by
  have h1 : feature_indices[n]? = some (-1) := by
    rw [getElem?_eq_some_getD feature_indices 0 n (by omega), hend]
  have hne : ∀ k, k < n → feature_indices[k]? ≠ some (-1) := by
    intro k hk h
    rw [getElem?_eq_some_getD feature_indices 0 k (by omega)] at h
    have := (hvalid k hk).1
    rw [Option.some.inj h] at this
    omega
  have htake : ∀ k, k < n → feature_values[k]? = (feature_values.take (n + 1))[k]? := by
    intro k hk
    rw [List.getElem?_take_of_lt (by omega)]
  have hltake : n < (feature_values.take (n + 1)).length := by
    rw [List.length_take]
    omega
  have hset : ∀ x k, k < n → (feature_values.set n x)[k]? = feature_values[k]? := by
    intro x k hk
    rw [List.getElem?_set_ne (by omega)]
  have hlset : ∀ x, n < (feature_values.set n x).length := by
    intro x
    rw [List.length_set]
    omega
  obtain ⟨out, e1, _⟩ := forward_defined feature_indices feature_values weight bias output
    num_inputs n hidx hval hweight hnum hbias hout (by omega) hvalid (fun _ => hend)
  obtain ⟨wg', bg', e2, _⟩ := backward_defined feature_indices feature_values weight_grad
    bias_grad output_grad num_inputs n hidx hval hwg hnum hbg hog (by omega) hvalid
    (fun _ => hend)
  refine ⟨⟨out, e1, ?_, ?_⟩, ⟨(wg', bg'), e2, ?_, ?_⟩, ?_⟩
  · rw [← e1]
    exact (forward_agree feature_indices feature_indices feature_values _ weight bias output n
      h1 h1 (fun _ _ => rfl) htake (by omega) hltake).symm
  · intro x
    rw [← e1]
    exact forward_agree feature_indices feature_indices _ feature_values weight bias output n
      h1 h1 (fun _ _ => rfl) (hset x) (hlset x) (by omega)
  · rw [← e2]
    exact (backward_agree feature_indices feature_indices feature_values _ weight_grad
      bias_grad output_grad n h1 h1 (fun _ _ => rfl) htake (by omega) hltake).symm
  · intro x
    rw [← e2]
    exact backward_agree feature_indices feature_indices _ feature_values weight_grad bias_grad
      output_grad n h1 h1 (fun _ _ => rfl) (hset x) (hlset x) (by omega)
  · intro values hlen
    exact ⟨forward_short feature_indices values weight bias output n hn hne hlen,
      backward_short feature_indices values weight_grad bias_grad output_grad n hn hne hlen⟩

/-- Witness for C14 as amended: the sentinel is at position 1. -/
theorem sentinel_value_read_witness :
    (∃ out,
      feature_transformer_slice_forward (7 :: -1 :: List.replicate 62 9)
        (2 :: 11 :: List.replicate 62 (13 : ℤ)) (List.replicate (8 * 520) 5)
        (List.replicate 520 1) (List.replicate 520 0) = some out ∧
      feature_transformer_slice_forward (7 :: -1 :: List.replicate 62 9)
        ((2 :: 11 :: List.replicate 62 (13 : ℤ)).take (1 + 1)) (List.replicate (8 * 520) 5)
        (List.replicate 520 1) (List.replicate 520 0) = some out ∧
      ∀ x, feature_transformer_slice_forward (7 :: -1 :: List.replicate 62 9)
        ((2 :: 11 :: List.replicate 62 (13 : ℤ)).set 1 x) (List.replicate (8 * 520) 5)
        (List.replicate 520 1) (List.replicate 520 0) = some out) ∧
    (∃ grads,
      feature_transformer_slice_backward (7 :: -1 :: List.replicate 62 9)
        (2 :: 11 :: List.replicate 62 (13 : ℤ)) (List.replicate (8 * 520) 7)
        (List.replicate 520 1) (List.replicate 520 4) = some grads ∧
      feature_transformer_slice_backward (7 :: -1 :: List.replicate 62 9)
        ((2 :: 11 :: List.replicate 62 (13 : ℤ)).take (1 + 1)) (List.replicate (8 * 520) 7)
        (List.replicate 520 1) (List.replicate 520 4) = some grads ∧
      ∀ x, feature_transformer_slice_backward (7 :: -1 :: List.replicate 62 9)
        ((2 :: 11 :: List.replicate 62 (13 : ℤ)).set 1 x) (List.replicate (8 * 520) 7)
        (List.replicate 520 1) (List.replicate 520 4) = some grads) ∧
    (∀ values : List ℤ, values.length ≤ 1 →
      feature_transformer_slice_forward (7 :: -1 :: List.replicate 62 9) values
        (List.replicate (8 * 520) 5) (List.replicate 520 1) (List.replicate 520 0) = none ∧
      feature_transformer_slice_backward (7 :: -1 :: List.replicate 62 9) values
        (List.replicate (8 * 520) 7) (List.replicate 520 1) (List.replicate 520 4) = none) :=
  sentinel_value_read (7 :: -1 :: List.replicate 62 9) (2 :: 11 :: List.replicate 62 (13 : ℤ))
    (List.replicate (8 * 520) 5) (List.replicate 520 1) (List.replicate 520 0)
    (List.replicate (8 * 520) 7) (List.replicate 520 1) (List.replicate 520 4) 8 1
    (by simp) (by simp) (List.length_replicate _ _) (by norm_num)
    (List.length_replicate _ _) (List.length_replicate _ _) (List.length_replicate _ _)
    (List.length_replicate _ _) (List.length_replicate _ _) (by norm_num)
    (by intro k hk; interval_cases k; simp) (by simp)

/-- C14 fails as stated: with the feature list `[(7, 2), -1, ...]` the sentinel is at
position 1, and both kernels read `feature_values[1]` (lines 101 and 205, before the test
of the index): on a value buffer that holds position 0 only they fail with an access
outside the buffer, on one that holds positions 0 and 1 they return. -/
theorem sentinel_value_counterexample :
    feature_transformer_slice_forward (7 :: -1 :: List.replicate 62 9) [(2 : ℤ)]
        (List.replicate (8 * 520) 5) (List.replicate 520 1) (List.replicate 520 0) = none ∧
      feature_transformer_slice_forward (7 :: -1 :: List.replicate 62 9) [(2 : ℤ), 11]
        (List.replicate (8 * 520) 5) (List.replicate 520 1) (List.replicate 520 0) =
          some (List.replicate 520 11) ∧
      feature_transformer_slice_backward (7 :: -1 :: List.replicate 62 9) [(2 : ℤ)]
        (List.replicate (8 * 520) 7) (List.replicate 520 1) (List.replicate 520 4) = none ∧
      ∃ grads, feature_transformer_slice_backward (7 :: -1 :: List.replicate 62 9)
        [(2 : ℤ), 11] (List.replicate (8 * 520) 7) (List.replicate 520 1)
        (List.replicate 520 4) = some grads := by
  have h0 : (7 :: -1 :: List.replicate 62 9 : List Int)[0]? = some ((7 : Nat) : Int) := by simp
  have h1 : (7 :: -1 :: List.replicate 62 9 : List Int)[1]? = some (-1) := by simp
  have hne : ∀ k, k < 1 → (7 :: -1 :: List.replicate 62 9 : List Int)[k]? ≠ some (-1) := by
    intro k hk
    interval_cases k
    simp
  have hv0 : [(2 : ℤ), 11][0]? = some 2 := rfl
  have hv1 : [(2 : ℤ), 11][1]? = some 11 := rfl
  refine ⟨forward_short _ _ _ _ _ 1 (by omega) hne (by simp), ?_,
    backward_short _ _ _ _ _ 1 (by omega) hne (by simp), ?_⟩
  · rw [forward_one_feature _ _ _ _ _ 7 2 11 (fun _ => 5) (fun _ => 1) h0 h1 hv0 hv1
      (by rw [List.length_replicate]) (by norm_num)
      (by
        intro i hi
        rw [List.length_replicate] at hi
        rw [List.getElem?_replicate, if_pos hi])
      (by
        intro j hj
        rw [List.getElem?_replicate, if_pos hj])
      (List.length_replicate _ _), List.map_const', List.length_range]
    rfl
  · exact ⟨_, backward_spec _ _ _ _ _ (fun _ => 7) (fun _ => 2) (fun _ => 4) (fun _ => 1)
      (fun _ => 7) 1
      (by
        intro j hj
        rw [List.getElem?_replicate, if_pos hj])
      (by
        intro j hj
        rw [List.getElem?_replicate, if_pos hj])
      (List.length_replicate _ _)
      (by
        intro i hi
        rw [List.length_replicate] at hi
        rw [List.getElem?_replicate, if_pos hi])
      (by omega)
      (by
        intro i hi
        have : i = 0 := by omega
        subst this
        exact ⟨h0, hv0, by rw [List.length_replicate]; dsimp only; omega, by norm_num⟩)
      (fun _ => ⟨h1, 11, hv1⟩)⟩

/-! ## C15: single-feature linearity -/

/-- C15. Single-feature linearity: for a feature list with exactly one active pair
`(index, value)` followed by `-1`, Forward writes
`output[j] = bias[j] + value * weight[index][j]` for every column `j`; and in the
scenario `bias = [1,1,1,1,...]`, `weight[7] = [2,0,1,3,...]`,
`feature_indices = [7, -1, ...]`, `feature_values = [0.5, 0, ...]` (the scenario's four
columns are the first four of the 520, its two slots the first two of the 64) the output
on those four columns is `[2, 1, 1.5, 2.5]`. -/
theorem forward_single_feature [Add α] [CommMagma α] [Zero α] :
    (∀ (index : Nat) (value : α) (rest : List Int) (tail weight bias output : List α)
        (num_inputs : Nat),
      0 < tail.length → weight.length = num_inputs * 520 → num_inputs * 520 < 2 ^ 31 →
      bias.length = 520 → output.length = 520 → index < num_inputs →
      feature_transformer_slice_forward ((index : Int) :: -1 :: rest) (value :: tail)
          weight bias output =
        some ((List.range 520).map fun j =>
          bias.getD j 0 + value * weight.getD (index * 520 + j) 0)) ∧
    (∀ (rest : List Int) (tail weight bias output : List ℚ) (num_inputs : Nat),
      weight.length = num_inputs * 520 → num_inputs * 520 < 2 ^ 31 →
      bias.length = 520 → output.length = 520 → 7 < num_inputs →
      bias[0]? = some 1 → bias[1]? = some 1 → bias[2]? = some 1 → bias[3]? = some 1 →
      weight[7 * 520 + 0]? = some 2 → weight[7 * 520 + 1]? = some 0 →
      weight[7 * 520 + 2]? = some 1 → weight[7 * 520 + 3]? = some 3 →
      ∃ out,
        feature_transformer_slice_forward (7 :: -1 :: rest) (1 / 2 :: 0 :: tail)
          weight bias output = some out ∧
        out.length = 520 ∧ out[0]? = some 2 ∧ out[1]? = some 1 ∧ out[2]? = some (3 / 2) ∧
        out[3]? = some (5 / 2)) := by
  constructor
  · intro index value rest tail weight bias output num_inputs ht hweight hnum hbias hout hindex
    rw [forward_one_feature ((index : Int) :: -1 :: rest) (value :: tail) weight bias output
      index value (tail.get ⟨0, ht⟩) (fun i => weight.getD i 0) (fun j => bias.getD j 0)
      (by simp) (by simp) (by simp) (by simp [List.getElem?_eq_getElem ht]) (by omega) (by omega)
      (fun i hi => getElem?_eq_some_getD weight 0 i hi)
      (fun j hj => getElem?_eq_some_getD bias 0 j (by omega)) hout]
    simp only [mul_comm]
  · intro rest tail weight bias output num_inputs hweight hnum hbias hout hrow b0 b1 b2 b3
      w0 w1 w2 w3
    refine ⟨_, forward_one_feature (7 :: -1 :: rest) (1 / 2 :: 0 :: tail) weight bias output
      7 (1 / 2) 0 (fun i => weight.getD i 0) (fun j => bias.getD j 0)
      (by simp) (by simp) (by simp) (by simp) (by omega) (by norm_num)
      (fun i hi => getElem?_eq_some_getD weight 0 i hi)
      (fun j hj => getElem?_eq_some_getD bias 0 j (by omega)) hout, ?_, ?_, ?_, ?_, ?_⟩
    · rw [List.length_map, List.length_range]
    · rw [getElem?_map_range _ _ _ (by omega)]
      dsimp only
      rw [getD_of_getElem? bias 0 1 0 b0,
        getD_of_getElem? weight (7 * 520 + 0) 2 0 w0]
      norm_num
    · rw [getElem?_map_range _ _ _ (by omega)]
      dsimp only
      rw [getD_of_getElem? bias 1 1 0 b1,
        getD_of_getElem? weight (7 * 520 + 1) 0 0 w1]
      norm_num
    · rw [getElem?_map_range _ _ _ (by omega)]
      dsimp only
      rw [getD_of_getElem? bias 2 1 0 b2,
        getD_of_getElem? weight (7 * 520 + 2) 1 0 w2]
      norm_num
    · rw [getElem?_map_range _ _ _ (by omega)]
      dsimp only
      rw [getD_of_getElem? bias 3 1 0 b3,
        getD_of_getElem? weight (7 * 520 + 3) 3 0 w3]
      norm_num

/-- Witness for C15: the scenario in an 8-row matrix whose other entries are 0. -/
theorem forward_single_feature_witness :
    feature_transformer_slice_forward (((7 : Nat) : Int) :: -1 :: List.replicate 62 9)
        ((1 / 2 : ℚ) :: List.replicate 63 0)
        (List.replicate (7 * 520) 0 ++ (2 :: 0 :: 1 :: 3 :: List.replicate 516 0))
        (List.replicate 520 1) (List.replicate 520 0) =
      some ((List.range 520).map fun j =>
        (List.replicate 520 (1 : ℚ)).getD j 0 + 1 / 2 *
          (List.replicate (7 * 520) (0 : ℚ) ++ (2 :: 0 :: 1 :: 3 :: List.replicate 516 0)).getD
            (7 * 520 + j) 0) ∧
    ∃ out,
      feature_transformer_slice_forward (7 :: -1 :: List.replicate 62 9)
        ((1 / 2 : ℚ) :: 0 :: List.replicate 62 0)
        (List.replicate (7 * 520) 0 ++ (2 :: 0 :: 1 :: 3 :: List.replicate 516 0))
        (List.replicate 520 1) (List.replicate 520 0) = some out ∧
      out.length = 520 ∧ out[0]? = some 2 ∧ out[1]? = some 1 ∧ out[2]? = some (3 / 2) ∧
      out[3]? = some (5 / 2) :=
  have hw : (List.replicate (7 * 520) (0 : ℚ) ++
      (2 :: 0 :: 1 :: 3 :: List.replicate 516 0)).length = 8 * 520 := by
    rw [List.length_append, List.length_replicate, List.length_cons, List.length_cons,
      List.length_cons, List.length_cons, List.length_replicate]
  have hb : ∀ j, j < 520 → (List.replicate 520 (1 : ℚ))[j]? = some 1 := by
    intro j hj
    rw [List.getElem?_replicate, if_pos hj]
  have hl : (List.replicate (7 * 520) (0 : ℚ)).length = 7 * 520 := List.length_replicate _ _
  ⟨(@forward_single_feature ℚ _ _ _).1 7 (1 / 2) (List.replicate 62 9) (List.replicate 63 0) _
      (List.replicate 520 1) (List.replicate 520 0) 8
      (by rw [List.length_replicate]; omega) hw (by norm_num) (List.length_replicate _ _)
      (List.length_replicate _ _) (by omega),
    (@forward_single_feature ℚ _ _ _).2 (List.replicate 62 9) (List.replicate 62 0) _
      (List.replicate 520 1) (List.replicate 520 0) 8 hw (by norm_num)
      (List.length_replicate _ _) (List.length_replicate _ _) (by omega)
      (hb 0 (by omega)) (hb 1 (by omega)) (hb 2 (by omega)) (hb 3 (by omega))
      (by
        rw [List.getElem?_append_right (le_of_eq_of_le hl (Nat.le_add_right _ _)), hl,
          show 7 * 520 + 0 - 7 * 520 = 0 from by norm_num]
        simp only [List.getElem?_cons_succ, List.getElem?_cons_zero])
      (by
        rw [List.getElem?_append_right (le_of_eq_of_le hl (Nat.le_add_right _ _)), hl,
          show 7 * 520 + 1 - 7 * 520 = 1 from by norm_num]
        simp only [List.getElem?_cons_succ, List.getElem?_cons_zero])
      (by
        rw [List.getElem?_append_right (le_of_eq_of_le hl (Nat.le_add_right _ _)), hl,
          show 7 * 520 + 2 - 7 * 520 = 2 from by norm_num]
        simp only [List.getElem?_cons_succ, List.getElem?_cons_zero])
      (by
        rw [List.getElem?_append_right (le_of_eq_of_le hl (Nat.le_add_right _ _)), hl,
          show 7 * 520 + 3 - 7 * 520 = 3 from by norm_num]
        simp only [List.getElem?_cons_succ, List.getElem?_cons_zero])⟩

/-! ## C16: Backward is the adjoint of the linear part of Forward -/

theorem adjoint_sum [CommRing α] (W V G : Nat → α) (R : Nat → Nat) (N n : Nat)
    (hR : ∀ k, k < n → R k < N) :
    ∑ j in Finset.range 520, G j * ∑ k in Finset.range n, V k * W (R k * 520 + j) =
      ∑ i in Finset.range N, ∑ j in Finset.range 520,
        W (i * 520 + j) * ∑ k in Finset.range n, if R k = i then V k * G j else 0 := by
  rw [Finset.sum_comm]
  apply Finset.sum_congr rfl
  intro j _
  rw [Finset.mul_sum]
  have h1 : ∀ i, W (i * 520 + j) * ∑ k in Finset.range n, (if R k = i then V k * G j else 0) =
      ∑ k in Finset.range n, if R k = i then W (i * 520 + j) * (V k * G j) else 0 := by
    intro i
    rw [Finset.mul_sum]
    apply Finset.sum_congr rfl
    intro k _
    rw [mul_ite, mul_zero]
  simp only [h1]
  rw [Finset.sum_comm]
  apply Finset.sum_congr rfl
  intro k hk
  rw [Finset.sum_ite_eq, if_pos (Finset.mem_range.mpr (hR k (Finset.mem_range.mp hk)))]
  ring

/-- C16. Backward is the exact adjoint of the linear part of Forward: under the caller
contract, with `output` the result of Forward and `weight_grad` the result of Backward on
all-zero accumulators, `Σ_j output_grad[j] * (output[j] - bias[j])` equals
`Σ_i Σ_j weight[i][j] * weight_grad[i][j]` (exact arithmetic: a commutative ring), also
when the active prefix holds an index several times. -/
theorem backward_adjoint [CommRing α] [DecidableEq α] (feature_indices : List Int)
    (feature_values weight bias output output_grad : List α) (num_inputs n : Nat)
    (hidx : feature_indices.length = 64) (hval : feature_values.length = 64)
    (hweight : weight.length = num_inputs * 520) (hnum : num_inputs * 520 < 2 ^ 31)
    (hbias : bias.length = 520) (hout : output.length = 520)
    (hog : output_grad.length = 520) (hn : n ≤ 64)
    (hvalid : ∀ k, k < n →
      0 ≤ feature_indices.getD k 0 ∧ feature_indices.getD k 0 < num_inputs)
    (hend : n < 64 → feature_indices.getD n 0 = -1) :
    ∃ out weight_grad' bias_grad',
      feature_transformer_slice_forward feature_indices feature_values weight bias output =
        some out ∧
      feature_transformer_slice_backward feature_indices feature_values
        (List.replicate (num_inputs * 520) 0) (List.replicate 520 0) output_grad =
          some (weight_grad', bias_grad') ∧
      ∑ j in Finset.range 520, output_grad.getD j 0 * (out.getD j 0 - bias.getD j 0) =
        ∑ i in Finset.range num_inputs, ∑ j in Finset.range 520,
          weight.getD (i * 520 + j) 0 * weight_grad'.getD (i * 520 + j) 0 := by
  refine ⟨_, _, _,
    forward_sum feature_indices feature_values weight bias output num_inputs n hidx hval
      hweight hnum hbias hout hn hvalid hend,
    backward_sum feature_indices feature_values (List.replicate (num_inputs * 520) 0)
      (List.replicate 520 0) output_grad num_inputs n hidx hval (List.length_replicate _ _)
      hnum (List.length_replicate _ _) hog hn hvalid hend, ?_⟩
  have hL : ∑ j in Finset.range 520, output_grad.getD j 0 *
        (((List.range 520).map fun j => bias.getD j 0 + ∑ k in Finset.range n,
            feature_values.getD k 0 *
              weight.getD ((feature_indices.getD k 0).toNat * 520 + j) 0).getD j 0 -
          bias.getD j 0) =
      ∑ j in Finset.range 520, output_grad.getD j 0 * ∑ k in Finset.range n,
        feature_values.getD k 0 *
          weight.getD ((feature_indices.getD k 0).toNat * 520 + j) 0 := by
    apply Finset.sum_congr rfl
    intro j hj
    rw [getD_map_range _ _ _ _ (Finset.mem_range.mp hj), add_sub_cancel_left]
  have hR : ∑ i in Finset.range num_inputs, ∑ j in Finset.range 520,
        weight.getD (i * 520 + j) 0 *
          ((List.range (num_inputs * 520)).map (fun p =>
            (List.replicate (num_inputs * 520) (0 : α)).getD p 0 + ∑ k in Finset.range n,
              if (feature_indices.getD k 0).toNat = p / 520
                then feature_values.getD k 0 * output_grad.getD (p % 520) 0
                else 0)).getD (i * 520 + j) 0 =
      ∑ i in Finset.range num_inputs, ∑ j in Finset.range 520,
        weight.getD (i * 520 + j) 0 * ∑ k in Finset.range n,
          if (feature_indices.getD k 0).toNat = i
            then feature_values.getD k 0 * output_grad.getD j 0 else 0 := by
    apply Finset.sum_congr rfl
    intro i hi
    apply Finset.sum_congr rfl
    intro j hj
    have hi' : i < num_inputs := Finset.mem_range.mp hi
    have hj' : j < 520 := Finset.mem_range.mp hj
    have e1 : (i * 520 + j) / 520 = i := by omega
    have e2 : (i * 520 + j) % 520 = j := by omega
    rw [getD_map_range _ _ _ _ (by omega), getD_replicate_zero, zero_add, e1, e2]
  rw [hL, hR]
  exact adjoint_sum (fun p => weight.getD p 0) (fun k => feature_values.getD k 0)
    (fun j => output_grad.getD j 0) (fun k => (feature_indices.getD k 0).toNat) num_inputs n
    (by
      intro k hk
      have := hvalid k hk
      dsimp only
      omega)

/-- Witness for C16: index 3 occurs twice in the active prefix `[3, 5, 3]`. -/
theorem backward_adjoint_witness :
    ∃ out weight_grad' bias_grad',
      feature_transformer_slice_forward (3 :: 5 :: 3 :: List.replicate 61 (-1))
        (List.replicate 64 (2 : ℤ)) (List.replicate (8 * 520) 5) (List.replicate 520 1)
        (List.replicate 520 0) = some out ∧
      feature_transformer_slice_backward (3 :: 5 :: 3 :: List.replicate 61 (-1))
        (List.replicate 64 (2 : ℤ)) (List.replicate (8 * 520) 0) (List.replicate 520 0)
        (List.replicate 520 4) = some (weight_grad', bias_grad') ∧
      ∑ j in Finset.range 520, (List.replicate 520 (4 : ℤ)).getD j 0 *
          (out.getD j 0 - (List.replicate 520 (1 : ℤ)).getD j 0) =
        ∑ i in Finset.range 8, ∑ j in Finset.range 520,
          (List.replicate (8 * 520) (5 : ℤ)).getD (i * 520 + j) 0 *
            weight_grad'.getD (i * 520 + j) 0 :=
  backward_adjoint (3 :: 5 :: 3 :: List.replicate 61 (-1)) (List.replicate 64 (2 : ℤ))
    (List.replicate (8 * 520) 5) (List.replicate 520 1) (List.replicate 520 0)
    (List.replicate 520 4) 8 3
    (by simp) (List.length_replicate _ _) (List.length_replicate _ _) (by norm_num)
    (List.length_replicate _ _) (List.length_replicate _ _) (List.length_replicate _ _)
    (by norm_num)
    (by intro k hk; interval_cases k <;> simp)
    (by intro _; simp)

/-! ## C17: under the caller contract every access is in bounds -/

theorem forward_scan_fuel [Add α] [Mul α] (idx : List Int) (val weight : List α) :
    ∀ (m fuel k : Nat) (shared : List (Option α)),
      m < fuel → idx[k + m]? = some (-1) → (∃ x, val[k + m]? = some x) →
      forward_scan idx val weight fuel k shared =
        forward_scan idx val weight (m + 1) k shared := by
  intro m
  induction m with
  | zero =>
    intro fuel k shared hf h1 hx
    cases fuel with
    | zero => omega
    | succ fuel =>
      obtain ⟨x, hx⟩ := hx
      rw [forward_scan_stop idx val weight fuel k shared x h1 hx,
        forward_scan_stop idx val weight 0 k shared x h1 hx]
  | succ m ih =>
    intro fuel k shared hf h1 hx
    cases fuel with
    | zero => omega
    | succ fuel =>
      rw [forward_scan_succ, forward_scan_succ]
      refine congrArg _ (funext fun feature_index => congrArg _ (funext fun feature_value => ?_))
      by_cases hne : feature_index ≠ -1
      · rw [if_pos hne, if_pos hne]
        refine congrArg _ (funext fun row => congrArg _ (funext fun shared1 => ?_))
        apply ih fuel (k + 1) shared1 (by omega)
        · rwa [show k + (m + 1) = k + 1 + m by omega] at h1
        · rwa [show k + (m + 1) = k + 1 + m by omega] at hx
      · rw [if_neg hne, if_neg hne]

theorem backward_scan_fuel [Add α] [Mul α] [Zero α] [DecidableEq α] (idx : List Int)
    (val : List α) (shared : List (Option α)) :
    ∀ (m fuel k : Nat) (wg : List α),
      m < fuel → idx[k + m]? = some (-1) → (∃ x, val[k + m]? = some x) →
      backward_scan idx val shared fuel k wg = backward_scan idx val shared (m + 1) k wg := by
  intro m
  induction m with
  | zero =>
    intro fuel k wg hf h1 hx
    cases fuel with
    | zero => omega
    | succ fuel =>
      obtain ⟨x, hx⟩ := hx
      rw [backward_scan_stop idx val shared fuel k wg x h1 hx,
        backward_scan_stop idx val shared 0 k wg x h1 hx]
  | succ m ih =>
    intro fuel k wg hf h1 hx
    cases fuel with
    | zero => omega
    | succ fuel =>
      rw [backward_scan_succ, backward_scan_succ]
      refine congrArg _ (funext fun feature_index => congrArg _ (funext fun feature_value => ?_))
      by_cases hne : feature_index ≠ -1
      · rw [if_pos hne, if_pos hne]
        refine congrArg _ (funext fun row => congrArg _ (funext fun wg1 => ?_))
        apply ih fuel (k + 1) wg1 (by omega)
        · rwa [show k + (m + 1) = k + 1 + m by omega] at h1
        · rwa [show k + (m + 1) = k + 1 + m by omega] at hx
      · rw [if_neg hne, if_neg hne]

theorem wrap_int32_row (x : Int) (num_inputs : Nat) (hnum : num_inputs * 520 < 2 ^ 31)
    (h0 : 0 ≤ x) (h1 : x < num_inputs) : wrap_int32 (x * output_size) = x * output_size := by
  unfold wrap_int32 output_size
  norm_num at hnum ⊢
  omega

/-- C17. Under the caller contract (`NUM_INPUTS * 520 <= 2^31 - 1`, lists of length 64
whose entries before the first `-1` lie in `[0, NUM_INPUTS)`, buffers of their declared
sizes) the 32-bit product `feature_index * output_size` equals the mathematical product,
every position `feature_index * 520 + s`, `s < 520`, lies in `[0, NUM_INPUTS * 520)`,
both kernels return (no access of the bounds-checked embedding leaves its buffer: the
520-element rows and local arrays, the 64-element feature lists, the matrices), and the
scans of the two kernels end after `n + 1` iterations when the sentinel is at
`n < 64`, after 64 otherwise. -/
theorem contract_safety [Add α] [Mul α] [Zero α] [DecidableEq α]
    (feature_indices : List Int)
    (feature_values weight bias output weight_grad bias_grad output_grad : List α)
    (num_inputs n : Nat)
    (hidx : feature_indices.length = 64) (hval : feature_values.length = 64)
    (hweight : weight.length = num_inputs * 520) (hnum : num_inputs * 520 < 2 ^ 31)
    (hbias : bias.length = 520) (hout : output.length = 520)
    (hwg : weight_grad.length = num_inputs * 520) (hbg : bias_grad.length = 520)
    (hog : output_grad.length = 520) (hn : n ≤ 64)
    (hvalid : ∀ k, k < n →
      0 ≤ feature_indices.getD k 0 ∧ feature_indices.getD k 0 < num_inputs)
    (hend : n < 64 → feature_indices.getD n 0 = -1) :
    (∀ k, k < n →
      wrap_int32 (feature_indices.getD k 0 * output_size) =
        feature_indices.getD k 0 * output_size ∧
      mul_int32 (feature_indices.getD k 0) output_size =
        some (feature_indices.getD k 0 * 520)) ∧
    (∀ k s : Nat, k < n → s < 520 →
      0 ≤ feature_indices.getD k 0 * 520 + (s : Int) ∧
      feature_indices.getD k 0 * 520 + (s : Int) < ((num_inputs * 520 : Nat) : Int) ∧
      ∃ p, element_at (feature_indices.getD k 0 * 520 + (slice_offset : Nat)) s = some p ∧
        p < weight.length ∧ p < weight_grad.length) ∧
    (∃ out,
      feature_transformer_slice_forward feature_indices feature_values weight bias output =
        some out ∧ out.length = 520) ∧
    (∃ weight_grad' bias_grad',
      feature_transformer_slice_backward feature_indices feature_values weight_grad bias_grad
        output_grad = some (weight_grad', bias_grad') ∧
      weight_grad'.length = num_inputs * 520 ∧ bias_grad'.length = 520) ∧
    (∀ shared : List (Option α),
      forward_scan feature_indices feature_values weight max_active_features 0 shared =
        forward_scan feature_indices feature_values weight (min (n + 1) 64) 0 shared) ∧
    (∀ (shared : List (Option α)) (w : List α),
      backward_scan feature_indices feature_values shared max_active_features 0 w =
        backward_scan feature_indices feature_values shared (min (n + 1) 64) 0 w) := by
  refine ⟨?_, ?_,
    forward_defined feature_indices feature_values weight bias output num_inputs n hidx hval
      hweight hnum hbias hout hn hvalid hend,
    backward_defined feature_indices feature_values weight_grad bias_grad output_grad
      num_inputs n hidx hval hwg hnum hbg hog hn hvalid hend, ?_, ?_⟩
  · intro k hk
    obtain ⟨h0, h1⟩ := hvalid k hk
    have hw := wrap_int32_row (feature_indices.getD k 0) num_inputs hnum h0 h1
    refine ⟨hw, ?_⟩
    unfold mul_int32
    rw [if_pos hw]
    rfl
  · intro k s hk hs
    obtain ⟨h0, h1⟩ := hvalid k hk
    refine ⟨by omega, by omega, (feature_indices.getD k 0).toNat * 520 + s, ?_, by omega,
      by omega⟩
    unfold element_at slice_offset
    have e1 : 0 ≤ feature_indices.getD k 0 * 520 + ((0 : Nat) : Int) + (s : Int) := by omega
    have e2 : (feature_indices.getD k 0 * 520 + ((0 : Nat) : Int) + (s : Int)).toNat =
        (feature_indices.getD k 0).toNat * 520 + s := by omega
    rw [if_pos e1, e2]
  · intro shared
    unfold max_active_features
    by_cases hlt : n < 64
    · rw [show min (n + 1) 64 = n + 1 by omega]
      apply forward_scan_fuel feature_indices feature_values weight n 64 0 shared hlt
      · rw [Nat.zero_add, getElem?_eq_some_getD feature_indices 0 n (by omega), hend hlt]
      · rw [Nat.zero_add]
        exact ⟨_, List.getElem?_eq_getElem (by omega)⟩
    · rw [show min (n + 1) 64 = 64 by omega]
  · intro shared w
    unfold max_active_features
    by_cases hlt : n < 64
    · rw [show min (n + 1) 64 = n + 1 by omega]
      apply backward_scan_fuel feature_indices feature_values shared n 64 0 w hlt
      · rw [Nat.zero_add, getElem?_eq_some_getD feature_indices 0 n (by omega), hend hlt]
      · rw [Nat.zero_add]
        exact ⟨_, List.getElem?_eq_getElem (by omega)⟩
    · rw [show min (n + 1) 64 = 64 by omega]

/-- Witness for C17: active prefix `[3, 5, 3]` in an 8-row matrix, sentinel at 3. -/
theorem contract_safety_witness :
    (∀ k, k < 3 →
      wrap_int32 ((3 :: 5 :: 3 :: List.replicate 61 (-1) : List Int).getD k 0 * output_size) =
        (3 :: 5 :: 3 :: List.replicate 61 (-1) : List Int).getD k 0 * output_size ∧
      mul_int32 ((3 :: 5 :: 3 :: List.replicate 61 (-1) : List Int).getD k 0) output_size =
        some ((3 :: 5 :: 3 :: List.replicate 61 (-1) : List Int).getD k 0 * 520)) ∧
    (∀ k s : Nat, k < 3 → s < 520 →
      0 ≤ (3 :: 5 :: 3 :: List.replicate 61 (-1) : List Int).getD k 0 * 520 + (s : Int) ∧
      (3 :: 5 :: 3 :: List.replicate 61 (-1) : List Int).getD k 0 * 520 + (s : Int) <
        ((8 * 520 : Nat) : Int) ∧
      ∃ p, element_at ((3 :: 5 :: 3 :: List.replicate 61 (-1) : List Int).getD k 0 * 520 +
          (slice_offset : Nat)) s = some p ∧
        p < (List.replicate (8 * 520) (5 : ℤ)).length ∧
        p < (List.replicate (8 * 520) (7 : ℤ)).length) ∧
    (∃ out,
      feature_transformer_slice_forward (3 :: 5 :: 3 :: List.replicate 61 (-1))
        (List.replicate 64 (2 : ℤ)) (List.replicate (8 * 520) 5) (List.replicate 520 1)
        (List.replicate 520 0) = some out ∧ out.length = 520) ∧
    (∃ weight_grad' bias_grad',
      feature_transformer_slice_backward (3 :: 5 :: 3 :: List.replicate 61 (-1))
        (List.replicate 64 (2 : ℤ)) (List.replicate (8 * 520) 7) (List.replicate 520 1)
        (List.replicate 520 4) = some (weight_grad', bias_grad') ∧
      weight_grad'.length = 8 * 520 ∧ bias_grad'.length = 520) ∧
    (∀ shared : List (Option ℤ),
      forward_scan (3 :: 5 :: 3 :: List.replicate 61 (-1)) (List.replicate 64 (2 : ℤ))
          (List.replicate (8 * 520) 5) max_active_features 0 shared =
        forward_scan (3 :: 5 :: 3 :: List.replicate 61 (-1)) (List.replicate 64 (2 : ℤ))
          (List.replicate (8 * 520) 5) (min (3 + 1) 64) 0 shared) ∧
    (∀ (shared : List (Option ℤ)) (w : List ℤ),
      backward_scan (3 :: 5 :: 3 :: List.replicate 61 (-1)) (List.replicate 64 (2 : ℤ))
          shared max_active_features 0 w =
        backward_scan (3 :: 5 :: 3 :: List.replicate 61 (-1)) (List.replicate 64 (2 : ℤ))
          shared (min (3 + 1) 64) 0 w) :=
  contract_safety (3 :: 5 :: 3 :: List.replicate 61 (-1)) (List.replicate 64 (2 : ℤ))
    (List.replicate (8 * 520) 5) (List.replicate 520 1) (List.replicate 520 0)
    (List.replicate (8 * 520) 7) (List.replicate 520 1) (List.replicate 520 4) 8 3
    (by simp) (List.length_replicate _ _) (List.length_replicate _ _) (by norm_num)
    (List.length_replicate _ _) (List.length_replicate _ _) (List.length_replicate _ _)
    (List.length_replicate _ _) (List.length_replicate _ _) (by norm_num)
    (by intro k hk; interval_cases k <;> simp)
    (by intro _; simp)

end FeatureTransformer
